import Mathlib

/-!
Verification of the lzma-rust2 codec library against its natural-language
specification.  The Lean definitions below are shallow embeddings of the
Rust source: machine integers are modelled as `Nat` with explicit
`% 2^w` at the points where the Rust code performs wrapping arithmetic,
byte buffers are `List Nat`, and fallible operations return `Except`.
-/

namespace LzmaRust

/-! ## Error kinds

The crate-root error helpers (`error_invalid_input`, `error_invalid_data`,
`copy_error`, `Error`) live in the crate root, which is not part of the
source tree under verification; only their names and uses appear in the
sources.  Modelled from the spec: errors carry an `io::ErrorKind`-style
kind and a message, §7 of the spec lists the kinds; the helper names in
the sources (`error_invalid_input` / `error_invalid_data`) fix which kind
each helper constructs. -/

inductive ErrKind where
  | invalidInput
  | invalidData
  | unexpectedEof
  | unsupported
  | brokenPipe
  | other
  deriving DecidableEq, Repr

structure Err where
  kind : ErrKind
  message : String
  deriving DecidableEq, Repr

/-- Modelled from the spec: crate-root helper missing from `src/`; builds an
error of kind `InvalidInput` with the given message. -/
def error_invalid_input (msg : String) : Err := ⟨ErrKind.invalidInput, msg⟩

/-- Modelled from the spec: crate-root helper missing from `src/`; builds an
error of kind `InvalidData` with the given message. -/
def error_invalid_data (msg : String) : Err := ⟨ErrKind.invalidData, msg⟩

/-- Modelled from the spec: crate-root helper missing from `src/`; clones an
error, preserving kind and message (`Error::new(error.kind(), error.to_string())`). -/
def copy_error (e : Err) : Err := e

/-! ## Range coder constants

The numeric constants live in the crate root, which is not part of the
source tree under verification.  Modelled from the spec: probabilities are
11-bit (`BIT_MODEL_TOTAL = 2048`, §3.2), fixed-point updates shift by 5
(§3.2), renormalization happens when `range < 2^24` and shifts one byte
(§3.1, §4.1).  `RC_BIT_MODEL_OFFSET` is the xz-style constant
`((1 << MOVE_BITS) - 1) - BIT_MODEL_TOTAL` wrapped to `u32`; it is what
makes the branchless masked blend in `RangeDecoder::decode_bit` perform
the §3.2 update. -/

def U8 : Nat := 2 ^ 8
def U16 : Nat := 2 ^ 16
def U32 : Nat := 2 ^ 32
def U64 : Nat := 2 ^ 64

def SHIFT_BITS : Nat := 8
def BIT_MODEL_TOTAL_BITS : Nat := 11
def BIT_MODEL_TOTAL : Nat := 2 ^ BIT_MODEL_TOTAL_BITS
def MOVE_BITS : Nat := 5
def TOP_MASK : Nat := 0xFF000000
def PROB_INIT : Nat := BIT_MODEL_TOTAL / 2
def RC_BIT_MODEL_OFFSET : Nat := (U32 + (1 <<< MOVE_BITS) - 1 - BIT_MODEL_TOTAL) % U32

/-! ## Probability updates (`src/enc/range_enc.rs`, `src/range_dec.rs`)

`encodeBitProbUpd` is the update performed by `RangeEncoder::encode_bit`
on the addressed probability (u16/u32 wrapping as in the source);
`decodeBitProbUpd` is the branchless masked update performed by
`RangeDecoder::decode_bit`, where `mask` is `0` when the decoded bit is 0
and `0xFFFFFFFF` when it is 1. -/

/-- Probability update of `RangeEncoder::encode_bit` for bit 0:
`*prob += ((BIT_MODEL_TOTAL.wrapping_sub(*prob as u32)) >> MOVE_BITS) as u16`. -/
def encodeBitProbUpd0 (p : Nat) : Nat :=
  (p + ((BIT_MODEL_TOTAL + U32 - p) % U32) >>> MOVE_BITS % U16) % U16

/-- Probability update of `RangeEncoder::encode_bit` for bit 1:
`*prob -= (*prob) >> MOVE_BITS`. -/
def encodeBitProbUpd1 (p : Nat) : Nat :=
  p - p >>> MOVE_BITS

/-- Probability update of `RangeDecoder::decode_bit`:
`let offset = RC_BIT_MODEL_OFFSET & !mask; *prob = (p - ((p + offset) >> MOVE_BITS)) as u16`
with u32 wrapping subtraction. -/
def decodeBitProbUpd (mask p : Nat) : Nat :=
  let offset := RC_BIT_MODEL_OFFSET &&& (mask ^^^ (U32 - 1))
  (p + U32 - ((p + offset) % U32) >>> MOVE_BITS) % U32 % U16

/-- Spec formula (§3.2) after bit 0: `p += (2048 - p) >> 5`. -/
def specProbUpd0 (p : Nat) : Nat := p + (2048 - p) >>> 5

/-- Spec formula (§3.2) after bit 1: `p -= p >> 5`. -/
def specProbUpd1 (p : Nat) : Nat := p - p >>> 5

/-! ## `RangeDecoderBuffer` (`src/range_dec.rs`) -/

structure RangeDecoderBuffer where
  buf : List Nat
  pos : Nat
  deriving DecidableEq, Repr

namespace RangeDecoderBuffer

/-- `RangeDecoderBuffer::new(len)`: zero-filled buffer with `pos = len`. -/
def new (len : Nat) : RangeDecoderBuffer := ⟨List.replicate len 0, len⟩

/-- `<RangeDecoderBuffer as RangeReader>::read_u8`: out-of-bound reads
return 0 (`*self.buf.get(self.pos).unwrap_or(&0)`), the position always
advances, and the function never returns an error. -/
def read_u8 (b : RangeDecoderBuffer) : Except Err (Nat × RangeDecoderBuffer) :=
  let byte := b.buf.getD b.pos 0
  Except.ok (byte, ⟨b.buf, b.pos + 1⟩)

end RangeDecoderBuffer

/-! ## Delta filter (`src/filter/delta.rs`)

`DIS_MASK = MAX_DISTANCE - 1 = 255`, so indexing with
`(self.distance.wrapping_add(pos)) & DIS_MASK` and `pos & DIS_MASK`
is arithmetic mod 256 (the `usize` wrap of the addition does not change
the low 8 bits). -/

structure Delta where
  distance : Nat
  history : Nat → Nat
  pos : Nat

namespace Delta

/-- `Delta::new(distance)`: zeroed 256-byte history, `pos = 0`. -/
def new (distance : Nat) : Delta := ⟨distance, fun _ => 0, 0⟩

/-- One step of `Delta::decode`: `*item = item.wrapping_add(h)`, the decoded
byte is stored into the history, `pos` decrements with u8 wrap. -/
def decodeStep (d : Delta) (item : Nat) : Nat × Delta :=
  let h := d.history ((d.distance + d.pos) % 256)
  let out := (item + h) % 256
  (out, ⟨d.distance, fun i => if i = d.pos % 256 then out else d.history i,
         (d.pos + 256 - 1) % 256⟩)

/-- One step of `Delta::encode`: `*item = item.wrapping_sub(h)`, the original
byte is stored into the history, `pos` decrements with u8 wrap. -/
def encodeStep (d : Delta) (item : Nat) : Nat × Delta :=
  let h := d.history ((d.distance + d.pos) % 256)
  let out := (item + 256 - h % 256) % 256
  (out, ⟨d.distance, fun i => if i = d.pos % 256 then item else d.history i,
         (d.pos + 256 - 1) % 256⟩)

/-- `Delta::decode` over a whole buffer (`DeltaReader` applies it to every
byte read, threading the filter state). -/
def decode (d : Delta) : List Nat → List Nat × Delta
  | [] => ([], d)
  | b :: bs =>
      let (o, d') := d.decodeStep b
      let (os, d'') := decode d' bs
      (o :: os, d'')

/-- `Delta::encode` over a whole buffer (`DeltaWriter` applies it to every
byte written, threading the filter state). -/
def encode (d : Delta) : List Nat → List Nat × Delta
  | [] => ([], d)
  | b :: bs =>
      let (o, d') := d.encodeStep b
      let (os, d'') := encode d' bs
      (o :: os, d'')

end Delta

/-! ## Byte-reader helpers

The `ByteReader` trait lives in the crate root, which is not part of the
source tree under verification.  Modelled from the spec: reads draw from
the underlying source and a short read surfaces `UnexpectedEof` (§7).
The input stream is a `List Nat` of remaining bytes. -/

/-- Modelled from the spec: `ByteReader::read_u8` on a byte source. -/
def readU8 : List Nat → (Except Err Nat) × List Nat
  | [] => (Except.error ⟨ErrKind.unexpectedEof, "failed to fill whole buffer"⟩, [])
  | b :: rest => (Except.ok b, rest)

/-- Modelled from the spec: `ByteReader::read_u16_be` on a byte source. -/
def readU16be : List Nat → (Except Err Nat) × List Nat
  | b0 :: b1 :: rest => (Except.ok (b0 * 256 + b1), rest)
  | rest => (Except.error ⟨ErrKind.unexpectedEof, "failed to fill whole buffer"⟩, rest.drop rest.length)

/-- Modelled from the spec: `Read::read_exact` of `n` bytes from a byte source. -/
def readExact (src : List Nat) (n : Nat) : (Except Err (List Nat)) × List Nat :=
  if n ≤ src.length then (Except.ok (src.take n), src.drop n)
  else (Except.error ⟨ErrKind.unexpectedEof, "failed to fill whole buffer"⟩, src.drop src.length)

/-! ## `RangeDecoder<RangeDecoderBuffer>` (`src/range_dec.rs`) -/

structure RcBufDecoder where
  inner : RangeDecoderBuffer
  range : Nat
  code : Nat
  deriving DecidableEq, Repr

namespace RcBufDecoder

/-- `RangeDecoder::new_buffer(len)`. -/
def new_buffer (len : Nat) : RcBufDecoder :=
  ⟨RangeDecoderBuffer.new (len - 5), 0, 0⟩

/-- `RangeDecoder::<RangeDecoderBuffer>::is_finished`. -/
def is_finished (rc : RcBufDecoder) : Bool :=
  rc.inner.pos = rc.inner.buf.length ∧ rc.code = 0

/-- `RangeDecoder::<RangeDecoderBuffer>::prepare(reader, len)`: reads the
leading zero byte, the 32-bit big-endian initial code, and the remaining
`len - 5` compressed bytes into the tail of the chunk buffer. -/
def prepare (rc : RcBufDecoder) (src : List Nat) (len : Nat) :
    (Except Err RcBufDecoder) × List Nat :=
  if len < 5 then
    (Except.error (error_invalid_input "buffer len must >= 5"), src)
  else
    match readU8 src with
    | (Except.error e, src') => (Except.error e, src')
    | (Except.ok b, src') =>
      if b ≠ 0 then (Except.error (error_invalid_input "first byte is 0"), src')
      else
        match readExact src' 4 with
        | (Except.error e, src'') => (Except.error e, src'')
        | (Except.ok cs, src'') =>
          let code := ((cs.getD 0 0 * 256 + cs.getD 1 0) * 256 + cs.getD 2 0) * 256 + cs.getD 3 0
          let len' := len - 5
          let pos := rc.inner.buf.length - len'
          match readExact src'' len' with
          | (Except.error e, src3) => (Except.error e, src3)
          | (Except.ok payload, src3) =>
            (Except.ok ⟨⟨rc.inner.buf.take pos ++ payload, pos⟩, 0xFFFFFFFF, code⟩, src3)

end RcBufDecoder

/-! ## `LZMA2Reader` (`src/lzma2_reader.rs`)

The files `src/lz/lz_decoder.rs` (the decoder-side sliding window
`LZDecoder`) and the LZMA symbol decoder `LZMADecoder` are not part of the
source tree under verification (only the encoder-side `lz` files are).
Modelled from the spec: instead of fixing one implementation, the embedding
abstracts them as component interfaces (`LZModel`, `LZMAModel`) with the
operation signatures the reader calls (§3.4, §4.2, §4.5), and the theorems
below quantify over every behavior of those components, so they hold for
the real implementations in particular. -/

structure LZModel (σ : Type) where
  reset : σ → σ
  set_limit : σ → Nat → σ
  copy_uncompressed : σ → List Nat → Nat → (Except Err σ) × List Nat
  flush : σ → Nat → List Nat × σ
  has_pending : σ → Bool

structure LZMAModel (σ ρ : Type) where
  new : Nat → Nat → Nat → ρ
  reset : ρ → ρ
  decode : ρ → σ → RcBufDecoder → Except Err (ρ × σ × RcBufDecoder)

/-- `COMPRESSED_SIZE_MAX = 1 << 16`. -/
def COMPRESSED_SIZE_MAX : Nat := 1 <<< 16

structure LZMA2Reader (σ ρ : Type) where
  inner : List Nat
  lz : σ
  rc : RcBufDecoder
  lzma : Option ρ
  uncompressed_size : Nat
  is_lzma_chunk : Bool
  need_dict_reset : Bool
  need_props : Bool
  end_reached : Bool
  error : Option Err

namespace LZMA2Reader

variable {σ ρ : Type}

/-- `LZMA2Reader::new(inner, dict_size, preset_dict)`; `lzInit` is the fresh
`LZDecoder` state built by the missing `LZDecoder::new`. -/
def new (inner : List Nat) (lzInit : σ) (hasPreset : Bool) : LZMA2Reader σ ρ :=
  { inner := inner
    lz := lzInit
    rc := RcBufDecoder.new_buffer COMPRESSED_SIZE_MAX
    lzma := none
    uncompressed_size := 0
    is_lzma_chunk := false
    need_dict_reset := !hasPreset
    need_props := true
    end_reached := false
    error := none }

/-- `LZMA2Reader::decode_props`: parses the LZMA properties byte into
`(lc, lp, pb)` and re-creates the LZMA decoder. -/
def decode_props (M : LZMAModel σ ρ) (s : LZMA2Reader σ ρ) :
    (Except Err Unit) × LZMA2Reader σ ρ :=
  match readU8 s.inner with
  | (Except.error e, inner') => (Except.error e, { s with inner := inner' })
  | (Except.ok props, inner') =>
    let s := { s with inner := inner' }
    if props > (4 * 5 + 4) * 9 + 8 then
      (Except.error (error_invalid_input "corrupted input data (LZMA2:3)"), s)
    else
      let pb := props / (9 * 5)
      let props1 := props - pb * 9 * 5
      let lp := props1 / 9
      let lc := props1 - lp * 9
      if lc + lp > 4 then
        (Except.error (error_invalid_input "corrupted input data (LZMA2:4)"), s)
      else
        (Except.ok (), { s with lzma := some (M.new lc lp pb) })

/-- `LZMA2Reader::decode_chunk_header`. -/
def decode_chunk_header (L : LZModel σ) (M : LZMAModel σ ρ) (s : LZMA2Reader σ ρ) :
    (Except Err Unit) × LZMA2Reader σ ρ :=
  match readU8 s.inner with
  | (Except.error e, inner') => (Except.error e, { s with inner := inner' })
  | (Except.ok control, inner') =>
    let s := { s with inner := inner' }
    if control = 0x00 then
      (Except.ok (), { s with end_reached := true })
    else
      let resetBranch := control ≥ 0xE0 ∨ control = 0x01
      if ¬resetBranch ∧ s.need_dict_reset then
        (Except.error (error_invalid_input "corrupted input data (LZMA2:0)"), s)
      else
        let s := if resetBranch then
            { s with need_props := true, need_dict_reset := false, lz := L.reset s.lz }
          else s
        if control ≥ 0x80 then
          let s := { s with
            is_lzma_chunk := true
            uncompressed_size := (control &&& 0x1F) <<< 16 }
          match readU16be s.inner with
          | (Except.error e, inner') => (Except.error e, { s with inner := inner' })
          | (Except.ok u1, inner') =>
            let s := { s with
              inner := inner'
              uncompressed_size := s.uncompressed_size + u1 + 1 }
            match readU16be s.inner with
            | (Except.error e, inner') => (Except.error e, { s with inner := inner' })
            | (Except.ok c1, inner') =>
              let compressed_size := c1 + 1
              let s := { s with inner := inner' }
              let step : (Except Err Unit) × LZMA2Reader σ ρ :=
                if control ≥ 0xC0 then
                  decode_props M { s with need_props := false }
                else if s.need_props then
                  (Except.error (error_invalid_input "corrupted input data (LZMA2:1)"), s)
                else if control ≥ 0xA0 then
                  (Except.ok (), { s with lzma := s.lzma.map M.reset })
                else (Except.ok (), s)
              match step with
              | (Except.error e, s) => (Except.error e, s)
              | (Except.ok _, s) =>
                match RcBufDecoder.prepare s.rc s.inner compressed_size with
                | (Except.error e, inner') => (Except.error e, { s with inner := inner' })
                | (Except.ok rc', inner') => (Except.ok (), { s with rc := rc', inner := inner' })
        else if control > 0x02 then
          (Except.error (error_invalid_input "corrupted input data (LZMA2:2)"), s)
        else
          let s := { s with is_lzma_chunk := false }
          match readU16be s.inner with
          | (Except.error e, inner') => (Except.error e, { s with inner := inner' })
          | (Except.ok u1, inner') =>
            (Except.ok (), { s with inner := inner', uncompressed_size := u1 + 1 })

/-- Loop body and recursion of `LZMA2Reader::read_decode`; `fuel` bounds the
number of `while` iterations, `size` is the output accumulated so far. -/
def read_decode_loop (L : LZModel σ) (M : LZMAModel σ ρ) :
    Nat → LZMA2Reader σ ρ → Nat → List Nat →
    (Except Err (List Nat)) × LZMA2Reader σ ρ
  | 0, s, _, size => (Except.ok size, s)
  | Nat.succ fuel, s, len, size =>
    let body : LZMA2Reader σ ρ → (Except Err (List Nat)) × LZMA2Reader σ ρ := fun s =>
      let copy_size_max := min s.uncompressed_size len
      let step2 : (Except Err Unit) × LZMA2Reader σ ρ :=
        if !s.is_lzma_chunk then
          match L.copy_uncompressed s.lz s.inner copy_size_max with
          | (Except.error e, inner') => (Except.error e, { s with inner := inner' })
          | (Except.ok lz', inner') => (Except.ok (), { s with lz := lz', inner := inner' })
        else
          let s := { s with lz := L.set_limit s.lz copy_size_max }
          match s.lzma with
          | none => (Except.ok (), s)
          | some dec =>
            match M.decode dec s.lz s.rc with
            | Except.error e => (Except.error e, s)
            | Except.ok (dec', lz', rc') =>
              (Except.ok (), { s with lzma := some dec', lz := lz', rc := rc' })
      match step2 with
      | (Except.error e, s) => (Except.error e, s)
      | (Except.ok _, s) =>
        let (copied, lz') := L.flush s.lz len
        let copied_size := copied.length
        let s := { s with
          lz := lz'
          uncompressed_size := s.uncompressed_size - copied_size }
        if s.uncompressed_size = 0 ∧ (¬s.rc.is_finished ∨ L.has_pending s.lz) then
          (Except.error (error_invalid_input "rc not finished or lz has pending"), s)
        else
          read_decode_loop L M fuel s (len - copied_size) (size ++ copied)
    if len = 0 then (Except.ok size, s)
    else if s.uncompressed_size = 0 then
      match decode_chunk_header L M s with
      | (Except.error e, s) => (Except.error e, s)
      | (Except.ok _, s) =>
        if s.end_reached then (Except.ok size, s)
        else body s
    else body s

/-- `LZMA2Reader::read_decode`. -/
def read_decode (L : LZModel σ) (M : LZMAModel σ ρ) (fuel : Nat)
    (s : LZMA2Reader σ ρ) (len : Nat) :
    (Except Err (List Nat)) × LZMA2Reader σ ρ :=
  if len = 0 then (Except.ok [], s)
  else
    match s.error with
    | some e => (Except.error (copy_error e), s)
    | none =>
      if s.end_reached then (Except.ok [], s)
      else read_decode_loop L M fuel s len []

/-- `<LZMA2Reader as Read>::read`: runs `read_decode` and stores a clone of
any error (`Error::new(error.kind(), error.to_string())`) before returning it. -/
def read (L : LZModel σ) (M : LZMAModel σ ρ) (fuel : Nat)
    (s : LZMA2Reader σ ρ) (len : Nat) :
    (Except Err (List Nat)) × LZMA2Reader σ ρ :=
  match read_decode L M fuel s len with
  | (Except.ok out, s') => (Except.ok out, s')
  | (Except.error e, s') => (Except.error e, { s' with error := some ⟨e.kind, e.message⟩ })

end LZMA2Reader

/-- Degenerate instantiation of the abstract `LZDecoder` component, used only
to evaluate concrete runs whose result does not depend on the component. -/
def trivialLZ : LZModel Unit where
  reset _ := ()
  set_limit _ _ := ()
  copy_uncompressed _ inner _ := (Except.ok (), inner)
  flush _ _ := ([], ())
  has_pending _ := false

/-- Degenerate instantiation of the abstract `LZMADecoder` component, used only
to evaluate concrete runs whose result does not depend on the component. -/
def trivialLZMA : LZMAModel Unit Unit where
  new _ _ _ := ()
  reset _ := ()
  decode d l r := Except.ok (d, l, r)

/-! ## Control-byte rejection (claim C5) -/

/-- C5 counterexample: a fresh `LZMA2Reader` given the single control byte
`0x7F` fails immediately, but the error kind is `InvalidInput` (the reader
reports all five `LZMA2:n` corruption conditions through
`error_invalid_input`), not `InvalidData` as the claim states. -/
theorem claim_C5_counterexample :
    (LZMA2Reader.read trivialLZ trivialLZMA 1
        (LZMA2Reader.new [0x7F] () false) 1).1 =
      Except.error (error_invalid_input "corrupted input data (LZMA2:0)") ∧
    (error_invalid_input "corrupted input data (LZMA2:0)").kind ≠ ErrKind.invalidData := by
  exact ⟨rfl, by decide⟩

/-- C5 (amended): whenever `LZMA2Reader` reads a chunk control byte in
`0x03 ..= 0x7F` at a chunk boundary, the read fails immediately — for every
behavior of the sliding-window and LZMA-decoder components, every fuel and
request size, and regardless of the dictionary-reset state — with an error
of kind `InvalidInput` built by `error_invalid_input` (message `LZMA2:0`
when a dictionary reset is still required, `LZMA2:2` otherwise). -/
theorem claim_C5_reserved_control_rejected {σ ρ : Type}
    (L : LZModel σ) (M : LZMAModel σ ρ) (fuel len : Nat) (s : LZMA2Reader σ ρ)
    (c : Nat) (rest : List Nat)
    (hin : s.inner = c :: rest) (hc3 : 3 ≤ c) (hc7 : c ≤ 0x7F)
    (herr : s.error = none) (hend : s.end_reached = false)
    (hu : s.uncompressed_size = 0) (hfuel : fuel ≠ 0) (hlen : len ≠ 0) :
    (LZMA2Reader.read L M fuel s len).1 =
      Except.error (error_invalid_input
        (if s.need_dict_reset then "corrupted input data (LZMA2:0)"
         else "corrupted input data (LZMA2:2)")) := by
  obtain ⟨f, rfl⟩ : ∃ f, fuel = f + 1 := ⟨fuel - 1, by omega⟩
  have hdr : LZMA2Reader.decode_chunk_header L M s =
      (Except.error (error_invalid_input
        (if s.need_dict_reset then "corrupted input data (LZMA2:0)"
         else "corrupted input data (LZMA2:2)")),
       { s with inner := rest }) := by
    rw [LZMA2Reader.decode_chunk_header, hin]
    simp only [readU8]
    have h0 : ¬(c = 0x00) := by omega
    have hreset : ¬(c ≥ 0xE0 ∨ c = 0x01) := by omega
    have h80 : ¬(c ≥ 0x80) := by omega
    have h02 : c > 0x02 := by omega
    cases hnd : s.need_dict_reset with
    | true => simp [h0, hreset, h80, h02, hnd]
    | false => simp [h0, hreset, h80, h02, hnd]
  rw [LZMA2Reader.read, LZMA2Reader.read_decode, if_neg hlen, herr]
  simp only
  rw [if_neg (by simp [hend])]
  rw [LZMA2Reader.read_decode_loop, if_neg hlen, if_pos hu, hdr]

/-- C5 witness: the amended claim at the concrete fresh reader on input
`[0x7F]` (dictionary reset still required). -/
theorem claim_C5_reserved_control_rejected_witness :
    (LZMA2Reader.read trivialLZ trivialLZMA 1
        (LZMA2Reader.new [0x7F] () false) 1).1 =
      Except.error (error_invalid_input
        (if (LZMA2Reader.new (σ := Unit) (ρ := Unit) [0x7F] () false).need_dict_reset
         then "corrupted input data (LZMA2:0)"
         else "corrupted input data (LZMA2:2)")) :=
  claim_C5_reserved_control_rejected trivialLZ trivialLZMA 1 1
    (LZMA2Reader.new [0x7F] () false) 0x7F [] rfl (by norm_num) (by norm_num)
    rfl rfl rfl (by norm_num) (by norm_num)

/-! ## Multi-threaded LZMA2 writer coordinator (`src/enc/lzma2_writer_mt.rs`)

The model covers the coordinator data that `get_next_compressed_chunk`
manipulates.  The result channel is modelled by the list of `(sequence,
bytes)` pairs that will be received, in arrival order; an empty list is a
disconnected channel (all workers done).  The `BTreeMap` of out-of-order
chunks is an association list with unique keys.  `blocking = true`
(the mode used by `send_work_unit` back-pressure and by `finish`). -/

inductive MTCoordState where
  | Writing
  | Finishing
  | Finished
  | Error
  deriving DecidableEq, Repr

structure LZMA2WriterMT where
  arrivals : List (Nat × List Nat)
  next_sequence_to_write : Nat
  last_sequence_id : Option Nat
  out_of_order_chunks : List (Nat × List Nat)
  error_store : Option Err
  state : MTCoordState
  deriving DecidableEq, Repr

/-- Modelled from the spec: crate-root helper `set_error` missing from
`src/`; writes the error into the shared slot, first write wins (§5). -/
def set_error (e : Err) : Option Err → Option Err
  | none => some e
  | some e0 => some e0

namespace LZMA2WriterMT

/-- `BTreeMap::remove(&k)` on the association list. -/
def mapRemove (m : List (Nat × List Nat)) (k : Nat) :
    Option (List Nat) × List (Nat × List Nat) :=
  (m.lookup k, m.eraseP (fun p => p.1 == k))

/-- `BTreeMap::insert(k, v)` on the association list. -/
def mapInsert (m : List (Nat × List Nat)) (k : Nat) (v : List Nat) :
    List (Nat × List Nat) :=
  (k, v) :: m.eraseP (fun p => p.1 == k)

/-- Condition `next_sequence_to_write > last_seq && out_of_order_chunks.is_empty()`
guarding the transition to `Finished`. -/
def doneCheck (last : Option Nat) (next : Nat) (m : List (Nat × List Nat)) : Bool :=
  match last with
  | some last_seq => next > last_seq && m.isEmpty
  | none => false

/-- Condition `next_sequence_to_write <= last_seq && out_of_order_chunks.is_empty()`
detecting a lost chunk after the channel disconnected. -/
def lostCheck (last : Option Nat) (next : Nat) (m : List (Nat × List Nat)) : Bool :=
  match last with
  | some last_seq => next ≤ last_seq && m.isEmpty
  | none => false

/-- `LZMA2WriterMT::get_next_compressed_chunk(blocking = true)`.  `fuel`
bounds the number of `loop` iterations; exhausted fuel yields a
model-artifact error that sufficient fuel rules out. -/
def get_next_compressed_chunk :
    Nat → LZMA2WriterMT → (Except Err (Option (List Nat))) × LZMA2WriterMT
  | 0, w => (Except.error ⟨ErrKind.other, "model artifact: out of fuel"⟩, w)
  | Nat.succ fuel, w =>
    match mapRemove w.out_of_order_chunks w.next_sequence_to_write with
    | (some result, rest) =>
        (Except.ok (some result),
         { w with
           out_of_order_chunks := rest
           next_sequence_to_write := w.next_sequence_to_write + 1 })
    | (none, _) =>
      match w.error_store with
      | some err =>
          (Except.error err, { w with error_store := none, state := MTCoordState.Error })
      | none =>
        match w.state with
        | MTCoordState.Writing =>
          match w.arrivals with
          | (seq, result) :: rest =>
              if seq = w.next_sequence_to_write then
                (Except.ok (some result),
                 { w with
                   arrivals := rest
                   next_sequence_to_write := w.next_sequence_to_write + 1 })
              else
                get_next_compressed_chunk fuel
                  { w with
                    arrivals := rest
                    out_of_order_chunks := mapInsert w.out_of_order_chunks seq result }
          | [] =>
              get_next_compressed_chunk fuel { w with state := MTCoordState.Finishing }
        | MTCoordState.Finishing =>
          if doneCheck w.last_sequence_id w.next_sequence_to_write
              w.out_of_order_chunks then
            get_next_compressed_chunk fuel { w with state := MTCoordState.Finished }
          else
            match w.arrivals with
            | (seq, result) :: rest =>
                if seq = w.next_sequence_to_write then
                  (Except.ok (some result),
                   { w with
                     arrivals := rest
                     next_sequence_to_write := w.next_sequence_to_write + 1 })
                else
                  get_next_compressed_chunk fuel
                    { w with
                      arrivals := rest
                      out_of_order_chunks := mapInsert w.out_of_order_chunks seq result }
            | [] =>
                if lostCheck w.last_sequence_id w.next_sequence_to_write
                    w.out_of_order_chunks then
                  get_next_compressed_chunk fuel
                    { w with
                      state := MTCoordState.Error
                      error_store :=
                        set_error ⟨ErrKind.invalidData, "A compressed chunk was lost"⟩
                          w.error_store }
                else
                  get_next_compressed_chunk fuel w
        | MTCoordState.Finished => (Except.ok none, w)
        | MTCoordState.Error =>
            (Except.error ⟨ErrKind.other, "Compression failed with an unknown error"⟩, w)

end LZMA2WriterMT

/-! ## Sticky errors (claim C7) -/

/-- Helper: on every error from `read_decode`, the `Read::read` wrapper of
`LZMA2Reader` stores a clone of the error (same kind, same message). -/
theorem lzma2Reader_read_stores_error {σ ρ : Type}
    (L : LZModel σ) (M : LZMAModel σ ρ) (fuel len : Nat) (s : LZMA2Reader σ ρ)
    (e : Err) (s' : LZMA2Reader σ ρ)
    (h : LZMA2Reader.read L M fuel s len = (Except.error e, s')) :
    s'.error = some ⟨e.kind, e.message⟩ := by
  rw [LZMA2Reader.read] at h
  rcases hd : LZMA2Reader.read_decode L M fuel s len with ⟨r, s0⟩
  rw [hd] at h
  cases r with
  | ok out => simp at h
  | error e0 =>
      simp at h
      obtain ⟨he, hs⟩ := h
      rw [← hs, ← he]

/-- C7 counterexample: in the multi-threaded writer's `Error` state the first
call takes the stored worker error, and the next call returns the generic
fallback `Other`-kind error, not the same error as the first failure. -/
theorem claim_C7_counterexample :
    (LZMA2WriterMT.get_next_compressed_chunk 1
        ⟨[], 0, none, [], some ⟨ErrKind.invalidData, "worker failed"⟩,
          MTCoordState.Writing⟩).1 =
      Except.error ⟨ErrKind.invalidData, "worker failed"⟩ ∧
    (LZMA2WriterMT.get_next_compressed_chunk 1
        (LZMA2WriterMT.get_next_compressed_chunk 1
          ⟨[], 0, none, [], some ⟨ErrKind.invalidData, "worker failed"⟩,
            MTCoordState.Writing⟩).2).1 =
      Except.error ⟨ErrKind.other, "Compression failed with an unknown error"⟩ ∧
    (⟨ErrKind.other, "Compression failed with an unknown error"⟩ : Err) ≠
      ⟨ErrKind.invalidData, "worker failed"⟩ := by
  refine ⟨rfl, rfl, by decide⟩

/-- C7 (amended): sticky first error.  For `LZMA2Reader`: once a read has
failed, the error is stored (same kind and message), and every later
non-empty read returns that same stored error without touching the inner
reader, the window, or the range decoder (the state is unchanged).  For the
multi-threaded LZMA2 writer: the first observation of a stored worker error
returns that error and moves the coordinator to the `Error` state with the
slot emptied; subsequent calls in the `Error` state (no buffered in-order
chunk, empty slot) fail, but with the generic fallback error
`Other`/"Compression failed with an unknown error" rather than a clone of
the first error. -/
theorem claim_C7_sticky_error :
    (∀ (σ ρ : Type) (L : LZModel σ) (M : LZMAModel σ ρ) (fuel len : Nat)
       (s : LZMA2Reader σ ρ) (e : Err), s.error = some e → len ≠ 0 →
       LZMA2Reader.read L M fuel s len = (Except.error e, s)) ∧
    (∀ (w : LZMA2WriterMT) (fuel : Nat) (e : Err),
       w.out_of_order_chunks.lookup w.next_sequence_to_write = none →
       w.error_store = some e →
       LZMA2WriterMT.get_next_compressed_chunk (fuel + 1) w =
         (Except.error e, { w with error_store := none, state := MTCoordState.Error })) ∧
    (∀ (w : LZMA2WriterMT) (fuel : Nat),
       w.out_of_order_chunks.lookup w.next_sequence_to_write = none →
       w.error_store = none → w.state = MTCoordState.Error →
       LZMA2WriterMT.get_next_compressed_chunk (fuel + 1) w =
         (Except.error ⟨ErrKind.other, "Compression failed with an unknown error"⟩, w)) := by
  refine ⟨?_, ?_, ?_⟩
  · intro σ ρ L M fuel len s e he hlen
    rw [LZMA2Reader.read, LZMA2Reader.read_decode, if_neg hlen, he]
    simp only [copy_error]
    have he' : ({ s with error := some ⟨e.kind, e.message⟩ } : LZMA2Reader σ ρ) = s := by
      cases s
      cases e
      simp_all
    rw [he']
  · intro w fuel e hmap hstore
    rw [LZMA2WriterMT.get_next_compressed_chunk]
    simp only [LZMA2WriterMT.mapRemove, hmap, hstore]
  · intro w fuel hmap hstore hstate
    rw [LZMA2WriterMT.get_next_compressed_chunk]
    simp only [LZMA2WriterMT.mapRemove, hmap, hstore, hstate]

/-- C7 witness: concrete instances of all three conjuncts — a reader with a
stored error returns it unchanged, a coordinator takes a stored worker
error, and a coordinator in the `Error` state returns the fallback error. -/
theorem claim_C7_sticky_error_witness :
    (LZMA2Reader.read trivialLZ trivialLZMA 1
        { LZMA2Reader.new (σ := Unit) (ρ := Unit) [5] () false with
          error := some ⟨ErrKind.invalidInput, "boom"⟩ } 1 =
      (Except.error ⟨ErrKind.invalidInput, "boom"⟩,
       { LZMA2Reader.new (σ := Unit) (ρ := Unit) [5] () false with
         error := some ⟨ErrKind.invalidInput, "boom"⟩ })) ∧
    (LZMA2WriterMT.get_next_compressed_chunk 1
        ⟨[], 0, none, [], some ⟨ErrKind.invalidData, "worker failed"⟩,
          MTCoordState.Writing⟩ =
      (Except.error ⟨ErrKind.invalidData, "worker failed"⟩,
       ⟨[], 0, none, [], none, MTCoordState.Error⟩)) ∧
    (LZMA2WriterMT.get_next_compressed_chunk 1
        ⟨[], 0, none, [], none, MTCoordState.Error⟩ =
      (Except.error ⟨ErrKind.other, "Compression failed with an unknown error"⟩,
       ⟨[], 0, none, [], none, MTCoordState.Error⟩)) := by
  refine ⟨claim_C7_sticky_error.1 Unit Unit trivialLZ trivialLZMA 1 1 _ _ rfl (by norm_num),
    ?_, ?_⟩
  · exact claim_C7_sticky_error.2.1 ⟨[], 0, none, [], _, MTCoordState.Writing⟩ 0 _ rfl rfl
  · exact claim_C7_sticky_error.2.2 ⟨[], 0, none, [], none, MTCoordState.Error⟩ 0 rfl rfl rfl

/-! ## Ordered reassembly of the multi-threaded writer (claim C6) -/

theorem assoc_lookup_some_mem (m : List (Nat × List Nat)) (k : Nat) (c : List Nat)
    (h : m.lookup k = some c) : (k, c) ∈ m := by
  induction m with
  | nil => simp [List.lookup] at h
  | cons x rest ih =>
      rw [List.lookup] at h
      by_cases hk : k = x.1
      · rw [show (k == x.1) = true from by simp [hk]] at h
        simp only [Option.some.injEq] at h
        rcases x with ⟨x1, x2⟩
        simp only at hk h
        simp [hk, h]
      · rw [show (k == x.1) = false from by simp [hk]] at h
        exact List.mem_cons_of_mem x (ih h)

theorem assoc_mem_lookup_ne_none (m : List (Nat × List Nat)) (k : Nat) (c : List Nat)
    (hmem : (k, c) ∈ m) : m.lookup k ≠ none := by
  induction m with
  | nil => simp at hmem
  | cons x rest ih =>
      rw [List.lookup]
      rcases List.mem_cons.mp hmem with heq | htail
      · rw [show (k == x.1) = true from by simp [← heq]]
        simp
      · by_cases hk : k = x.1
        · rw [show (k == x.1) = true from by simp [hk]]
          simp
        · rw [show (k == x.1) = false from by simp [hk]]
          exact ih htail

theorem assoc_lookup_none_eraseP (m : List (Nat × List Nat)) (k : Nat)
    (h : m.lookup k = none) : m.eraseP (fun p => p.1 == k) = m := by
  apply List.eraseP_of_forall_not
  intro a ha hbeq
  have hak : a.1 = k := by simpa using hbeq
  have : (k, a.2) ∈ m := by
    rcases a with ⟨a1, a2⟩
    simp only at hak
    rw [← hak]
    exact ha
  exact assoc_mem_lookup_ne_none m k a.2 this h

theorem assoc_extract_perm (m : List (Nat × List Nat)) (k : Nat) (c : List Nat)
    (h : m.lookup k = some c) :
    m.Perm ((k, c) :: m.eraseP (fun p => p.1 == k)) := by
  induction m with
  | nil => simp [List.lookup] at h
  | cons x rest ih =>
      rw [List.lookup] at h
      by_cases hk : x.1 = k
      · rw [show (k == x.1) = true from by simp [hk]] at h
        simp only [Option.some.injEq] at h
        have hx : x = (k, c) := by
          rcases x with ⟨x1, x2⟩
          simp only at hk h
          simp [hk, h]
        rw [List.eraseP_cons, hx]
        simp
      · rw [show (k == x.1) = false from by simp [Ne.symm hk]] at h
        simp only at h
        rw [List.eraseP_cons, show (x.1 == k) = false from by simp [hk]]
        simp only [cond_false]
        exact ((ih h).cons x).trans (List.Perm.swap _ _ _)

/-- The multiset of still-unemitted `(sequence, chunk)` pairs. -/
def chunkPairs (chunkOf : Nat → List Nat) (next n : Nat) : List (Nat × List Nat) :=
  (List.range' next (n - next)).map (fun i => (i, chunkOf i))

/-- Invariant of the coordinator while draining in the `Finishing` state:
no stored error, the last sequence id is `n - 1`, and the out-of-order map
together with the not-yet-received channel messages holds exactly one chunk
for each sequence number in `[next_sequence_to_write, n)`. -/
def DrainInv (n : Nat) (chunkOf : Nat → List Nat) (w : LZMA2WriterMT) : Prop :=
  w.state = MTCoordState.Finishing ∧ w.error_store = none ∧
  w.last_sequence_id = some (n - 1) ∧ 1 ≤ n ∧ w.next_sequence_to_write ≤ n ∧
  (w.out_of_order_chunks ++ w.arrivals).Perm
    (chunkPairs chunkOf w.next_sequence_to_write n)

theorem chunkPairs_cons (chunkOf : Nat → List Nat) (next n : Nat) (h : next < n) :
    chunkPairs chunkOf next n =
      (next, chunkOf next) :: chunkPairs chunkOf (next + 1) n := by
  unfold chunkPairs
  rw [show n - next = (n - (next + 1)) + 1 from by omega]
  rw [List.range'_succ]
  simp

theorem drainInv_mem_value (n : Nat) (chunkOf : Nat → List Nat)
    (w : LZMA2WriterMT) (hInv : DrainInv n chunkOf w) (k : Nat) (c : List Nat)
    (hmem : (k, c) ∈ w.out_of_order_chunks ++ w.arrivals) : c = chunkOf k := by
  have hmem2 := hInv.2.2.2.2.2.mem_iff.mp hmem
  unfold chunkPairs at hmem2
  rcases List.mem_map.mp hmem2 with ⟨i, _, hpair⟩
  injection hpair with hik hval
  rw [← hik, ← hval]

theorem drainInv_keys_nodup (n : Nat) (chunkOf : Nat → List Nat)
    (w : LZMA2WriterMT) (hInv : DrainInv n chunkOf w) :
    ((w.out_of_order_chunks ++ w.arrivals).map Prod.fst).Nodup := by
  have hperm := (hInv.2.2.2.2.2).map Prod.fst
  refine hperm.nodup_iff.mpr ?_
  unfold chunkPairs
  rw [List.map_map]
  have : (Prod.fst ∘ fun i => (i, chunkOf i)) = id := by
    funext i
    rfl
  rw [this, List.map_id]
  exact List.nodup_range' _ _

theorem getNext_emit (n : Nat) (chunkOf : Nat → List Nat) :
    ∀ (arr : List (Nat × List Nat)) (w : LZMA2WriterMT) (fuel : Nat),
      w.arrivals = arr → DrainInv n chunkOf w →
      w.next_sequence_to_write < n → arr.length + 2 ≤ fuel →
      ∃ w', LZMA2WriterMT.get_next_compressed_chunk fuel w =
          (Except.ok (some (chunkOf w.next_sequence_to_write)), w') ∧
        DrainInv n chunkOf w' ∧
        w'.next_sequence_to_write = w.next_sequence_to_write + 1 ∧
        w'.arrivals.length ≤ arr.length := by
  have popCase : ∀ (w : LZMA2WriterMT) (f : Nat) (c : List Nat),
      DrainInv n chunkOf w → w.next_sequence_to_write < n →
      w.out_of_order_chunks.lookup w.next_sequence_to_write = some c →
      ∃ w', LZMA2WriterMT.get_next_compressed_chunk (f + 1) w =
          (Except.ok (some (chunkOf w.next_sequence_to_write)), w') ∧
        DrainInv n chunkOf w' ∧
        w'.next_sequence_to_write = w.next_sequence_to_write + 1 ∧
        w'.arrivals.length ≤ w.arrivals.length := by
    intro w f c hInv hlt hlk
    obtain ⟨hstate, hstore, hlast, hn, hle, hperm⟩ := hInv
    have hc : c = chunkOf w.next_sequence_to_write :=
      drainInv_mem_value n chunkOf w ⟨hstate, hstore, hlast, hn, hle, hperm⟩ _ _
        (List.mem_append_left _ (assoc_lookup_some_mem _ _ _ hlk))
    refine ⟨{ w with
              out_of_order_chunks :=
                w.out_of_order_chunks.eraseP (fun p => p.1 == w.next_sequence_to_write)
              next_sequence_to_write := w.next_sequence_to_write + 1 }, ?_, ?_, rfl, le_refl _⟩
    · rw [LZMA2WriterMT.get_next_compressed_chunk]
      simp only [LZMA2WriterMT.mapRemove, hlk, hc]
    · refine ⟨hstate, hstore, hlast, hn,
        show w.next_sequence_to_write + 1 ≤ n by omega, ?_⟩
      simp only
      have hextract := assoc_extract_perm _ _ _ hlk
      have h1 : (w.out_of_order_chunks ++ w.arrivals).Perm
          ((w.next_sequence_to_write, c) ::
            (w.out_of_order_chunks.eraseP
              (fun p => p.1 == w.next_sequence_to_write) ++ w.arrivals)) :=
        hextract.append_right w.arrivals
      have h2 := (h1.symm.trans hperm)
      rw [chunkPairs_cons chunkOf _ n hlt, hc] at h2
      exact h2.cons_inv
  intro arr
  induction arr with
  | nil =>
      intro w fuel harr hInv hlt hfuel
      rcases hlk : w.out_of_order_chunks.lookup w.next_sequence_to_write with _ | c
      · exfalso
        have hmem : (w.next_sequence_to_write, chunkOf w.next_sequence_to_write) ∈
            w.out_of_order_chunks ++ w.arrivals := by
          refine hInv.2.2.2.2.2.mem_iff.mpr ?_
          rw [chunkPairs_cons chunkOf _ n hlt]
          exact List.mem_cons_self _ _
        rw [harr, List.append_nil] at hmem
        exact assoc_mem_lookup_ne_none _ _ _ hmem hlk
      · obtain ⟨f, rfl⟩ : ∃ f, fuel = f + 1 := ⟨fuel - 1, by omega⟩
        obtain ⟨w', h1, h2, h3, h4⟩ := popCase w f c hInv hlt hlk
        exact ⟨w', h1, h2, h3, by rw [harr] at h4; simpa using h4⟩
  | cons hd rest ih =>
      intro w fuel harr hInv hlt hfuel
      rcases hlk : w.out_of_order_chunks.lookup w.next_sequence_to_write with _ | c
      · obtain ⟨hstate, hstore, hlast, hn, hle, hperm⟩ := hInv
        obtain ⟨f, rfl⟩ : ∃ f, fuel = f + 1 := ⟨fuel - 1, by omega⟩
        rcases hd with ⟨seq, r⟩
        have hdone : LZMA2WriterMT.doneCheck w.last_sequence_id
            w.next_sequence_to_write w.out_of_order_chunks = false := by
          rw [hlast]
          simp [LZMA2WriterMT.doneCheck]
          intro h
          omega
        by_cases hseq : seq = w.next_sequence_to_write
        · have hr : r = chunkOf w.next_sequence_to_write := by
            refine drainInv_mem_value n chunkOf w
              ⟨hstate, hstore, hlast, hn, hle, hperm⟩ _ _ ?_
            refine List.mem_append_right _ ?_
            rw [harr, hseq]
            exact List.mem_cons_self _ _
          refine ⟨{ w with
                    arrivals := rest
                    next_sequence_to_write := w.next_sequence_to_write + 1 },
                  ?_, ?_, rfl, by simp⟩
          · rw [LZMA2WriterMT.get_next_compressed_chunk]
            simp only [LZMA2WriterMT.mapRemove, hlk, hstore, hstate, hdone, harr]
            simp [hseq, hr]
          · refine ⟨hstate, hstore, hlast, hn,
              show w.next_sequence_to_write + 1 ≤ n by omega, ?_⟩
            simp only
            rw [harr, hseq] at hperm
            rw [chunkPairs_cons chunkOf _ n hlt, hr] at hperm
            exact (List.perm_middle.symm.trans hperm).cons_inv
        · have hlkseq : w.out_of_order_chunks.lookup seq = none := by
            rcases hlk2 : w.out_of_order_chunks.lookup seq with _ | c2
            · rfl
            · exfalso
              have hnd := drainInv_keys_nodup n chunkOf w
                ⟨hstate, hstore, hlast, hn, hle, hperm⟩
              rw [List.map_append, List.nodup_append] at hnd
              have hm1 : seq ∈ w.out_of_order_chunks.map Prod.fst :=
                List.mem_map.mpr ⟨(seq, c2), assoc_lookup_some_mem _ _ _ hlk2, rfl⟩
              have hm2 : seq ∈ w.arrivals.map Prod.fst := by
                rw [harr]
                exact List.mem_map.mpr ⟨(seq, r), List.mem_cons_self _ _, rfl⟩
              exact hnd.2.2 hm1 hm2
          have hw' : DrainInv n chunkOf
              { w with
                arrivals := rest
                out_of_order_chunks :=
                  LZMA2WriterMT.mapInsert w.out_of_order_chunks seq r } := by
            refine ⟨hstate, hstore, hlast, hn, hle, ?_⟩
            simp only [LZMA2WriterMT.mapInsert]
            rw [assoc_lookup_none_eraseP _ _ hlkseq]
            rw [harr] at hperm
            exact (List.perm_middle.symm.trans hperm)
          obtain ⟨w', hrun, hInv', hnext', hlen'⟩ :=
            ih { w with
                 arrivals := rest
                 out_of_order_chunks :=
                   LZMA2WriterMT.mapInsert w.out_of_order_chunks seq r }
              f rfl hw' hlt (by simp at hfuel ⊢; omega)
          refine ⟨w', ?_, hInv', hnext', by simp; omega⟩
          rw [hstore, hstate] at hrun
          rw [LZMA2WriterMT.get_next_compressed_chunk]
          simp only [LZMA2WriterMT.mapRemove, hlk, hstore, hstate, hdone, harr]
          rw [if_neg hseq]
          exact hrun
      · obtain ⟨f, rfl⟩ : ∃ f, fuel = f + 1 := ⟨fuel - 1, by omega⟩
        obtain ⟨w', h1, h2, h3, h4⟩ := popCase w f c hInv hlt hlk
        exact ⟨w', h1, h2, h3, by rw [harr] at h4; exact h4⟩

theorem getNext_done (n : Nat) (chunkOf : Nat → List Nat) (w : LZMA2WriterMT) (f : Nat)
    (hInv : DrainInv n chunkOf w) (heq : w.next_sequence_to_write = n) :
    LZMA2WriterMT.get_next_compressed_chunk (f + 2) w =
      (Except.ok none, { w with state := MTCoordState.Finished }) := by
  obtain ⟨hstate, hstore, hlast, hn, _, hperm⟩ := hInv
  have hpairs : chunkPairs chunkOf w.next_sequence_to_write n = [] := by
    unfold chunkPairs
    rw [heq]
    simp
  rw [hpairs] at hperm
  have hempty := hperm.eq_nil
  have hmap : w.out_of_order_chunks = [] := (List.append_eq_nil.mp hempty).1
  have harr : w.arrivals = [] := (List.append_eq_nil.mp hempty).2
  have hdone : LZMA2WriterMT.doneCheck w.last_sequence_id w.next_sequence_to_write
      ([] : List (Nat × List Nat)) = true := by
    rw [hlast, heq]
    simp [LZMA2WriterMT.doneCheck]
    omega
  rw [show f + 2 = (f + 1) + 1 from rfl, LZMA2WriterMT.get_next_compressed_chunk]
  simp only [LZMA2WriterMT.mapRemove, hmap, List.lookup, hstore, hstate, hdone, if_true]
  rw [LZMA2WriterMT.get_next_compressed_chunk]
  simp only [LZMA2WriterMT.mapRemove, List.lookup]

/-- The drain loop of `LZMA2WriterMT::finish`: repeatedly pull the next
compressed chunk in order and hand it to the sink until `None`. -/
def drain_output : Nat → LZMA2WriterMT → (Except Err (List (List Nat))) × LZMA2WriterMT
  | 0, w => (Except.error ⟨ErrKind.other, "model artifact: out of fuel"⟩, w)
  | Nat.succ f, w =>
    match LZMA2WriterMT.get_next_compressed_chunk (f + 1) w with
    | (Except.ok (some chunk), w') =>
        match drain_output f w' with
        | (Except.ok rest, w'') => (Except.ok (chunk :: rest), w'')
        | (Except.error e, w'') => (Except.error e, w'')
    | (Except.ok none, w') => (Except.ok [], w')
    | (Except.error e, w') => (Except.error e, w')

theorem drain_emits (n : Nat) (chunkOf : Nat → List Nat) :
    ∀ (remaining : Nat) (w : LZMA2WriterMT) (fuel : Nat),
      DrainInv n chunkOf w → n - w.next_sequence_to_write = remaining →
      w.arrivals.length + remaining + 2 ≤ fuel →
      (drain_output fuel w).1 =
        Except.ok ((List.range' w.next_sequence_to_write remaining).map chunkOf) := by
  intro remaining
  induction remaining with
  | zero =>
      intro w fuel hInv hrem hfuel
      obtain ⟨f, rfl⟩ : ∃ f, fuel = f + 2 := ⟨fuel - 2, by omega⟩
      have heq : w.next_sequence_to_write = n := by
        have := hInv.2.2.2.2.1
        omega
      rw [show f + 2 = (f + 1) + 1 from rfl, drain_output]
      rw [show (f + 1) + 1 = f + 2 from rfl] at *
      rw [getNext_done n chunkOf w f hInv heq]
      simp
  | succ r ih =>
      intro w fuel hInv hrem hfuel
      obtain ⟨f, rfl⟩ : ∃ f, fuel = f + 1 := ⟨fuel - 1, by omega⟩
      have hlt : w.next_sequence_to_write < n := by omega
      obtain ⟨w', hrun, hInv', hnext', hlen'⟩ :=
        getNext_emit n chunkOf w.arrivals w (f + 1) rfl hInv hlt (by omega)
      rw [drain_output, hrun]
      have hrec := ih w' f hInv' (by omega) (by omega)
      rw [hnext'] at hrec
      rcases hdr : drain_output f w' with ⟨res, w''⟩
      rw [hdr] at hrec
      simp only at hrec
      dsimp only
      rw [hdr, hrec]
      rw [List.range'_succ, List.map_cons]

/-- C6: the stream the multi-threaded LZMA2 writer hands to the sink is a
function of the per-unit compressed chunks alone: draining the coordinator
emits exactly the chunks of sequences `0 .. n-1`, in sequence-number order,
for EVERY order in which worker results arrive on the channel (and hence
independently of the number of worker threads, which only influences that
arrival order); `finish` then appends the terminator `0x00`. -/
theorem claim_C6_mt_determinism (n : Nat) (hn : 1 ≤ n)
    (compressUnit : Nat → List Nat) (arrivals : List (Nat × List Nat))
    (hperm : arrivals.Perm ((List.range n).map (fun i => (i, compressUnit i)))) :
    (drain_output (arrivals.length + n + 2)
        ⟨arrivals, 0, some (n - 1), [], none, MTCoordState.Finishing⟩).1 =
      Except.ok ((List.range n).map compressUnit) := by
  have h := drain_emits n compressUnit n
    ⟨arrivals, 0, some (n - 1), [], none, MTCoordState.Finishing⟩
    (arrivals.length + n + 2)
    ⟨rfl, rfl, rfl, hn, by simp, by
      simp only [List.nil_append]
      unfold chunkPairs
      simpa [← List.range_eq_range'] using hperm⟩
    (by simp) (by simp)
  rw [h]
  rw [← List.range_eq_range']

/-- C6 witness: three units arriving out of order (1, 0, 2) are emitted to
the sink as the chunks of sequences 0, 1, 2 in order. -/
theorem claim_C6_mt_determinism_witness :
    (1 : Nat) ≤ 3 ∧
    (drain_output ([( 1, [11]), (0, [10]), (2, [12])].length + 3 + 2)
        ⟨[(1, [11]), (0, [10]), (2, [12])], 0, some 2, [], none,
          MTCoordState.Finishing⟩).1 =
      Except.ok ((List.range 3).map (fun i => [10 + i])) :=
  ⟨by norm_num,
   claim_C6_mt_determinism 3 (by norm_num) (fun i => [10 + i])
     [(1, [11]), (0, [10]), (2, [12])] (by decide)⟩

theorem delta_roundtrip_aux (bs : List Nat) :
    ∀ e d : Delta, e.distance = d.distance → e.pos = d.pos →
      (∀ i, e.history i = d.history i) → (∀ i, d.history i < 256) →
      (∀ b ∈ bs, b < 256) →
      (Delta.decode d (Delta.encode e bs).1).1 = bs ∧
      (∀ i, (Delta.encode e bs).2.history i = (Delta.decode d (Delta.encode e bs).1).2.history i) ∧
      (Delta.encode e bs).2.distance = (Delta.decode d (Delta.encode e bs).1).2.distance ∧
      (Delta.encode e bs).2.pos = (Delta.decode d (Delta.encode e bs).1).2.pos ∧
      (∀ i, (Delta.decode d (Delta.encode e bs).1).2.history i < 256) := by
  induction bs with
  | nil =>
      intro e d hdist hpos hhist hbound _
      exact ⟨rfl, hhist, hdist, hpos, hbound⟩
  | cons b bs ih =>
      intro e d hdist hpos hhist hbound hin
      have hb : b < 256 := hin b (List.mem_cons_self b bs)
      have hin' : ∀ x ∈ bs, x < 256 := fun x hx => hin x (List.mem_cons_of_mem b hx)
      simp only [Delta.encode, Delta.decode, Delta.encodeStep, Delta.decodeStep]
      have hh : e.history ((e.distance + e.pos) % 256) =
          d.history ((d.distance + d.pos) % 256) := by rw [hdist, hpos, hhist]
      have hhb : d.history ((d.distance + d.pos) % 256) < 256 := hbound _
      have hdec : ((b + 256 - e.history ((e.distance + e.pos) % 256) % 256) % 256 +
          d.history ((d.distance + d.pos) % 256)) % 256 = b := by
        rw [hh]; omega
      rw [hdec]
      have := ih ⟨e.distance, fun i => if i = e.pos % 256 then b else e.history i,
                  (e.pos + 256 - 1) % 256⟩
                 ⟨d.distance, fun i => if i = d.pos % 256 then b else d.history i,
                  (d.pos + 256 - 1) % 256⟩
        (by simpa using hdist) (by simp [hpos])
        (by intro i; by_cases hi : i = d.pos % 256 <;> simp [hi, hpos, hhist])
        (by intro i; by_cases hi : i = d.pos % 256 <;> simp [hi, hb, hbound])
        hin'
      refine ⟨by rw [this.1], this.2.1, this.2.2.1, this.2.2.2.1, this.2.2.2.2⟩

/-- C9: for every delta distance in `[1, 256]` and every byte sequence,
encoding with `Delta::encode` (as `DeltaWriter` does) and then decoding the
result with `Delta::decode` (as `DeltaReader` does) at the same distance,
both starting from the fresh filter state, returns the original sequence. -/
theorem claim_C9_delta_roundtrip (dist : Nat) (h1 : 1 ≤ dist) (h2 : dist ≤ 256)
    (bs : List Nat) (hb : ∀ b ∈ bs, b < 256) :
    (Delta.decode (Delta.new dist) (Delta.encode (Delta.new dist) bs).1).1 = bs :=
  (delta_roundtrip_aux bs (Delta.new dist) (Delta.new dist) rfl rfl (fun _ => rfl)
    (fun _ => by norm_num [Delta.new]) hb).1

/-- C9 witness: distance 1 round-trips the concrete sequence `[10, 20, 30]`. -/
theorem claim_C9_delta_roundtrip_witness :
    (1 : Nat) ≤ 1 ∧ (1 : Nat) ≤ 256 ∧ (∀ b ∈ [10, 20, 30], b < 256) ∧
    (Delta.decode (Delta.new 1) (Delta.encode (Delta.new 1) [10, 20, 30]).1).1 =
      [10, 20, 30] :=
  ⟨le_refl 1, by norm_num, by decide,
   claim_C9_delta_roundtrip 1 (le_refl 1) (by norm_num) [10, 20, 30] (by decide)⟩

/-! ## Probability-update lemmas (claim C4) -/

theorem encodeBitProbUpd0_eq (p : Nat) (hp : p ≤ 2048) :
    encodeBitProbUpd0 p = p + (2048 - p) / 32 := by
  unfold encodeBitProbUpd0 BIT_MODEL_TOTAL BIT_MODEL_TOTAL_BITS U32 U16 MOVE_BITS
  rw [Nat.shiftRight_eq_div_pow]
  omega

theorem encodeBitProbUpd1_eq (p : Nat) :
    encodeBitProbUpd1 p = p - p / 32 := by
  unfold encodeBitProbUpd1 MOVE_BITS
  rw [Nat.shiftRight_eq_div_pow]

theorem decodeBitProbUpd_mask0_eq (p : Nat) (hp : p ≤ 2048) :
    decodeBitProbUpd 0 p = p + (2048 - p) / 32 := by
  unfold decodeBitProbUpd
  have hoff : RC_BIT_MODEL_OFFSET &&& (0 ^^^ (U32 - 1)) = 2 ^ 32 - 2017 := by decide
  rw [hoff]
  unfold U32 U16 MOVE_BITS
  dsimp only
  rw [Nat.shiftRight_eq_div_pow]
  omega

theorem decodeBitProbUpd_mask1_eq (p : Nat) (hp : p ≤ 2048) :
    decodeBitProbUpd (U32 - 1) p = p - p / 32 := by
  unfold decodeBitProbUpd
  have hoff : RC_BIT_MODEL_OFFSET &&& ((U32 - 1) ^^^ (U32 - 1)) = 0 := by decide
  rw [hoff]
  unfold U32 U16 MOVE_BITS
  dsimp only
  rw [Nat.shiftRight_eq_div_pow]
  omega

/-- C4: every `RangeEncoder::encode_bit` call updates the addressed probability
`p` to `p + ((2048 - p) >> 5)` on bit 0 and to `p - (p >> 5)` on bit 1, and
`RangeDecoder::decode_bit` (branchless masked blend, mask `0` for bit 0 and
`0xFFFFFFFF` for bit 1) performs the identical update for the same bit. -/
theorem claim_C4_prob_update (p : Nat) (hp : p ≤ 2048) :
    encodeBitProbUpd0 p = specProbUpd0 p ∧
    encodeBitProbUpd1 p = specProbUpd1 p ∧
    decodeBitProbUpd 0 p = specProbUpd0 p ∧
    decodeBitProbUpd (U32 - 1) p = specProbUpd1 p := by
  unfold specProbUpd0 specProbUpd1
  rw [Nat.shiftRight_eq_div_pow, Nat.shiftRight_eq_div_pow]
  norm_num
  exact ⟨encodeBitProbUpd0_eq p hp, encodeBitProbUpd1_eq p,
    decodeBitProbUpd_mask0_eq p hp, decodeBitProbUpd_mask1_eq p hp⟩

/-- C4 witness: the updates agree at the initial probability 1024. -/
theorem claim_C4_prob_update_witness :
    (1024 : Nat) ≤ 2048 ∧
    (encodeBitProbUpd0 1024 = specProbUpd0 1024 ∧
     encodeBitProbUpd1 1024 = specProbUpd1 1024 ∧
     decodeBitProbUpd 0 1024 = specProbUpd0 1024 ∧
     decodeBitProbUpd (U32 - 1) 1024 = specProbUpd1 1024) :=
  ⟨by norm_num, claim_C4_prob_update 1024 (by norm_num)⟩

/-- C10: `RangeDecoderBuffer::read_u8` is total: it never returns an error,
always advances the position by one, and a read at or past the end of the
buffer yields the byte `0x00`. -/
theorem claim_C10_read_u8_total (b : RangeDecoderBuffer) :
    b.read_u8 = Except.ok (b.buf.getD b.pos 0, ⟨b.buf, b.pos + 1⟩) ∧
    (b.buf.length ≤ b.pos → b.buf.getD b.pos 0 = 0) := by
  refine ⟨rfl, fun h => ?_⟩
  rw [List.getD_eq_default]
  omega

/-- C10 witness: reading at position 3 of a 3-byte buffer succeeds with 0x00. -/
theorem claim_C10_read_u8_total_witness :
    RangeDecoderBuffer.read_u8 ⟨[7, 8, 9], 3⟩ =
      Except.ok (0, ⟨[7, 8, 9], 4⟩) ∧ (0 : Nat) = 0 := by
  have h := claim_C10_read_u8_total ⟨[7, 8, 9], 3⟩
  exact ⟨by rw [h.1]; rfl, h.2 (by norm_num)⟩

/-! ## XZ block headers (`src/xz.rs`, `src/xz/reader.rs`) (claim C8)

CRC32 is the ISO-HDLC variant; the reference implementation is included
verbatim in the repository (`src/xz.rs`, section 6 of the embedded XZ file
format specification): a table generated from the reflected polynomial
`0xEDB88320` with pre- and post-inversion. -/

/-- One bit step of the CRC32 table generation from the embedded reference
implementation. -/
def crc32BitStep (c : Nat) : Nat :=
  if c &&& 1 = 1 then (c >>> 1) ^^^ 0xEDB88320 else c >>> 1

/-- `crc32_table[i]`: eight bit steps applied to `i`. -/
def crc32_table (i : Nat) : Nat :=
  crc32BitStep (crc32BitStep (crc32BitStep (crc32BitStep
    (crc32BitStep (crc32BitStep (crc32BitStep (crc32BitStep i)))))))

/-- One byte of the CRC32 loop:
`crc = crc32_table[buf[i] ^ (crc & 0xFF)] ^ (crc >> 8)`. -/
def crc32Update (crc b : Nat) : Nat :=
  crc32_table (b ^^^ (crc &&& 0xFF)) ^^^ (crc >>> 8)

/-- `CRC32.checksum(data)`: pre-inverted initial value, byte loop,
post-inversion. -/
def crc32 (data : List Nat) : Nat :=
  (data.foldl crc32Update 0xFFFFFFFF) ^^^ 0xFFFFFFFF

/-- `FilterType` (`src/xz.rs`). -/
inductive FilterType where
  | Delta
  | BcjX86
  | BcjPPC
  | BcjIA64
  | BcjARM
  | BcjARMThumb
  | BcjSPARC
  | BcjARM64
  | BcjRISCV
  | LZMA2
  deriving DecidableEq, Repr

/-- `impl TryFrom<u64> for FilterType`. -/
def FilterType.try_from (value : Nat) : Option FilterType :=
  match value with
  | 0x03 => some FilterType.Delta
  | 0x04 => some FilterType.BcjX86
  | 0x05 => some FilterType.BcjPPC
  | 0x06 => some FilterType.BcjIA64
  | 0x07 => some FilterType.BcjARM
  | 0x08 => some FilterType.BcjARMThumb
  | 0x09 => some FilterType.BcjSPARC
  | 0x0A => some FilterType.BcjARM64
  | 0x0B => some FilterType.BcjRISCV
  | 0x21 => some FilterType.LZMA2
  | _ => none

/-- Alignment table used for the BCJ start-offset check. -/
def bcj_alignment : FilterType → Nat
  | FilterType.BcjX86 => 1
  | FilterType.BcjPPC => 4
  | FilterType.BcjIA64 => 16
  | FilterType.BcjARM => 4
  | FilterType.BcjARMThumb => 2
  | FilterType.BcjSPARC => 4
  | FilterType.BcjARM64 => 4
  | FilterType.BcjRISCV => 2
  | _ => 1

/-- `parse_multibyte_integer` (`src/xz.rs`): 7-bit little-endian with
continuation bit, at most 63 bits. -/
def parse_multibyte_integer_from (shift result : Nat) : List Nat → Except Err Nat
  | [] => Except.error (error_invalid_data "incomplete XZ multibyte integer")
  | b :: rest =>
      if shift ≥ 63 then
        Except.error (error_invalid_data "XZ multibyte integer too large")
      else
        let result := result ||| ((b &&& 0x7F) <<< shift)
        if b &&& 0x80 = 0 then Except.ok result
        else parse_multibyte_integer_from (shift + 7) result rest

def parse_multibyte_integer (data : List Nat) : Except Err Nat :=
  parse_multibyte_integer_from 0 0 data

/-- `count_multibyte_integer_size` (`src/xz.rs`). -/
def count_multibyte_integer_size : List Nat → Nat
  | [] => 0
  | b :: rest =>
      if b &&& 0x80 = 0 then 1 else 1 + count_multibyte_integer_size rest

structure BlockHeader where
  compressed_size : Option Nat
  uncompressed_size : Option Nat
  filters : List (FilterType × Nat)
  deriving DecidableEq, Repr

namespace BlockHeader

/-- Per-filter properties parsing inside `BlockHeader::parse`; returns the
property value and the advanced offset. -/
def parseFilterProps (header_data : List Nat) (filter_type : FilterType)
    (offset : Nat) : Except Err (Nat × Nat) :=
  match filter_type with
  | FilterType.Delta =>
      if offset ≥ header_data.length then
        Except.error (error_invalid_data "XZ block header too short for Delta properties")
      else
        match parse_multibyte_integer (header_data.drop offset) with
        | Except.error e => Except.error e
        | Except.ok props_size =>
          let offset := offset + count_multibyte_integer_size (header_data.drop offset)
          if props_size ≠ 1 then
            Except.error (error_invalid_data "invalid Delta properties size")
          else if offset ≥ header_data.length then
            Except.error (error_invalid_data "XZ block header too short for Delta properties")
          else
            Except.ok (header_data.getD offset 0 + 1, offset + 1)
  | FilterType.LZMA2 =>
      if offset ≥ header_data.length then
        Except.error (error_invalid_data "XZ block header too short for LZMA2 properties")
      else
        match parse_multibyte_integer (header_data.drop offset) with
        | Except.error e => Except.error e
        | Except.ok props_size =>
          let offset := offset + count_multibyte_integer_size (header_data.drop offset)
          if props_size ≠ 1 then
            Except.error (error_invalid_data "invalid LZMA2 properties size")
          else if offset ≥ header_data.length then
            Except.error (error_invalid_data "XZ block header too short for LZMA2 properties")
          else
            let dict_size_prop := header_data.getD offset 0
            if dict_size_prop > 40 then
              Except.error (error_invalid_data "invalid LZMA2 dictionary size")
            else if dict_size_prop = 40 then
              Except.ok (0xFFFFFFFF, offset + 1)
            else
              Except.ok ((2 ||| (dict_size_prop &&& 1)) <<< (dict_size_prop / 2 + 11),
                offset + 1)
  | bcj =>
      if offset ≥ header_data.length then
        Except.error (error_invalid_data "XZ block header too short for BCJ properties")
      else
        match parse_multibyte_integer (header_data.drop offset) with
        | Except.error e => Except.error e
        | Except.ok props_size =>
          let offset := offset + count_multibyte_integer_size (header_data.drop offset)
          if props_size = 0 then Except.ok (0, offset)
          else if props_size = 4 then
            if offset + 4 > header_data.length then
              Except.error (error_invalid_data "XZ block header too short for BCJ start offset")
            else
              let start_offset_value :=
                header_data.getD offset 0 + header_data.getD (offset + 1) 0 * 256 +
                header_data.getD (offset + 2) 0 * 65536 +
                header_data.getD (offset + 3) 0 * 16777216
              if start_offset_value % bcj_alignment bcj ≠ 0 then
                Except.error (error_invalid_data "BCJ start offset not aligned to filter requirements")
              else Except.ok (start_offset_value, offset + 4)
          else Except.error (error_invalid_data "invalid BCJ properties size")

/-- The `for i in 0..num_filters` loop of `BlockHeader::parse`. -/
def parseFilters (header_data : List Nat) :
    Nat → Nat → List (FilterType × Nat) → Except Err (Nat × List (FilterType × Nat))
  | 0, offset, acc => Except.ok (offset, acc)
  | Nat.succ k, offset, acc =>
      if offset ≥ header_data.length then
        Except.error (error_invalid_data "XZ block header too short for filters")
      else
        match parse_multibyte_integer (header_data.drop offset) with
        | Except.error e => Except.error e
        | Except.ok fid =>
          match FilterType.try_from fid with
          | none => Except.error (error_invalid_input "unsupported filter type found")
          | some filter_type =>
            let offset := offset + count_multibyte_integer_size (header_data.drop offset)
            match parseFilterProps header_data filter_type offset with
            | Except.error e => Except.error e
            | Except.ok (property, offset) =>
                parseFilters header_data k offset (acc ++ [(filter_type, property)])

/-- The header padding loop: every byte up to `expected_offset` must be a
null byte and must exist. -/
def checkPadding (header_data : List Nat) : Nat → Nat → Except Err Nat
  | offset, 0 => Except.ok offset
  | offset, Nat.succ k =>
      if offset ≥ header_data.length ∨ header_data.getD offset 0 ≠ 0 then
        Except.error (error_invalid_data "invalid XZ block header padding")
      else checkPadding header_data (offset + 1) k

/-- `BlockHeader::parse` (`src/xz.rs`; `src/xz/reader.rs` is byte-for-byte
the same logic).  Reads from the byte source and returns `none` at the
index indicator (`header_size_encoded == 0`). -/
def parse (src : List Nat) : Except Err (Option BlockHeader) :=
  match readU8 src with
  | (Except.error e, _) => Except.error e
  | (Except.ok header_size_encoded, src) =>
    if header_size_encoded = 0 then Except.ok none
    else
      let header_size := (header_size_encoded + 1) * 4
      if ¬(8 ≤ header_size ∧ header_size ≤ 1024) then
        Except.error (error_invalid_data "Invalid XZ block header size")
      else
        match readExact src (header_size - 1) with
        | (Except.error e, _) => Except.error e
        | (Except.ok header_data, _) =>
          let block_flags := header_data.getD 0 0
          let num_filters := (block_flags &&& 0x03) + 1
          let has_compressed_size := block_flags &&& 0x40 ≠ 0
          let has_uncompressed_size := block_flags &&& 0x80 ≠ 0
          let offset := 1
          let step1 : Except Err (Option Nat × Nat) :=
            if has_compressed_size then
              if offset + 8 > header_data.length then
                Except.error (error_invalid_data "XZ block header too short for compressed size")
              else
                match parse_multibyte_integer (header_data.drop offset) with
                | Except.error e => Except.error e
                | Except.ok v =>
                    Except.ok (some v,
                      offset + count_multibyte_integer_size (header_data.drop offset))
            else Except.ok (none, offset)
          match step1 with
          | Except.error e => Except.error e
          | Except.ok (compressed_size, offset) =>
            let step2 : Except Err (Option Nat × Nat) :=
              if has_uncompressed_size then
                if offset ≥ header_data.length then
                  Except.error (error_invalid_data "XZ block header too short for uncompressed size")
                else
                  match parse_multibyte_integer (header_data.drop offset) with
                  | Except.error e => Except.error e
                  | Except.ok v =>
                      Except.ok (some v,
                        offset + count_multibyte_integer_size (header_data.drop offset))
              else Except.ok (none, offset)
            match step2 with
            | Except.error e => Except.error e
            | Except.ok (uncompressed_size, offset) =>
              match parseFilters header_data num_filters offset [] with
              | Except.error e => Except.error e
              | Except.ok (offset, filters) =>
                if (filters.map Prod.fst).getLast? ≠ some FilterType.LZMA2 then
                  Except.error (error_invalid_input "XZ block's last filter must be a LZMA2 filter")
                else
                  let expected_offset := header_size - 1 - 4
                  match checkPadding header_data offset (expected_offset - offset) with
                  | Except.error e => Except.error e
                  | Except.ok offset =>
                    if offset + 4 ≠ header_data.length then
                      Except.error (error_invalid_data "invalid XZ block header CRC32 position")
                    else
                      let expected_crc :=
                        header_data.getD offset 0 + header_data.getD (offset + 1) 0 * 256 +
                        header_data.getD (offset + 2) 0 * 65536 +
                        header_data.getD (offset + 3) 0 * 16777216
                      let actual_crc :=
                        crc32 (header_size_encoded :: header_data.take offset)
                      if expected_crc ≠ actual_crc then
                        Except.error (error_invalid_data "XZ block header CRC32 mismatch")
                      else
                        Except.ok (some ⟨compressed_size, uncompressed_size, filters⟩)

end BlockHeader

set_option maxRecDepth 100000 in
/-- C8: the claim states that a block header whose block-flags byte has a
reserved bit (mask `0x3C`) set fails to parse with `InvalidData`.  The code
never inspects those bits: this concrete, otherwise well-formed 12-byte
block header has block-flags `0x04` (reserved bit 2 set), a valid LZMA2
filter entry, null padding and a correct CRC32, and `BlockHeader::parse`
accepts it — contradicting both the claim and the XZ file-format
specification embedded in `src/xz.rs` ("If any reserved bit is set, the
decoder MUST indicate an error"). -/
theorem claim_C8_reserved_bits_accepted :
    (0x04 &&& 0x3C ≠ 0) ∧
    BlockHeader.parse
        [0x02, 0x04, 0x21, 0x01, 0x00, 0x00, 0x00, 0x00, 0x24, 0x03, 0xD8, 0x22] =
      Except.ok (some ⟨none, none, [(FilterType.LZMA2, 4096)]⟩) := by
  refine ⟨by decide, ?_⟩
  rfl


/-! ## C1: range coder round-trip
(`src/enc/range_enc.rs`: `RangeEncoder::{reset, shift_low, encode_bit, finish}`,
`src/range_dec.rs`: `RangeDecoder::{new_stream, normalize, decode_bit}`).

The encoder writes to an inner `Write` sink, modelled as the byte list
`out`; the streaming decoder reads from an inner `Read` source, modelled
as the byte list `inner` of not-yet-consumed bytes. -/

/-- Base-256 value of a byte list, most significant byte first — the
order in which the range encoder emits bytes. -/
def listVal (l : List Nat) : Nat := l.foldl (fun a d => a * 256 + d) 0

theorem listVal_foldl (l : List Nat) : ∀ acc : Nat,
    l.foldl (fun a d => a * 256 + d) acc = acc * 256 ^ l.length + listVal l := by
  induction l with
  | nil => intro acc; simp [listVal]
  | cons d t ih =>
      intro acc
      show List.foldl _ (acc * 256 + d) t = acc * 256 ^ (d :: t).length + listVal (d :: t)
      rw [ih (acc * 256 + d)]
      show _ = acc * 256 ^ (t.length + 1) + List.foldl _ (0 * 256 + d) t
      rw [show (0 : Nat) * 256 + d = d from by ring, ih d]
      ring

theorem listVal_cons (d : Nat) (t : List Nat) :
    listVal (d :: t) = d * 256 ^ t.length + listVal t := by
  show List.foldl _ (0 * 256 + d) t = _
  rw [show (0 : Nat) * 256 + d = d from by ring, listVal_foldl t d]

theorem listVal_append (a b : List Nat) :
    listVal (a ++ b) = listVal a * 256 ^ b.length + listVal b := by
  unfold listVal
  rw [List.foldl_append]
  exact listVal_foldl b _

theorem listVal_replicate_ff (k : Nat) :
    listVal (List.replicate k 0xFF) = 256 ^ k - 1 := by
  induction k with
  | zero => simp [listVal]
  | succ k ih =>
      rw [List.replicate_succ, listVal_cons, ih, List.length_replicate]
      have h1 : 1 ≤ 256 ^ k := Nat.one_le_pow _ _ (by omega)
      have h2 : 256 ^ (k + 1) = 256 ^ k * 256 := by ring
      omega

theorem listVal_replicate_zero (k : Nat) :
    listVal (List.replicate k 0) = 0 := by
  induction k with
  | zero => simp [listVal]
  | succ k ih =>
      rw [List.replicate_succ, listVal_cons, ih]
      simp

theorem listVal_lt (l : List Nat) (h : ∀ d ∈ l, d < 256) :
    listVal l < 256 ^ l.length := by
  induction l with
  | nil => simp [listVal]
  | cons d t ih =>
      rw [listVal_cons]
      have hd : d < 256 := h d (List.mem_cons_self d t)
      have ht : listVal t < 256 ^ t.length := ih (fun x hx => h x (List.mem_cons_of_mem d hx))
      show d * 256 ^ t.length + listVal t < 256 ^ (t.length + 1)
      calc d * 256 ^ t.length + listVal t < d * 256 ^ t.length + 256 ^ t.length := by omega
        _ = (d + 1) * 256 ^ t.length := by ring
        _ ≤ 256 * 256 ^ t.length := Nat.mul_le_mul_right _ (by omega)
        _ = 256 ^ (t.length + 1) := by ring

theorem listVal_take_drop (l : List Nat) (n : Nat) :
    listVal l = listVal (l.take n) * 256 ^ (l.drop n).length + listVal (l.drop n) := by
  conv_lhs => rw [show l = l.take n ++ l.drop n from (List.take_append_drop n l).symm]
  exact listVal_append _ _

theorem listVal_take_succ (l : List Nat) (n : Nat) (h : n < l.length) :
    listVal (l.take (n + 1)) = listVal (l.take n) * 256 + l.get ⟨n, h⟩ := by
  rw [List.take_succ]
  have : l[n]? = some (l.get ⟨n, h⟩) := by
    rw [List.getElem?_eq_getElem h]
    rfl
  rw [this]
  show listVal (l.take n ++ [l.get ⟨n, h⟩]) = _
  rw [listVal_append, listVal_cons]
  simp [listVal]

/-- `RangeEncoder` state (`src/enc/range_enc.rs`).  Machine widths in the
source: `low: u64`, `range: u32`, `cache_size: u32`, `cache: u8`. -/
structure RangeEncoder where
  low : Nat
  range : Nat
  cache_size : Nat
  cache : Nat
  out : List Nat

namespace RangeEncoder

/-- `RangeEncoder::new` (which calls `reset`): `low = 0`,
`range = 0xFFFFFFFF`, `cache = 0`, `cache_size = 1`, nothing written. -/
def new : RangeEncoder :=
  { low := 0, range := 0xFFFFFFFF, cache_size := 1, cache := 0, out := [] }

/-- `RangeEncoder::shift_low`.  `low_hi` is `(self.low >> 32) as i32`,
which is 0 or 1 for every reachable state (`low < 2^33`).  When the flush
condition `low_hi != 0 || low < 0xFF000000` holds, the do-while loop
writes `cache_size` bytes — `(cache + low_hi) as u8` first, then
`cache_size - 1` copies of `(0xFF + low_hi) as u8` — leaving
`cache_size = 0`, sets `cache = (low >> 24) as u8`, and the trailing
`cache_size += 1` makes `cache_size = 1`.  In both branches
`low = (low & 0x00FFFFFF) << 8` at the end. -/
def shift_low (e : RangeEncoder) : RangeEncoder :=
  let low_hi := e.low >>> 32
  if low_hi ≠ 0 ∨ e.low < 0xFF000000 then
    { low := (e.low &&& 0x00FFFFFF) <<< 8
      range := e.range
      cache_size := 1
      cache := (e.low >>> 24) % 256
      out := e.out ++
        (e.cache + low_hi) % 256 :: List.replicate (e.cache_size - 1) ((0xFF + low_hi) % 256) }
  else
    { low := (e.low &&& 0x00FFFFFF) <<< 8
      range := e.range
      cache_size := e.cache_size + 1
      cache := e.cache
      out := e.out }

/-- `RangeEncoder::finish`: five `shift_low` calls. -/
def finish (e : RangeEncoder) : RangeEncoder :=
  shift_low (shift_low (shift_low (shift_low (shift_low e))))

/-- First half of `RangeEncoder::encode_bit` (everything before the
renormalization check): `bound = (range >> BIT_MODEL_TOTAL_BITS) * prob`;
for bit 0, `range = bound` and the bit-0 probability update; otherwise
`low += bound as u64`, `range = range.wrapping_sub(bound)` and the bit-1
probability update. -/
def encUpd (e : RangeEncoder) (probs : Nat → Nat) (index bit : Nat) :
    RangeEncoder × (Nat → Nat) :=
  let prob := probs index
  let bound := ((e.range >>> BIT_MODEL_TOTAL_BITS) * prob) % U32
  if bit = 0 then
    ({ e with range := bound },
     fun j => if j = index then encodeBitProbUpd0 prob else probs j)
  else
    ({ e with low := (e.low + bound) % U64
              range := (e.range + U32 - bound) % U32 },
     fun j => if j = index then encodeBitProbUpd1 prob else probs j)

/-- Second half of `RangeEncoder::encode_bit`:
`if range & TOP_MASK == 0 { range <<= SHIFT_BITS; shift_low() }`. -/
def renorm (e : RangeEncoder) : RangeEncoder :=
  if e.range &&& TOP_MASK = 0 then
    shift_low { e with range := (e.range <<< SHIFT_BITS) % U32 }
  else e

/-- `RangeEncoder::encode_bit`: the update half followed by the
renormalization half. -/
def encode_bit (e : RangeEncoder) (probs : Nat → Nat) (index bit : Nat) :
    RangeEncoder × (Nat → Nat) :=
  let r := encUpd e probs index bit
  (renorm r.1, r.2)

/-- A sequence of `encode_bit` calls; each list entry is a pair
(probability index, bit). -/
def encodeRun (e : RangeEncoder) (probs : Nat → Nat) :
    List (Nat × Bool) → RangeEncoder × (Nat → Nat)
  | [] => (e, probs)
  | s :: rest =>
      let r := encode_bit e probs s.1 (if s.2 then 1 else 0)
      encodeRun r.1 r.2 rest

/-- Phase-shifted presentation of the same run: the renormalization that
`encode_bit` performs after a bit is instead performed at the start of the
next step — mirroring the decoder, whose `decode_bit` begins with
`normalize`.  `encodeRun` and `phiRun` agree up to one trailing `renorm`
(theorem `encodeRun_phi`). -/
def phiRun (e : RangeEncoder) (probs : Nat → Nat) :
    List (Nat × Bool) → RangeEncoder × (Nat → Nat)
  | [] => (e, probs)
  | s :: rest =>
      let r := encUpd (renorm e) probs s.1 (if s.2 then 1 else 0)
      phiRun r.1 r.2 rest

theorem encodeRun_phi (steps : List (Nat × Bool)) : ∀ (e : RangeEncoder) (probs : Nat → Nat),
    encodeRun (renorm e) probs steps =
      ((phiRun e probs steps).1.renorm, (phiRun e probs steps).2) := by
  induction steps with
  | nil => intro e probs; rfl
  | cons s rest ih =>
      intro e probs
      show encodeRun (encode_bit (renorm e) probs s.1 _).1 (encode_bit (renorm e) probs s.1 _).2 rest = _
      rw [show encode_bit (renorm e) probs s.1 (if s.2 then 1 else 0) =
            ((encUpd (renorm e) probs s.1 (if s.2 then 1 else 0)).1.renorm,
             (encUpd (renorm e) probs s.1 (if s.2 then 1 else 0)).2) from rfl]
      exact ih _ _

end RangeEncoder

/-- Big-endian 32-bit read (`RangeReader::read_u32_be` for `Read` types)
over a byte list. -/
def read_u32_be (src : List Nat) : (Except Err Nat) × List Nat :=
  match readExact src 4 with
  | (Except.ok bs, rest) => (Except.ok (bs.foldl (fun a b => a * 256 + b) 0), rest)
  | (Except.error e, rest) => (Except.error e, rest)

/-- Streaming `RangeDecoder` (`src/range_dec.rs`) over a `Read` source:
`inner` is the list of not-yet-consumed bytes. -/
structure RangeDecoder where
  inner : List Nat
  range : Nat
  code : Nat

namespace RangeDecoder

/-- `RangeDecoder::new_stream`: requires the first byte to be zero, then
reads the 32-bit big-endian initial code and sets `range = 0xFFFFFFFF`. -/
def new_stream (src : List Nat) : Except Err RangeDecoder :=
  match readU8 src with
  | (Except.error e, _) => Except.error e
  | (Except.ok b, rest) =>
      if b ≠ 0x00 then
        Except.error (error_invalid_input "range decoder first byte is 0")
      else
        match read_u32_be rest with
        | (Except.error e, _) => Except.error e
        | (Except.ok code, rest2) =>
            Except.ok { inner := rest2, range := 0xFFFFFFFF, code := code }

/-- `RangeDecoder::normalize`: when `range < 0x0100_0000`, read one byte
`b` and set `code = (code << SHIFT_BITS) | b`, `range <<= SHIFT_BITS`
(both u32, hence the explicit wrap). -/
def normalize (d : RangeDecoder) : Except Err RangeDecoder :=
  if d.range < 0x01000000 then
    match readU8 d.inner with
    | (Except.error e, _) => Except.error e
    | (Except.ok b, rest) =>
        Except.ok { inner := rest
                    range := (d.range <<< SHIFT_BITS) % U32
                    code := ((d.code <<< SHIFT_BITS) % U32) ||| b }
  else
    Except.ok d

/-- `RangeDecoder::decode_bit`: `normalize`, then the branchless decode.
`mask = 0u32.wrapping_sub((code >= bound) as u32)` is `0` (bit 0) or
`0xFFFFFFFF` (bit 1); `range = (bound & !mask) | ((range - bound) & mask)`
and `code -= bound & mask` with u32 wrap-around written explicitly; the
returned bit is `(mask & 1) as i32`. -/
def decode_bit (d : RangeDecoder) (probs : Nat → Nat) (index : Nat) :
    Except Err (Nat × RangeDecoder × (Nat → Nat)) :=
  match normalize d with
  | Except.error e => Except.error e
  | Except.ok d1 =>
      let prob := probs index
      let bound := ((d1.range >>> BIT_MODEL_TOTAL_BITS) * prob) % U32
      let mask := (U32 - (if bound ≤ d1.code then 1 else 0)) % U32
      let range2 := (bound &&& (mask ^^^ (U32 - 1))) |||
        (((d1.range + U32 - bound) % U32) &&& mask)
      let code2 := (d1.code + U32 - (bound &&& mask)) % U32
      let probs2 := fun j => if j = index then decodeBitProbUpd mask prob else probs j
      Except.ok (mask &&& 1, { inner := d1.inner, range := range2, code := code2 }, probs2)

/-- A sequence of `decode_bit` calls at the given probability indices,
collecting the decoded bits. -/
def decodeRun (d : RangeDecoder) (probs : Nat → Nat) :
    List Nat → Except Err (List Nat × RangeDecoder × (Nat → Nat))
  | [] => Except.ok ([], d, probs)
  | i :: rest =>
      match decode_bit d probs i with
      | Except.error e => Except.error e
      | Except.ok r =>
          match decodeRun r.2.1 r.2.2 rest with
          | Except.error e => Except.error e
          | Except.ok s => Except.ok (r.1 :: s.1, s.2.1, s.2.2)

end RangeDecoder

/-! ### Bitwise helper lemmas for the range coder proofs -/

theorem lor_mul_pow_add (a b k : Nat) (hb : b < 2 ^ k) :
    (a * 2 ^ k) ||| b = a * 2 ^ k + b := by
  apply Nat.eq_of_testBit_eq
  intro i
  rcases Nat.lt_or_ge i k with hik | hik
  · have h1 : Nat.testBit (a * 2 ^ k) i = false := by
      rw [show a * 2 ^ k = a <<< k from (Nat.shiftLeft_eq a k).symm, Nat.testBit_shiftLeft]
      simp [Nat.not_le_of_lt hik]
    have h2 : Nat.testBit (a * 2 ^ k + b) i = Nat.testBit b i := by
      have hmod : (a * 2 ^ k + b) % 2 ^ k = b := by
        rw [Nat.mul_comm, Nat.mul_add_mod, Nat.mod_eq_of_lt hb]
      conv_rhs => rw [← Nat.mod_eq_of_lt hb, ← hmod]
      rw [Nat.testBit_mod_two_pow]
      simp [hik]
    rw [Nat.testBit_or, h1, h2]
    simp
  · have h1 : Nat.testBit b i = false :=
      Nat.testBit_lt_two_pow (Nat.lt_of_lt_of_le hb (Nat.pow_le_pow_right (by omega) hik))
    obtain ⟨j, rfl⟩ : ∃ j, i = k + j := ⟨i - k, by omega⟩
    have h2 : ∀ x : Nat, Nat.testBit x (k + j) = Nat.testBit (x >>> k) j := by
      intro x; rw [Nat.testBit_shiftRight]
    have ha : (a * 2 ^ k) >>> k = a := by
      rw [Nat.shiftRight_eq_div_pow, Nat.mul_div_cancel _ (Nat.pos_pow_of_pos k (by omega))]
    have hab : (a * 2 ^ k + b) >>> k = a := by
      rw [Nat.shiftRight_eq_div_pow, Nat.mul_comm, Nat.mul_add_div (Nat.pos_pow_of_pos k (by omega)),
        Nat.div_eq_of_lt hb]
      simp
    rw [Nat.testBit_or, h1, h2 (a * 2 ^ k + b), h2 (a * 2 ^ k), ha, hab]
    simp

theorem top_testBit (i : Nat) :
    Nat.testBit 0xFF000000 i = (decide (24 ≤ i) && decide (i - 24 < 8)) := by
  rw [show (0xFF000000 : Nat) = (2 ^ 8 - 1) <<< 24 from by rw [Nat.shiftLeft_eq]; norm_num]
  rw [Nat.testBit_shiftLeft, Nat.testBit_two_pow_sub_one]

theorem land_top (x : Nat) : x &&& 0xFF000000 = x / 2 ^ 24 % 2 ^ 8 * 2 ^ 24 := by
  have h1 : x / 2 ^ 24 % 2 ^ 8 * 2 ^ 24 = ((x >>> 24) &&& (2 ^ 8 - 1)) <<< 24 := by
    rw [Nat.and_pow_two_sub_one_eq_mod, Nat.shiftLeft_eq, Nat.shiftRight_eq_div_pow]
  rw [h1]
  apply Nat.eq_of_testBit_eq
  intro i
  rw [Nat.testBit_and, Nat.testBit_shiftLeft, top_testBit i]
  rcases Nat.lt_or_ge i 24 with hi | hi
  · simp [Nat.not_le_of_lt hi]
  · have hi24 : 24 + (i - 24) = i := by omega
    rw [Nat.testBit_and, Nat.testBit_shiftRight, Nat.testBit_two_pow_sub_one, hi24]
    simp only [hi, decide_eq_true_eq, decide_True]
    cases hxi : x.testBit i <;> simp [hxi]

theorem top_mask_zero_iff (x : Nat) (hx : x < 2 ^ 32) :
    (x &&& 0xFF000000 = 0) ↔ x < 2 ^ 24 := by
  rw [land_top]
  omega

/-! ### Ghost quantities and invariants for the range encoder.

`pendingBytes` is the byte string the encoder still holds back (the cache
byte followed by `cache_size - 1` pending `0xFF` bytes); `NumE` is the
base-256 value of everything emitted or held back; `TE` is the exact
arithmetic accumulator `NumE * 2^32 + low` that the encoder maintains;
`VDE` counts emitted plus held-back byte positions. -/

def pendingBytes (e : RangeEncoder) : List Nat :=
  e.cache :: List.replicate (e.cache_size - 1) 0xFF

def NumE (e : RangeEncoder) : Nat := listVal (e.out ++ pendingBytes e)

def TE (e : RangeEncoder) : Nat := NumE e * 2 ^ 32 + e.low

def VDE (e : RangeEncoder) : Nat := e.out.length + e.cache_size

/-- Encoder state invariant, preserved by `encUpd`-then-`renorm` steps.
`sum_le` bounds the active interval (`0x1FFFFFE00 = (2^24 - 1) * 2 * 256`);
`cache_ff` is the carry-safety invariant: while the cache byte is `0xFF`, a
carry out of bit 32 can never occur, so a pending `0xFF` run is never
incremented. -/
structure EncInv (e : RangeEncoder) : Prop where
  sum_le : e.low + e.range ≤ 0x1FFFFFE00
  range_lb : 253952 ≤ e.range
  range_lt : e.range < 2 ^ 32
  cs_pos : 1 ≤ e.cache_size
  cache_lt : e.cache < 256
  out_lt : ∀ d ∈ e.out, d < 256
  cache_ff : e.cache = 0xFF → e.low + e.range ≤ 2 ^ 32

/-- All probabilities stay in `[31, 2017]`: these are the fixed points of
the §3.2 update from below and above, and `PROB_INIT = 1024` is inside. -/
def ProbsInv (probs : Nat → Nat) : Prop := ∀ i, 31 ≤ probs i ∧ probs i ≤ 2017

theorem probsInv_upd0 (p : Nat) (h31 : 31 ≤ p) (h2017 : p ≤ 2017) :
    31 ≤ encodeBitProbUpd0 p ∧ encodeBitProbUpd0 p ≤ 2017 := by
  rw [encodeBitProbUpd0_eq p (by omega)]
  omega

theorem probsInv_upd1 (p : Nat) (h31 : 31 ≤ p) (h2017 : p ≤ 2017) :
    31 ≤ encodeBitProbUpd1 p ∧ encodeBitProbUpd1 p ≤ 2017 := by
  rw [encodeBitProbUpd1_eq p]
  omega

theorem probsInv_init : ProbsInv (fun _ => PROB_INIT) := by
  intro i
  constructor <;> norm_num [PROB_INIT, BIT_MODEL_TOTAL, BIT_MODEL_TOTAL_BITS]

theorem listVal_snoc (l : List Nat) (y : Nat) :
    listVal (l ++ [y]) = listVal l * 256 + y := by
  rw [listVal_append]
  simp [listVal_cons, listVal]

/-- Ghost accounting for `RangeEncoder::shift_low`: one shift multiplies the
accumulator `TE` by 256 (moving the byte `low >> 24` out of `low` into the
emitted-or-pending digit string) and keeps all byte-range invariants.  The
carry-safety hypothesis `hsafe` rules out the lost-carry situation (a carry
arriving while the cache byte is `0xFF`). -/
theorem shift_low_spec (e : RangeEncoder)
    (hlow : e.low < 2 ^ 33)
    (hcs : 1 ≤ e.cache_size)
    (hcache : e.cache < 256)
    (hout : ∀ d ∈ e.out, d < 256)
    (hsafe : 2 ^ 32 ≤ e.low → e.cache ≠ 0xFF) :
    NumE (RangeEncoder.shift_low e) = NumE e * 256 + e.low >>> 24 ∧
    (RangeEncoder.shift_low e).low = e.low % 2 ^ 24 * 256 ∧
    (RangeEncoder.shift_low e).range = e.range ∧
    TE (RangeEncoder.shift_low e) = TE e * 256 ∧
    VDE (RangeEncoder.shift_low e) = VDE e + 1 ∧
    1 ≤ (RangeEncoder.shift_low e).cache_size ∧
    (RangeEncoder.shift_low e).cache < 256 ∧
    (∀ d ∈ (RangeEncoder.shift_low e).out, d < 256) ∧
    (e.low < 0xFF000000 →
      (RangeEncoder.shift_low e).cache = e.low >>> 24 ∧
      (RangeEncoder.shift_low e).cache_size = 1) ∧
    (e.low >>> 32 ≠ 0 ∨ e.low < 0xFF000000 →
      (RangeEncoder.shift_low e).cache = e.low >>> 24 % 256) ∧
    (¬(e.low >>> 32 ≠ 0 ∨ e.low < 0xFF000000) →
      (RangeEncoder.shift_low e).cache = e.cache) := by
  have hhi : e.low >>> 32 = e.low / 2 ^ 32 := Nat.shiftRight_eq_div_pow _ _
  have h24 : e.low >>> 24 = e.low / 2 ^ 24 := Nat.shiftRight_eq_div_pow _ _
  have hlow' : (e.low &&& 0x00FFFFFF) <<< 8 = e.low % 2 ^ 24 * 256 := by
    rw [show (0x00FFFFFF : Nat) = 2 ^ 24 - 1 from by norm_num,
      Nat.and_pow_two_sub_one_eq_mod, Nat.shiftLeft_eq]
  have hqm : e.low / 2 ^ 24 * 2 ^ 24 + e.low % 2 ^ 24 = e.low := Nat.div_add_mod' _ _
  have hpendlen : (pendingBytes e).length = e.cache_size := by
    show (e.cache :: List.replicate (e.cache_size - 1) 0xFF).length = _
    rw [List.length_cons, List.length_replicate]
    omega
  unfold RangeEncoder.shift_low
  dsimp only
  by_cases hcond : e.low >>> 32 ≠ 0 ∨ e.low < 0xFF000000
  · rw [if_pos hcond]
    rcases Nat.eq_zero_or_pos (e.low >>> 32) with hz | hp
    · -- no carry: the flush condition forces low < 0xFF000000
      have hlt : e.low < 0xFF000000 := by
        rcases hcond with h | h
        · exact absurd hz h
        · exact h
      have hcarry : (e.cache + e.low >>> 32) % 256 ::
          List.replicate (e.cache_size - 1) ((0xFF + e.low >>> 32) % 256) = pendingBytes e := by
        rw [hz]
        simp [pendingBytes, Nat.mod_eq_of_lt hcache]
      have hq : e.low >>> 24 < 256 := by omega
      have hcachev : (e.low >>> 24) % 256 = e.low >>> 24 := Nat.mod_eq_of_lt hq
      have hnum : listVal ((e.out ++ pendingBytes e) ++ [e.low >>> 24 % 256]) =
          NumE e * 256 + e.low >>> 24 := by
        rw [listVal_snoc, hcachev]
        rfl
      refine ⟨?_, hlow', rfl, ?_, ?_, le_refl _, Nat.mod_lt _ (by omega), ?_,
        fun _ => ⟨hcachev, rfl⟩, fun _ => rfl, fun h => absurd hcond h⟩
      · simp only [NumE, pendingBytes, Nat.sub_self, List.replicate_zero]
        rw [hcarry]
        exact hnum
      · simp only [TE, NumE, pendingBytes, Nat.sub_self, List.replicate_zero]
        rw [hcarry, hnum, hlow', h24]
        rw [show listVal (e.out ++ e.cache :: List.replicate (e.cache_size - 1) 0xFF) = NumE e
          from rfl]
        set q := e.low / 2 ^ 24
        set m := e.low % 2 ^ 24
        rw [← hqm]
        ring
      · simp only [VDE, List.length_append]
        rw [hcarry, hpendlen]
      · intro d hd
        rcases List.mem_append.mp hd with h | h
        · exact hout d h
        · rw [hcarry] at h
          rcases List.mem_cons.mp h with h2 | h2
          · rw [h2]; exact hcache
          · rw [List.eq_of_mem_replicate h2]; omega
    · -- carry: low >= 2^32, cache <= 0xFE by carry safety
      have hge : 2 ^ 32 ≤ e.low := by
        rcases Nat.lt_or_ge e.low (2 ^ 32) with h | h
        · exfalso; rw [hhi] at hp; omega
        · exact h
      have hhione : e.low >>> 32 = 1 := by rw [hhi]; omega
      have hcne : e.cache ≠ 0xFF := hsafe hge
      have hcarryv : (e.cache + e.low >>> 32) % 256 = e.cache + 1 := by
        rw [hhione, Nat.mod_eq_of_lt (by omega)]
      have hffv : (0xFF + e.low >>> 32) % 256 = 0 := by rw [hhione]
      have hq2 : e.low >>> 24 = 256 + e.low >>> 24 % 256 := by
        rw [h24]
        omega
      have hP : 1 ≤ 256 ^ (e.cache_size - 1) := Nat.one_le_pow _ _ (by omega)
      have hcarrylen : ((e.cache + e.low >>> 32) % 256 ::
          List.replicate (e.cache_size - 1) ((0xFF + e.low >>> 32) % 256)).length =
          e.cache_size := by
        rw [List.length_cons, List.length_replicate]
        omega
      have hlvcarry : listVal ((e.cache + e.low >>> 32) % 256 ::
            List.replicate (e.cache_size - 1) ((0xFF + e.low >>> 32) % 256)) =
          (e.cache + 1) * 256 ^ (e.cache_size - 1) := by
        rw [hcarryv, hffv, listVal_cons, listVal_replicate_zero, List.length_replicate]
        omega
      have hnum : listVal ((e.out ++ (e.cache + e.low >>> 32) % 256 ::
            List.replicate (e.cache_size - 1) ((0xFF + e.low >>> 32) % 256)) ++
            [e.low >>> 24 % 256]) = NumE e * 256 + e.low >>> 24 := by
        rw [listVal_snoc, listVal_append, hlvcarry, hcarrylen]
        rw [NumE, listVal_append, hpendlen]
        rw [show pendingBytes e = e.cache :: List.replicate (e.cache_size - 1) 0xFF from rfl]
        rw [listVal_cons, listVal_replicate_ff, List.length_replicate]
        have hout256 : 256 ^ e.cache_size = 256 ^ (e.cache_size - 1) * 256 := by
          conv_lhs => rw [show e.cache_size = (e.cache_size - 1) + 1 from by omega]
          ring
        rw [hout256]
        set P := 256 ^ (e.cache_size - 1) with hPdef
        set L := listVal e.out
        set m := e.low >>> 24 % 256 with hm
        rw [hq2]
        obtain ⟨Q, hQ⟩ : ∃ Q, P = Q + 1 := ⟨P - 1, by omega⟩
        rw [hQ]
        simp only [Nat.add_sub_cancel]
        ring
      refine ⟨hnum, hlow', rfl, ?_, ?_, le_refl _, Nat.mod_lt _ (by omega), ?_, ?_,
        fun _ => rfl, fun h => absurd hcond h⟩
      · simp only [TE, NumE, pendingBytes, Nat.sub_self, List.replicate_zero]
        rw [hnum, hlow', h24]
        rw [show listVal (e.out ++ e.cache :: List.replicate (e.cache_size - 1) 0xFF) = NumE e
          from rfl]
        set q := e.low / 2 ^ 24
        set m := e.low % 2 ^ 24
        rw [← hqm]
        ring
      · simp only [VDE, List.length_append]
        rw [hcarrylen]
      · intro d hd
        rcases List.mem_append.mp hd with h | h
        · exact hout d h
        · rcases List.mem_cons.mp h with h2 | h2
          · rw [h2]; exact Nat.mod_lt _ (by omega)
          · rw [List.eq_of_mem_replicate h2]; exact Nat.mod_lt _ (by omega)
      · intro habs
        exfalso
        omega
  · rw [if_neg hcond]
    push_neg at hcond
    obtain ⟨hz, hge⟩ := hcond
    have hlt32 : e.low < 2 ^ 32 := by
      rw [hhi] at hz
      omega
    have hq255 : e.low >>> 24 = 255 := by rw [h24]; omega
    have hpend' : e.cache :: List.replicate (e.cache_size + 1 - 1) 0xFF =
        (e.cache :: List.replicate (e.cache_size - 1) 0xFF) ++ [0xFF] := by
      rw [show e.cache_size + 1 - 1 = (e.cache_size - 1) + 1 from by omega, List.replicate_succ']
      rfl
    have hnum : listVal (e.out ++ e.cache :: List.replicate (e.cache_size + 1 - 1) 0xFF) =
        NumE e * 256 + e.low >>> 24 := by
      rw [hpend', ← List.append_assoc, listVal_snoc, hq255]
      rfl
    refine ⟨?_, hlow', rfl, ?_, ?_, show 1 ≤ e.cache_size + 1 by omega, hcache, hout, ?_,
      ?_, fun _ => rfl⟩
    · simp only [NumE, pendingBytes]
      exact hnum
    · simp only [TE, NumE, pendingBytes]
      rw [hnum, hlow', h24]
      rw [show listVal (e.out ++ e.cache :: List.replicate (e.cache_size - 1) 0xFF) = NumE e
        from rfl]
      set q := e.low / 2 ^ 24
      set m := e.low % 2 ^ 24
      rw [← hqm]
      ring
    · simp only [VDE]
      omega
    · intro habs
      exfalso
      omega
    · intro h
      rcases h with h | h
      · exact absurd hz h
      · exfalso; omega

/-- Ghost accounting for the renormalization half of `encode_bit`: with
`d = 1` when a shift fires (`range < 2^24`, equivalently
`range & TOP_MASK == 0`) and `d = 0` otherwise, renormalization multiplies
`TE` and `range` by `256^d`, adds `d` digit positions, restores
`range ≥ 2^24`, and preserves the encoder invariant — including
carry-safety (`cache_ff`). -/
theorem renorm_spec (e : RangeEncoder) (inv : EncInv e) :
    EncInv (RangeEncoder.renorm e) ∧
    2 ^ 24 ≤ (RangeEncoder.renorm e).range ∧
    TE (RangeEncoder.renorm e) = TE e * 256 ^ (if e.range < 2 ^ 24 then 1 else 0) ∧
    (RangeEncoder.renorm e).range = e.range * 256 ^ (if e.range < 2 ^ 24 then 1 else 0) ∧
    VDE (RangeEncoder.renorm e) = VDE e + (if e.range < 2 ^ 24 then 1 else 0) ∧
    (RangeEncoder.renorm e).out.length + (RangeEncoder.renorm e).cache_size =
      VDE e + (if e.range < 2 ^ 24 then 1 else 0) := by
  have hU32 : U32 = 2 ^ 32 := rfl
  by_cases hlt : e.range < 2 ^ 24
  · have hc : e.range &&& TOP_MASK = 0 := by
      show e.range &&& 0xFF000000 = 0
      exact (top_mask_zero_iff e.range inv.range_lt).mpr hlt
    have hr1 : ((e.range <<< SHIFT_BITS) % U32) = e.range * 256 := by
      rw [Nat.shiftLeft_eq]
      show e.range * 2 ^ 8 % 2 ^ 32 = _
      rw [Nat.mod_eq_of_lt (by omega)]
    have hlow33 : e.low < 2 ^ 33 := by
      have := inv.sum_le
      omega
    have hsafe : 2 ^ 32 ≤ e.low → e.cache ≠ 0xFF := by
      intro hge hff
      have := inv.cache_ff hff
      have := inv.range_lb
      omega
    obtain ⟨hN, hL, hR, hT, hV, hcs', hc', hout', hfin, hcA, hcB⟩ :=
      shift_low_spec { e with range := (e.range <<< SHIFT_BITS) % U32 }
        hlow33 inv.cs_pos inv.cache_lt inv.out_lt hsafe
    dsimp only at hN hL hR hT hV hcs' hc' hout' hfin hcA hcB
    have hre : RangeEncoder.renorm e =
        RangeEncoder.shift_low { e with range := (e.range <<< SHIFT_BITS) % U32 } := by
      unfold RangeEncoder.renorm
      rw [if_pos hc]
    rw [hre, if_pos hlt]
    have hRv : (RangeEncoder.shift_low
        { e with range := (e.range <<< SHIFT_BITS) % U32 }).range = e.range * 256 := by
      rw [hR]
      exact hr1
    have hm24 : e.low % 2 ^ 24 < 2 ^ 24 := Nat.mod_lt _ (by norm_num)
    refine ⟨⟨?_, ?_, ?_, hcs', hc', hout', ?_⟩, ?_, ?_, ?_, ?_, ?_⟩
    · rw [hL, hRv]
      have := inv.range_lb
      omega
    · rw [hRv]
      have := inv.range_lb
      omega
    · rw [hRv]
      omega
    · -- carry-safety for the new cache byte
      intro hff
      rw [hL, hRv]
      by_cases hcond : e.low >>> 32 ≠ 0 ∨ e.low < 0xFF000000
      · have hcv := hcA hcond
        rw [hcv] at hff
        have h24 : e.low >>> 24 = e.low / 2 ^ 24 := Nat.shiftRight_eq_div_pow _ _
        have hhi : e.low >>> 32 = e.low / 2 ^ 32 := Nat.shiftRight_eq_div_pow _ _
        rcases Nat.lt_or_ge e.low (2 ^ 32) with hlo | hhi32
        · -- no carry was possible, so the flush condition forces low < 0xFF000000
          have hlt24 : e.low < 0xFF000000 := by
            rcases hcond with h | h
            · exfalso; rw [hhi] at h; omega
            · exact h
          exfalso
          rw [h24] at hff
          omega
        · -- carry: the new cache byte is 0xFF only if low >= 511 * 2^24
          rw [h24] at hff
          have hsum := inv.sum_le
          omega
      · have hcv := hcB hcond
        rw [hcv] at hff
        have hle := inv.cache_ff hff
        push_neg at hcond
        obtain ⟨hz, hge⟩ := hcond
        have hhi : e.low >>> 32 = e.low / 2 ^ 32 := Nat.shiftRight_eq_div_pow _ _
        rw [hhi] at hz
        omega
    · rw [hRv]
      have := inv.range_lb
      omega
    · rw [pow_one, hT]
      rfl
    · rw [pow_one, hRv]
    · rw [hV]
      rfl
    · have := hV
      rw [show VDE (RangeEncoder.shift_low { e with range := (e.range <<< SHIFT_BITS) % U32 }) =
        (RangeEncoder.shift_low { e with range := (e.range <<< SHIFT_BITS) % U32 }).out.length +
        (RangeEncoder.shift_low { e with range := (e.range <<< SHIFT_BITS) % U32 }).cache_size
        from rfl] at this
      rw [this]
      rfl
  · have hc : ¬(e.range &&& TOP_MASK = 0) := by
      show ¬(e.range &&& 0xFF000000 = 0)
      rw [top_mask_zero_iff e.range inv.range_lt]
      omega
    have hre : RangeEncoder.renorm e = e := by
      unfold RangeEncoder.renorm
      rw [if_neg hc]
    rw [hre, if_neg hlt]
    refine ⟨inv, by omega, by rw [pow_zero, Nat.mul_one], by rw [pow_zero, Nat.mul_one], by omega, rfl⟩

/-- Ghost accounting for the update half of `encode_bit` at a normalized
state (`range ≥ 2^24`): `bound = (range >> 11) * p` satisfies
`253952 ≤ bound` and `bound + 253952 ≤ range` (so no u32 wrap occurs
anywhere); bit 0 keeps `TE` and sets `range = bound`; bit 1 adds `bound`
to `TE` and subtracts it from `range`; the invariants are preserved and
the probability array gets exactly the §3.2 update at `index`. -/
theorem encUpd_spec (e : RangeEncoder) (probs : Nat → Nat) (index : Nat) (b : Bool)
    (inv : EncInv e) (hrange : 2 ^ 24 ≤ e.range) (hprobs : ProbsInv probs) :
    EncInv (RangeEncoder.encUpd e probs index (if b then 1 else 0)).1 ∧
    ProbsInv (RangeEncoder.encUpd e probs index (if b then 1 else 0)).2 ∧
    (RangeEncoder.encUpd e probs index (if b then 1 else 0)).1.out = e.out ∧
    VDE (RangeEncoder.encUpd e probs index (if b then 1 else 0)).1 = VDE e ∧
    253952 ≤ (e.range >>> BIT_MODEL_TOTAL_BITS) * probs index ∧
    (e.range >>> BIT_MODEL_TOTAL_BITS) * probs index + 253952 ≤ e.range ∧
    (b = false →
      (RangeEncoder.encUpd e probs index (if b then 1 else 0)).1.low = e.low ∧
      (RangeEncoder.encUpd e probs index (if b then 1 else 0)).1.range =
        (e.range >>> BIT_MODEL_TOTAL_BITS) * probs index ∧
      TE (RangeEncoder.encUpd e probs index (if b then 1 else 0)).1 = TE e) ∧
    (b = true →
      (RangeEncoder.encUpd e probs index (if b then 1 else 0)).1.low =
        e.low + (e.range >>> BIT_MODEL_TOTAL_BITS) * probs index ∧
      (RangeEncoder.encUpd e probs index (if b then 1 else 0)).1.range =
        e.range - (e.range >>> BIT_MODEL_TOTAL_BITS) * probs index ∧
      TE (RangeEncoder.encUpd e probs index (if b then 1 else 0)).1 =
        TE e + (e.range >>> BIT_MODEL_TOTAL_BITS) * probs index) ∧
    (RangeEncoder.encUpd e probs index (if b then 1 else 0)).2 = fun j =>
      if j = index then
        (if b then encodeBitProbUpd1 (probs index) else encodeBitProbUpd0 (probs index))
      else probs j := by
  obtain ⟨hp31, hp2017⟩ := hprobs index
  have hdiv : e.range >>> BIT_MODEL_TOTAL_BITS = e.range / 2 ^ 11 :=
    Nat.shiftRight_eq_div_pow _ _
  have hd1 : 2 ^ 13 ≤ e.range / 2 ^ 11 := by
    have := inv.range_lt
    omega
  have hd2 : e.range / 2 ^ 11 ≤ 2 ^ 21 - 1 := by
    have := inv.range_lt
    omega
  have hblb : 253952 ≤ (e.range >>> BIT_MODEL_TOTAL_BITS) * probs index := by
    rw [hdiv]
    calc (253952 : Nat) = 2 ^ 13 * 31 := by norm_num
      _ ≤ e.range / 2 ^ 11 * probs index := Nat.mul_le_mul hd1 hp31
  have hbub : (e.range >>> BIT_MODEL_TOTAL_BITS) * probs index + 253952 ≤ e.range := by
    rw [hdiv]
    have h1 : e.range / 2 ^ 11 * 2 ^ 11 ≤ e.range := Nat.div_mul_le_self _ _
    have h2 : e.range / 2 ^ 11 * probs index ≤ e.range / 2 ^ 11 * 2017 :=
      Nat.mul_le_mul_left _ hp2017
    have h3 : 2 ^ 13 * 31 ≤ e.range / 2 ^ 11 * 31 := Nat.mul_le_mul_right _ hd1
    have h4 : e.range / 2 ^ 11 * 2017 + e.range / 2 ^ 11 * 31 = e.range / 2 ^ 11 * 2 ^ 11 := by
      ring
    omega
  have hblt : (e.range >>> BIT_MODEL_TOTAL_BITS) * probs index < 2 ^ 32 := by
    have := inv.range_lt
    omega
  have hbmod : ((e.range >>> BIT_MODEL_TOTAL_BITS) * probs index) % U32 =
      (e.range >>> BIT_MODEL_TOTAL_BITS) * probs index := by
    rw [show U32 = 2 ^ 32 from rfl]
    exact Nat.mod_eq_of_lt hblt
  cases b
  · -- bit 0
    unfold RangeEncoder.encUpd
    dsimp only
    rw [if_pos (show (if (false = true) then (1 : Nat) else 0) = 0 from rfl)]
    dsimp only
    rw [hbmod]
    refine ⟨⟨?_, ?_, ?_, inv.cs_pos, inv.cache_lt, inv.out_lt, ?_⟩,
      ?_, rfl, rfl, hblb, hbub, fun _ => ⟨rfl, rfl, rfl⟩, ?_, ?_⟩
    · show e.low + e.range >>> BIT_MODEL_TOTAL_BITS * probs index ≤ 0x1FFFFFE00
      have := inv.sum_le
      omega
    · show 253952 ≤ e.range >>> BIT_MODEL_TOTAL_BITS * probs index
      exact hblb
    · show e.range >>> BIT_MODEL_TOTAL_BITS * probs index < 2 ^ 32
      exact hblt
    · intro hff
      show e.low + e.range >>> BIT_MODEL_TOTAL_BITS * probs index ≤ 2 ^ 32
      have := inv.cache_ff hff
      omega
    · intro j
      by_cases hj : j = index
      · show 31 ≤ (if j = index then encodeBitProbUpd0 (probs index) else probs j) ∧
          (if j = index then encodeBitProbUpd0 (probs index) else probs j) ≤ 2017
        rw [if_pos hj]
        exact probsInv_upd0 _ hp31 hp2017
      · show 31 ≤ (if j = index then encodeBitProbUpd0 (probs index) else probs j) ∧
          (if j = index then encodeBitProbUpd0 (probs index) else probs j) ≤ 2017
        rw [if_neg hj]
        exact hprobs j
    · intro h
      exact absurd h (by norm_num)
    · rfl
  · -- bit 1
    unfold RangeEncoder.encUpd
    dsimp only
    rw [if_neg (show ¬((if (true = true) then (1 : Nat) else 0) = 0) from by norm_num)]
    dsimp only
    rw [hbmod]
    have hlowmod : (e.low + (e.range >>> BIT_MODEL_TOTAL_BITS) * probs index) % U64 =
        e.low + (e.range >>> BIT_MODEL_TOTAL_BITS) * probs index := by
      rw [show U64 = 2 ^ 64 from rfl]
      apply Nat.mod_eq_of_lt
      have := inv.sum_le
      omega
    have hrangemod : (e.range + U32 - (e.range >>> BIT_MODEL_TOTAL_BITS) * probs index) % U32 =
        e.range - (e.range >>> BIT_MODEL_TOTAL_BITS) * probs index := by
      rw [show U32 = 2 ^ 32 from rfl]
      have := inv.range_lt
      omega
    rw [hlowmod, hrangemod]
    refine ⟨⟨?_, ?_, ?_, inv.cs_pos, inv.cache_lt, inv.out_lt, ?_⟩,
      ?_, rfl, rfl, hblb, hbub, ?_, fun _ => ⟨rfl, rfl, ?_⟩, rfl⟩
    · show e.low + e.range >>> BIT_MODEL_TOTAL_BITS * probs index +
        (e.range - e.range >>> BIT_MODEL_TOTAL_BITS * probs index) ≤ 0x1FFFFFE00
      have := inv.sum_le
      omega
    · show 253952 ≤ e.range - e.range >>> BIT_MODEL_TOTAL_BITS * probs index
      omega
    · show e.range - e.range >>> BIT_MODEL_TOTAL_BITS * probs index < 2 ^ 32
      have := inv.range_lt
      omega
    · intro hff
      show e.low + e.range >>> BIT_MODEL_TOTAL_BITS * probs index +
        (e.range - e.range >>> BIT_MODEL_TOTAL_BITS * probs index) ≤ 2 ^ 32
      have := inv.cache_ff hff
      omega
    · intro j
      by_cases hj : j = index
      · show 31 ≤ (if j = index then encodeBitProbUpd1 (probs index) else probs j) ∧
          (if j = index then encodeBitProbUpd1 (probs index) else probs j) ≤ 2017
        rw [if_pos hj]
        exact probsInv_upd1 _ hp31 hp2017
      · show 31 ≤ (if j = index then encodeBitProbUpd1 (probs index) else probs j) ∧
          (if j = index then encodeBitProbUpd1 (probs index) else probs j) ≤ 2017
        rw [if_neg hj]
        exact hprobs j
    · intro h
      exact absurd h (by norm_num)
    · show NumE { e with
          low := e.low + e.range >>> BIT_MODEL_TOTAL_BITS * probs index,
          range := e.range - e.range >>> BIT_MODEL_TOTAL_BITS * probs index } * 2 ^ 32 +
        (e.low + e.range >>> BIT_MODEL_TOTAL_BITS * probs index) =
        NumE e * 2 ^ 32 + e.low + e.range >>> BIT_MODEL_TOTAL_BITS * probs index
      rw [show NumE { e with
          low := e.low + e.range >>> BIT_MODEL_TOTAL_BITS * probs index,
          range := e.range - e.range >>> BIT_MODEL_TOTAL_BITS * probs index } = NumE e
        from rfl]
      omega

/-- Ghost accounting for `RangeEncoder::finish` (five `shift_low` calls):
`TE` is multiplied by `256^5`, five digit positions are added, `low` ends
at 0 (its 33 bits are exhausted after four shifts) and the final flush
leaves `cache = 0`, `cache_size = 1` — so everything is flushed and
`TE (finish e) = listVal out * 2^40` with `out` the complete stream. -/
theorem finish_spec (e : RangeEncoder) (inv : EncInv e) :
    TE (RangeEncoder.finish e) = TE e * 256 ^ 5 ∧
    VDE (RangeEncoder.finish e) = VDE e + 5 ∧
    (∀ d ∈ (RangeEncoder.finish e).out, d < 256) ∧
    (RangeEncoder.finish e).out.length + 1 = VDE e + 5 ∧
    TE (RangeEncoder.finish e) = listVal (RangeEncoder.finish e).out * 2 ^ 40 := by
  have hlow33 : e.low < 2 ^ 33 := by
    have := inv.sum_le
    omega
  have hsafe1 : 2 ^ 32 ≤ e.low → e.cache ≠ 0xFF := by
    intro hge hff
    have := inv.cache_ff hff
    have := inv.range_lb
    omega
  obtain ⟨hN1, hL1, hR1, hT1, hV1, hcs1, hc1, hout1, hfin1, hcA1, hcB1⟩ :=
    shift_low_spec e hlow33 inv.cs_pos inv.cache_lt inv.out_lt hsafe1
  set e1 := RangeEncoder.shift_low e with he1
  obtain ⟨hN2, hL2, hR2, hT2, hV2, hcs2, hc2, hout2, hfin2, hcA2, hcB2⟩ :=
    shift_low_spec e1 (by omega) hcs1 hc1 hout1 (by intro h; exfalso; omega)
  set e2 := RangeEncoder.shift_low e1 with he2
  obtain ⟨hN3, hL3, hR3, hT3, hV3, hcs3, hc3, hout3, hfin3, hcA3, hcB3⟩ :=
    shift_low_spec e2 (by omega) hcs2 hc2 hout2 (by intro h; exfalso; omega)
  set e3 := RangeEncoder.shift_low e2 with he3
  obtain ⟨hN4, hL4, hR4, hT4, hV4, hcs4, hc4, hout4, hfin4, hcA4, hcB4⟩ :=
    shift_low_spec e3 (by omega) hcs3 hc3 hout3 (by intro h; exfalso; omega)
  set e4 := RangeEncoder.shift_low e3 with he4
  obtain ⟨hN5, hL5, hR5, hT5, hV5, hcs5, hc5, hout5, hfin5, hcA5, hcB5⟩ :=
    shift_low_spec e4 (by omega) hcs4 hc4 hout4 (by intro h; exfalso; omega)
  set e5 := RangeEncoder.shift_low e4 with he5
  have hlow4 : e4.low = 0 := by omega
  have hflush5 := hfin5 (by omega)
  obtain ⟨hcache5, hcssz5⟩ := hflush5
  have hcache5z : e5.cache = 0 := by
    rw [hcache5, hlow4]
    rfl
  have hlow5 : e5.low = 0 := by omega
  have hfe : RangeEncoder.finish e = e5 := rfl
  rw [hfe]
  refine ⟨?_, ?_, hout5, ?_, ?_⟩
  · rw [hT5, hT4, hT3, hT2, hT1]
    ring
  · omega
  · have : VDE e5 = e5.out.length + e5.cache_size := rfl
    omega
  · have hpend : pendingBytes e5 = [0] := by
      rw [pendingBytes, hcache5z, hcssz5]
      rfl
    have hnum : NumE e5 = listVal e5.out * 256 := by
      rw [NumE, hpend, listVal_snoc]
      omega
    show NumE e5 * 2 ^ 32 + e5.low = _
    rw [hnum, hlow5]
    ring

/-- Interval lemma: from any invariant pre-renorm state `u`, running the
remaining steps through `phiRun` and then `finish (renorm ·)` produces a
final stream whose value `listVal out * 2^40` lies in the half-open
interval `[TE u * 256^r, (TE u + range) * 256^r)`, where `r` counts the
digit positions added on the way (including the 5 of `finish`). -/
theorem finalFacts (rest : List (Nat × Bool)) : ∀ (u : RangeEncoder) (probs : Nat → Nat),
    EncInv u → ProbsInv probs →
    ∃ r : Nat,
      VDE (RangeEncoder.finish (RangeEncoder.renorm
        (RangeEncoder.phiRun u probs rest).1)) = VDE u + r ∧
      5 + (if u.range < 2 ^ 24 then 1 else 0) ≤ r ∧
      (∀ d ∈ (RangeEncoder.finish (RangeEncoder.renorm
        (RangeEncoder.phiRun u probs rest).1)).out, d < 256) ∧
      (RangeEncoder.finish (RangeEncoder.renorm
        (RangeEncoder.phiRun u probs rest).1)).out.length + 1 = VDE u + r ∧
      TE u * 256 ^ r ≤ listVal (RangeEncoder.finish (RangeEncoder.renorm
        (RangeEncoder.phiRun u probs rest).1)).out * 2 ^ 40 ∧
      listVal (RangeEncoder.finish (RangeEncoder.renorm
        (RangeEncoder.phiRun u probs rest).1)).out * 2 ^ 40 + 1 ≤
        (TE u + u.range) * 256 ^ r := by
  induction rest with
  | nil =>
      intro u probs inv hprobs
      obtain ⟨inv', hge24, hTe, hRe, hVe, _⟩ := renorm_spec u inv
      obtain ⟨hTf, hVf, hdig, hlenf, hTout⟩ := finish_spec (RangeEncoder.renorm u) inv'
      simp only [RangeEncoder.phiRun]
      have heq : listVal (RangeEncoder.finish (RangeEncoder.renorm u)).out * 2 ^ 40 =
          TE u * 256 ^ ((if u.range < 2 ^ 24 then 1 else 0) + 5) := by
        rw [← hTout, hTf, hTe, pow_add]
        ring
      refine ⟨(if u.range < 2 ^ 24 then 1 else 0) + 5, by omega, by omega, hdig, by omega,
        by omega, ?_⟩
      have h1 : 1 ≤ 256 ^ ((if u.range < 2 ^ 24 then 1 else 0) + 5) :=
        Nat.one_le_pow _ _ (by omega)
      have h2 : 1 ≤ u.range := by
        have := inv.range_lb
        omega
      have h3 : 1 ≤ u.range * 256 ^ ((if u.range < 2 ^ 24 then 1 else 0) + 5) := by
        calc (1 : Nat) = 1 * 1 := rfl
          _ ≤ u.range * 256 ^ ((if u.range < 2 ^ 24 then 1 else 0) + 5) := Nat.mul_le_mul h2 h1
      rw [Nat.add_mul]
      omega
  | cons s rest' ih =>
      intro u probs inv hprobs
      obtain ⟨i, bv⟩ := s
      obtain ⟨inv', hge24, hTe, hRe, hVe, _⟩ := renorm_spec u inv
      obtain ⟨inv1, hp1, hout1, hVDE1, hblb, hbub, hb0, hb1, hpeq⟩ :=
        encUpd_spec (RangeEncoder.renorm u) probs i bv inv' hge24 hprobs
      obtain ⟨r1, hv1, hr1lb, hd1, hlen1, hlow1, hup1⟩ := ih
        (RangeEncoder.encUpd (RangeEncoder.renorm u) probs i (if bv then 1 else 0)).1
        (RangeEncoder.encUpd (RangeEncoder.renorm u) probs i (if bv then 1 else 0)).2
        inv1 hp1
      simp only [RangeEncoder.phiRun]
      have hr1ge5 : 5 ≤ r1 := by
        have h0 : 0 ≤ (if (RangeEncoder.encUpd (RangeEncoder.renorm u) probs i
          (if bv then 1 else 0)).1.range < 2 ^ 24 then 1 else 0) := Nat.zero_le _
        omega
      have hT1ge : TE (RangeEncoder.renorm u) ≤
          TE (RangeEncoder.encUpd (RangeEncoder.renorm u) probs i (if bv then 1 else 0)).1 := by
        cases bv
        · rw [(hb0 rfl).2.2]
        · rw [(hb1 rfl).2.2]
          omega
      have hT1sum : TE (RangeEncoder.encUpd (RangeEncoder.renorm u) probs i
            (if bv then 1 else 0)).1 +
          (RangeEncoder.encUpd (RangeEncoder.renorm u) probs i (if bv then 1 else 0)).1.range ≤
          TE (RangeEncoder.renorm u) + (RangeEncoder.renorm u).range := by
        cases bv
        · rw [(hb0 rfl).2.2, (hb0 rfl).2.1]
          omega
        · rw [(hb1 rfl).2.2, (hb1 rfl).2.1]
          omega
      refine ⟨(if u.range < 2 ^ 24 then 1 else 0) + r1, by omega, by omega, hd1, by omega, ?_, ?_⟩
      · calc TE u * 256 ^ ((if u.range < 2 ^ 24 then 1 else 0) + r1)
            = (TE u * 256 ^ (if u.range < 2 ^ 24 then 1 else 0)) * 256 ^ r1 := by
              rw [pow_add]
              ring
          _ = TE (RangeEncoder.renorm u) * 256 ^ r1 := by rw [hTe]
          _ ≤ TE (RangeEncoder.encUpd (RangeEncoder.renorm u) probs i
              (if bv then 1 else 0)).1 * 256 ^ r1 := Nat.mul_le_mul_right _ hT1ge
          _ ≤ _ := hlow1
      · calc listVal (RangeEncoder.finish (RangeEncoder.renorm
              (RangeEncoder.phiRun (RangeEncoder.encUpd (RangeEncoder.renorm u) probs i
                (if bv then 1 else 0)).1
                (RangeEncoder.encUpd (RangeEncoder.renorm u) probs i
                (if bv then 1 else 0)).2 rest').1)).out * 2 ^ 40 + 1
            ≤ (TE (RangeEncoder.encUpd (RangeEncoder.renorm u) probs i
                (if bv then 1 else 0)).1 +
              (RangeEncoder.encUpd (RangeEncoder.renorm u) probs i
                (if bv then 1 else 0)).1.range) * 256 ^ r1 := hup1
          _ ≤ (TE (RangeEncoder.renorm u) + (RangeEncoder.renorm u).range) * 256 ^ r1 :=
              Nat.mul_le_mul_right _ hT1sum
          _ = ((TE u + u.range) * 256 ^ (if u.range < 2 ^ 24 then 1 else 0)) * 256 ^ r1 := by
              rw [hTe, hRe]
              ring
          _ = (TE u + u.range) * 256 ^ ((if u.range < 2 ^ 24 then 1 else 0) + r1) := by
              rw [pow_add]
              ring

theorem listVal_take_bounds (S : List Nat) (n : Nat) (hn : n ≤ S.length)
    (hd : ∀ d ∈ S, d < 256) :
    listVal (S.take n) * 256 ^ (S.length - n) ≤ listVal S ∧
    listVal S < (listVal (S.take n) + 1) * 256 ^ (S.length - n) := by
  have hsplit := listVal_take_drop S n
  have hdroplen : (S.drop n).length = S.length - n := List.length_drop n S
  have hlt : listVal (S.drop n) < 256 ^ (S.length - n) := by
    rw [← hdroplen]
    exact listVal_lt _ (fun d hd2 => hd d (List.mem_of_mem_drop hd2))
  rw [hdroplen] at hsplit
  constructor
  · omega
  · rw [Nat.add_mul, one_mul]
    omega

/-- Digit-prefix bounds transported through the interval facts of
`finalFacts`: if the final stream value sits in
`[TU * 256^r, (TU + rng) * 256^r)` and `n + r = |S| + 5`, then the value of
the first `n` digits is in `[TU, TU + rng)`. -/
theorem coupling_bounds (S : List Nat) (n r TU rng : Nat) (hn : n ≤ S.length)
    (hd : ∀ d ∈ S, d < 256)
    (hr : n + r = S.length + 5)
    (hlow : TU * 256 ^ r ≤ listVal S * 2 ^ 40)
    (hup : listVal S * 2 ^ 40 + 1 ≤ (TU + rng) * 256 ^ r) :
    TU ≤ listVal (S.take n) ∧ listVal (S.take n) < TU + rng := by
  obtain ⟨hlb, hub⟩ := listVal_take_bounds S n hn hd
  have hM : (256 : Nat) ^ (S.length - n) * 2 ^ 40 = 256 ^ r := by
    rw [show (2 : Nat) ^ 40 = 256 ^ 5 from by norm_num, ← pow_add]
    congr 1
    omega
  constructor
  · have h1 : listVal S * 2 ^ 40 < ((listVal (S.take n) + 1) * 256 ^ (S.length - n)) * 2 ^ 40 :=
      (Nat.mul_lt_mul_right (by norm_num : (0 : Nat) < 2 ^ 40)).mpr hub
    rw [mul_assoc, hM] at h1
    have h2 : TU * 256 ^ r < (listVal (S.take n) + 1) * 256 ^ r := lt_of_le_of_lt hlow h1
    have h3 : TU < listVal (S.take n) + 1 := lt_of_mul_lt_mul_right h2 (Nat.zero_le _)
    omega
  · have h1 : (listVal (S.take n) * 256 ^ (S.length - n)) * 2 ^ 40 ≤ listVal S * 2 ^ 40 :=
      Nat.mul_le_mul_right _ hlb
    rw [mul_assoc, hM] at h1
    have h2 : listVal (S.take n) * 256 ^ r < (TU + rng) * 256 ^ r := by omega
    exact lt_of_mul_lt_mul_right h2 (Nat.zero_le _)

theorem read_u32_be_ok (src : List Nat) (h : 4 ≤ src.length) :
    read_u32_be src = (Except.ok (listVal (src.take 4)), src.drop 4) := by
  unfold read_u32_be readExact
  rw [if_pos h]
  rfl

/-- `RangeDecoder::normalize` is the identity when `range ≥ 2^24`. -/
theorem normalize_noop (d : RangeDecoder) (h : ¬(d.range < 0x01000000)) :
    RangeDecoder.normalize d = Except.ok d := by
  unfold RangeDecoder.normalize
  rw [if_neg h]

/-- `RangeDecoder::normalize` when `range < 2^24`: reads one byte `b`,
shifting it into `code`; no u32 wrap occurs when `code < range`. -/
theorem normalize_read (d : RangeDecoder) (b : Nat) (rest : List Nat)
    (hlt : d.range < 2 ^ 24) (hinner : d.inner = b :: rest) (hb : b < 256)
    (hcode : d.code < d.range) :
    RangeDecoder.normalize d =
      Except.ok { inner := rest, range := d.range * 256, code := d.code * 256 + b } := by
  unfold RangeDecoder.normalize
  rw [if_pos (show d.range < 0x01000000 from hlt), hinner]
  show Except.ok _ = _
  have hrange : (d.range <<< SHIFT_BITS) % U32 = d.range * 256 := by
    rw [Nat.shiftLeft_eq]
    show d.range * 2 ^ 8 % 2 ^ 32 = _
    rw [Nat.mod_eq_of_lt (by omega)]
  have hcode2 : ((d.code <<< SHIFT_BITS) % U32) ||| b = d.code * 256 + b := by
    rw [Nat.shiftLeft_eq]
    show (d.code * 2 ^ 8 % 2 ^ 32) ||| b = _
    rw [Nat.mod_eq_of_lt (by omega), lor_mul_pow_add _ _ _ (by omega)]
    norm_num
  rw [hrange, hcode2]

/-- Branchless `RangeDecoder::decode_bit` in clean form: given the result
of `normalize` and absence of u32 wrap-around, the masked blends reduce to
the two decode branches (`mask = 0xFFFFFFFF` for bit 1, `mask = 0` for
bit 0). -/
theorem decode_bit_spec (d d1 : RangeDecoder) (probs : Nat → Nat) (index : Nat)
    (hnorm : RangeDecoder.normalize d = Except.ok d1)
    (hrange : d1.range < 2 ^ 32) (hcode : d1.code < 2 ^ 32)
    (hble : (d1.range >>> BIT_MODEL_TOTAL_BITS) * probs index ≤ d1.range)
    (hblt : (d1.range >>> BIT_MODEL_TOTAL_BITS) * probs index < 2 ^ 32) :
    ((d1.range >>> BIT_MODEL_TOTAL_BITS) * probs index ≤ d1.code →
      RangeDecoder.decode_bit d probs index = Except.ok (1,
        { inner := d1.inner,
          range := d1.range - (d1.range >>> BIT_MODEL_TOTAL_BITS) * probs index,
          code := d1.code - (d1.range >>> BIT_MODEL_TOTAL_BITS) * probs index },
        fun j => if j = index then decodeBitProbUpd (U32 - 1) (probs index) else probs j)) ∧
    (d1.code < (d1.range >>> BIT_MODEL_TOTAL_BITS) * probs index →
      RangeDecoder.decode_bit d probs index = Except.ok (0,
        { inner := d1.inner,
          range := (d1.range >>> BIT_MODEL_TOTAL_BITS) * probs index,
          code := d1.code },
        fun j => if j = index then decodeBitProbUpd 0 (probs index) else probs j)) := by
  have hU : U32 = 2 ^ 32 := rfl
  have hones : ∀ x : Nat, x &&& (U32 - 1) = x % 2 ^ 32 := by
    intro x
    rw [hU]
    exact Nat.and_pow_two_sub_one_eq_mod x 32
  have hbmod : ((d1.range >>> BIT_MODEL_TOTAL_BITS) * probs index) % U32 =
      (d1.range >>> BIT_MODEL_TOTAL_BITS) * probs index := by
    rw [hU]
    exact Nat.mod_eq_of_lt hblt
  constructor
  · intro hge
    unfold RangeDecoder.decode_bit
    rw [hnorm]
    dsimp only
    rw [hbmod, if_pos hge]
    have hmask : (U32 - 1) % U32 = U32 - 1 := by
      rw [hU]
      omega
    rw [hmask]
    have h1 : (U32 - 1) ^^^ (U32 - 1) = 0 := Nat.xor_self _
    have h2 : (d1.range >>> BIT_MODEL_TOTAL_BITS) * probs index &&& 0 = 0 := Nat.and_zero _
    have h3 : (d1.range + U32 - (d1.range >>> BIT_MODEL_TOTAL_BITS) * probs index) % U32 =
        d1.range - (d1.range >>> BIT_MODEL_TOTAL_BITS) * probs index := by
      rw [hU]
      omega
    have h4 : (d1.range - (d1.range >>> BIT_MODEL_TOTAL_BITS) * probs index) &&& (U32 - 1) =
        d1.range - (d1.range >>> BIT_MODEL_TOTAL_BITS) * probs index := by
      rw [hones]
      omega
    have h5 : (d1.range >>> BIT_MODEL_TOTAL_BITS) * probs index &&& (U32 - 1) =
        (d1.range >>> BIT_MODEL_TOTAL_BITS) * probs index := by
      rw [hones]
      omega
    have h6 : (d1.code + U32 - (d1.range >>> BIT_MODEL_TOTAL_BITS) * probs index) % U32 =
        d1.code - (d1.range >>> BIT_MODEL_TOTAL_BITS) * probs index := by
      rw [hU]
      omega
    have h7 : (U32 - 1) &&& 1 = 1 := by
      rw [Nat.and_one_is_mod, hU]
      omega
    rw [h1, h2, h3, h4, h5, h6, h7, Nat.zero_or]
  · intro hlt
    unfold RangeDecoder.decode_bit
    rw [hnorm]
    dsimp only
    rw [hbmod, if_neg (by omega)]
    have hmask : (U32 - 0) % U32 = 0 := by
      rw [hU]
      omega
    rw [hmask]
    have h1 : (0 : Nat) ^^^ (U32 - 1) = U32 - 1 := Nat.zero_xor _
    have h2 : (d1.range >>> BIT_MODEL_TOTAL_BITS) * probs index &&& (U32 - 1) =
        (d1.range >>> BIT_MODEL_TOTAL_BITS) * probs index := by
      rw [hones]
      omega
    have h3 : (d1.range + U32 - (d1.range >>> BIT_MODEL_TOTAL_BITS) * probs index) % U32 &&& 0 =
        0 := Nat.and_zero _
    have h4 : (d1.code + U32 - ((d1.range >>> BIT_MODEL_TOTAL_BITS) * probs index &&& 0)) % U32 =
        d1.code := by
      rw [Nat.and_zero, hU]
      omega
    have h5 : (0 : Nat) &&& 1 = 0 := Nat.zero_and _
    rw [h1, h2, h3, h4, h5, Nat.or_zero]

/-- Decoder-encoder coupling: if the streaming decoder holds the suffix of
the final stream `S` from position `n`, its `range` equals the encoder's
pre-renormalization `range`, and its `code` satisfies
`listVal (S.take n) = TE u + code`, then decoding at the indices of the
remaining steps returns exactly the remaining encoded bits. -/
theorem decoderCoupling (rest : List (Nat × Bool)) :
    ∀ (u : RangeEncoder) (probs : Nat → Nat) (code n r : Nat) (S : List Nat),
    EncInv u → ProbsInv probs →
    S = (RangeEncoder.finish (RangeEncoder.renorm (RangeEncoder.phiRun u probs rest).1)).out →
    VDE (RangeEncoder.finish (RangeEncoder.renorm (RangeEncoder.phiRun u probs rest).1)) =
      VDE u + r →
    listVal (S.take n) = TE u + code →
    n + r = S.length + 5 →
    ∃ dfin pfin,
      RangeDecoder.decodeRun { inner := S.drop n, range := u.range, code := code } probs
          (rest.map Prod.fst) =
        Except.ok (rest.map (fun s => if s.2 then 1 else 0), dfin, pfin) := by
  induction rest with
  | nil =>
      intro u probs code n r S inv hprobs hS hV hTake hn
      exact ⟨_, _, rfl⟩
  | cons s rest' ih =>
      obtain ⟨i, bv⟩ := s
      intro u probs code n r S inv hprobs hS hV hTake hn
      obtain ⟨r0, hv0, hr0lb, hdig, hlen, hlow, hup⟩ :=
        finalFacts ((i, bv) :: rest') u probs inv hprobs
      rw [← hS] at hdig hlen hlow hup
      have hrr : r0 = r := by omega
      subst hrr
      have hnle : n ≤ S.length := by
        have h0 : 0 ≤ (if u.range < 2 ^ 24 then 1 else 0) := Nat.zero_le _
        omega
      have hcb := coupling_bounds S n r0 (TE u) u.range hnle hdig (by omega) hlow hup
      have hcode_lt : code < u.range := by omega
      have hcode32 : code < 2 ^ 32 := by
        have := inv.range_lt
        omega
      obtain ⟨inv', hge24, hTe, hRe, hVe, hlencs⟩ := renorm_spec u inv
      obtain ⟨inv1, hp1, hout1, hVDE1, hblb, hbub, hb0, hb1, hpeq⟩ :=
        encUpd_spec (RangeEncoder.renorm u) probs i bv inv' hge24 hprobs
      simp only [RangeEncoder.phiRun] at hS hV
      -- normalize: the decoder reads a byte exactly when the encoder shifted
      obtain ⟨n', code1, hnorm, hTake1, hn1, hn'le, hcode1lt⟩ :
          ∃ n' code1,
            RangeDecoder.normalize { inner := S.drop n, range := u.range, code := code } =
              Except.ok (⟨S.drop n', (RangeEncoder.renorm u).range, code1⟩ : RangeDecoder) ∧
            listVal (S.take n') = TE (RangeEncoder.renorm u) + code1 ∧
            n' + (r0 - (if u.range < 2 ^ 24 then 1 else 0)) = S.length + 5 ∧
            n' ≤ S.length ∧
            code1 < (RangeEncoder.renorm u).range := by
        by_cases hlt : u.range < 2 ^ 24
        · have hif : (if u.range < 2 ^ 24 then 1 else 0) = 1 := if_pos hlt
          rw [if_pos hlt] at hr0lb hTe hRe hVe
          rw [pow_one] at hTe hRe
          have hnlt : n < S.length := by omega
          have hdrop : S.drop n = S[n] :: S.drop (n + 1) := List.drop_eq_getElem_cons hnlt
          have hbyte : S[n] < 256 := hdig _ (List.getElem_mem hnlt)
          refine ⟨n + 1, code * 256 + S[n], ?_, ?_, by omega, by omega, ?_⟩
          · rw [normalize_read { inner := S.drop n, range := u.range, code := code }
              S[n] (S.drop (n + 1)) hlt hdrop hbyte hcode_lt]
            rw [hRe]
          · rw [listVal_take_succ S n hnlt]
            have : S.get ⟨n, hnlt⟩ = S[n] := rfl
            rw [this, hTake, hTe]
            ring
          · rw [hRe]
            omega
        · have hif : (if u.range < 2 ^ 24 then 1 else 0) = 0 := if_neg hlt
          rw [if_neg hlt] at hr0lb hTe hRe hVe
          rw [pow_zero, Nat.mul_one] at hTe hRe
          have hrenorm : RangeEncoder.renorm u = u := by
            unfold RangeEncoder.renorm
            rw [if_neg (by
              show ¬(u.range &&& 0xFF000000 = 0)
              rw [top_mask_zero_iff u.range inv.range_lt]
              omega)]
          refine ⟨n, code, ?_, ?_, by omega, hnle, ?_⟩
          · rw [hrenorm]
            exact normalize_noop _ (by show ¬(u.range < 0x01000000); omega)
          · rw [hTake, hTe]
          · rw [hRe]
            exact hcode_lt
      -- interval facts at the post-update state settle the decoded bit
      obtain ⟨r2, hv2, hr2lb, hdig2, hlen2, hlow2, hup2⟩ := finalFacts rest'
        (RangeEncoder.encUpd (RangeEncoder.renorm u) probs i (if bv then 1 else 0)).1
        (RangeEncoder.encUpd (RangeEncoder.renorm u) probs i (if bv then 1 else 0)).2
        inv1 hp1
      rw [← hS] at hdig2 hlen2 hlow2 hup2
      have hr2 : r2 = r0 - (if u.range < 2 ^ 24 then 1 else 0) := by
        have h0 : 0 ≤ (if u.range < 2 ^ 24 then 1 else 0) := Nat.zero_le _
        omega
      rw [hr2] at hlow2 hup2
      have hcb2 := coupling_bounds S n' (r0 - (if u.range < 2 ^ 24 then 1 else 0))
        (TE (RangeEncoder.encUpd (RangeEncoder.renorm u) probs i (if bv then 1 else 0)).1)
        (RangeEncoder.encUpd (RangeEncoder.renorm u) probs i (if bv then 1 else 0)).1.range
        hn'le hdig (by omega) hlow2 hup2
      -- clean decode_bit at the normalized state
      have hrangelt : (⟨S.drop n', (RangeEncoder.renorm u).range, code1⟩ :
          RangeDecoder).range < 2 ^ 32 := inv'.range_lt
      have hcodelt : (⟨S.drop n', (RangeEncoder.renorm u).range, code1⟩ :
          RangeDecoder).code < 2 ^ 32 := by
        have := inv'.range_lt
        show code1 < 2 ^ 32
        omega
      obtain ⟨hdec1, hdec0⟩ := decode_bit_spec
        { inner := S.drop n, range := u.range, code := code }
        (⟨S.drop n', (RangeEncoder.renorm u).range, code1⟩ : RangeDecoder)
        probs i hnorm hrangelt hcodelt (by dsimp only; omega) (by
          dsimp only
          have := inv'.range_lt
          omega)
      dsimp only at hdec1 hdec0
      -- synchronized probability update
      have hpup : probs i ≤ 2048 := by
        have := (hprobs i).2
        omega
      cases bv
      · -- encoded bit 0: the stream value is below the bit-1 subinterval
        have hTu1 : TE (RangeEncoder.encUpd (RangeEncoder.renorm u) probs i
            (if false then 1 else 0)).1 = TE (RangeEncoder.renorm u) := (hb0 rfl).2.2
        have hRu1 : (RangeEncoder.encUpd (RangeEncoder.renorm u) probs i
            (if false then 1 else 0)).1.range =
            (RangeEncoder.renorm u).range >>> BIT_MODEL_TOTAL_BITS * probs i := (hb0 rfl).2.1
        have hdecide : code1 < (RangeEncoder.renorm u).range >>> BIT_MODEL_TOTAL_BITS * probs i := by
          have h2 := hcb2.2
          rw [hTu1, hRu1] at h2
          omega
        have hstep := hdec0 hdecide
        have hfun : (fun j => if j = i then decodeBitProbUpd 0 (probs i) else probs j) =
            (RangeEncoder.encUpd (RangeEncoder.renorm u) probs i (if false then 1 else 0)).2 := by
          rw [hpeq]
          funext j
          by_cases hj : j = i
          · rw [if_pos hj, if_pos hj]
            show decodeBitProbUpd 0 (probs i) = encodeBitProbUpd0 (probs i)
            rw [decodeBitProbUpd_mask0_eq _ hpup, encodeBitProbUpd0_eq _ hpup]
          · rw [if_neg hj, if_neg hj]
        rw [hfun] at hstep
        obtain ⟨dfin, pfin, hrun⟩ := ih
          (RangeEncoder.encUpd (RangeEncoder.renorm u) probs i (if false then 1 else 0)).1
          (RangeEncoder.encUpd (RangeEncoder.renorm u) probs i (if false then 1 else 0)).2
          code1 n' (r0 - (if u.range < 2 ^ 24 then 1 else 0)) S inv1 hp1 hS (by
            have h0 : 0 ≤ (if u.range < 2 ^ 24 then 1 else 0) := Nat.zero_le _
            omega) (by rw [hTake1, hTu1]) (by omega)
        refine ⟨dfin, pfin, ?_⟩
        show RangeDecoder.decodeRun _ _ (i :: rest'.map Prod.fst) = _
        rw [show ((i, false) :: rest').map (fun s => if s.2 then 1 else 0) =
          0 :: rest'.map (fun s => if s.2 then 1 else 0) from rfl]
        unfold RangeDecoder.decodeRun
        rw [hstep]
        dsimp only
        rw [hRu1] at hrun
        rw [hrun]
      · -- encoded bit 1: the stream value reaches the bit-1 subinterval
        have hTu1 : TE (RangeEncoder.encUpd (RangeEncoder.renorm u) probs i
            (if true then 1 else 0)).1 = TE (RangeEncoder.renorm u) +
            (RangeEncoder.renorm u).range >>> BIT_MODEL_TOTAL_BITS * probs i := (hb1 rfl).2.2
        have hRu1 : (RangeEncoder.encUpd (RangeEncoder.renorm u) probs i
            (if true then 1 else 0)).1.range = (RangeEncoder.renorm u).range -
            (RangeEncoder.renorm u).range >>> BIT_MODEL_TOTAL_BITS * probs i := (hb1 rfl).2.1
        have hdecide : (RangeEncoder.renorm u).range >>> BIT_MODEL_TOTAL_BITS * probs i ≤ code1 := by
          have h1 := hcb2.1
          rw [hTu1] at h1
          omega
        have hstep := hdec1 hdecide
        have hfun : (fun j => if j = i then decodeBitProbUpd (U32 - 1) (probs i) else probs j) =
            (RangeEncoder.encUpd (RangeEncoder.renorm u) probs i (if true then 1 else 0)).2 := by
          rw [hpeq]
          funext j
          by_cases hj : j = i
          · rw [if_pos hj, if_pos hj]
            show decodeBitProbUpd (U32 - 1) (probs i) = encodeBitProbUpd1 (probs i)
            rw [decodeBitProbUpd_mask1_eq _ hpup, encodeBitProbUpd1_eq]
          · rw [if_neg hj, if_neg hj]
        rw [hfun] at hstep
        obtain ⟨dfin, pfin, hrun⟩ := ih
          (RangeEncoder.encUpd (RangeEncoder.renorm u) probs i (if true then 1 else 0)).1
          (RangeEncoder.encUpd (RangeEncoder.renorm u) probs i (if true then 1 else 0)).2
          (code1 - (RangeEncoder.renorm u).range >>> BIT_MODEL_TOTAL_BITS * probs i)
          n' (r0 - (if u.range < 2 ^ 24 then 1 else 0)) S inv1 hp1 hS (by
            have h0 : 0 ≤ (if u.range < 2 ^ 24 then 1 else 0) := Nat.zero_le _
            omega) (by rw [hTake1, hTu1]; omega) (by omega)
        refine ⟨dfin, pfin, ?_⟩
        show RangeDecoder.decodeRun _ _ (i :: rest'.map Prod.fst) = _
        rw [show ((i, true) :: rest').map (fun s => if s.2 then 1 else 0) =
          1 :: rest'.map (fun s => if s.2 then 1 else 0) from rfl]
        unfold RangeDecoder.decodeRun
        rw [hstep]
        dsimp only
        rw [hRu1] at hrun
        rw [hrun]

theorem encInv_new : EncInv RangeEncoder.new where
  sum_le := by decide
  range_lb := by decide
  range_lt := by decide
  cs_pos := by decide
  cache_lt := by decide
  out_lt := fun d hd => absurd hd (List.not_mem_nil d)
  cache_ff := fun h => absurd h (by decide)

/-- C1: range coder round-trip.  For every finite sequence of bits with
probability-slot indices, encoding from the reset state (all probabilities
`PROB_INIT = 1024`) with `RangeEncoder::encode_bit` and then
`RangeEncoder::finish` yields a byte stream on which
`RangeDecoder::new_stream` succeeds and the same number of
`RangeDecoder::decode_bit` calls, against an identically initialized and
synchronously updated probability array, returns exactly the encoded
bits. -/
theorem claim_C1_range_coder_roundtrip (steps : List (Nat × Bool)) :
    ∃ d dfin pfin,
      RangeDecoder.new_stream
        (RangeEncoder.finish (RangeEncoder.encodeRun RangeEncoder.new
          (fun _ => PROB_INIT) steps).1).out = Except.ok d ∧
      RangeDecoder.decodeRun d (fun _ => PROB_INIT) (steps.map Prod.fst) =
        Except.ok (steps.map (fun s => if s.2 then 1 else 0), dfin, pfin) := by
  have hinv := encInv_new
  have hprobs := probsInv_init
  have hren0 : RangeEncoder.renorm RangeEncoder.new = RangeEncoder.new := by
    unfold RangeEncoder.renorm
    rw [if_neg (by decide)]
  have hrun := RangeEncoder.encodeRun_phi steps RangeEncoder.new (fun _ => PROB_INIT)
  rw [hren0] at hrun
  obtain ⟨r, hv, hrlb, hdig, hlen, hlow, hup⟩ :=
    finalFacts steps RangeEncoder.new (fun _ => PROB_INIT) hinv hprobs
  obtain ⟨S, hSdef⟩ : ∃ S, S = (RangeEncoder.finish (RangeEncoder.renorm
      (RangeEncoder.phiRun RangeEncoder.new (fun _ => PROB_INIT) steps).1)).out := ⟨_, rfl⟩
  rw [← hSdef] at hdig hlen hlow hup
  have hTE0 : TE RangeEncoder.new = 0 := by decide
  have hVDE0 : VDE RangeEncoder.new = 1 := by decide
  have hif0 : (if RangeEncoder.new.range < 2 ^ 24 then 1 else 0) = 0 := by decide
  rw [hTE0] at hlow hup
  rw [hVDE0] at hv hlen
  rw [hif0] at hrlb
  have hr5 : 5 ≤ r := by omega
  have hLr : S.length = r := by omega
  -- the first emitted byte is zero
  have htb := (listVal_take_bounds S 1 (by omega) hdig).1
  have hnr : RangeEncoder.new.range = 0xFFFFFFFF := rfl
  rw [hnr] at hup
  have hup2 : listVal S * 2 ^ 40 + 1 ≤ 2 ^ 32 * 256 ^ r := by
    have h1 : (0 + 0xFFFFFFFF) * 256 ^ r ≤ 2 ^ 32 * 256 ^ r :=
      Nat.mul_le_mul_right _ (by norm_num)
    omega
  have hM : 256 ^ (S.length - 1) * 2 ^ 40 = 2 ^ 32 * 256 ^ S.length := by
    rw [show (2 : Nat) ^ 40 = 256 ^ 5 from by norm_num,
      show (2 : Nat) ^ 32 = 256 ^ 4 from by norm_num, ← pow_add, ← pow_add]
    exact congrArg (fun k => (256 : Nat) ^ k) (by omega)
  have hS0val : listVal (S.take 1) = 0 := by
    have h1 : (listVal (S.take 1) * 256 ^ (S.length - 1)) * 2 ^ 40 ≤ listVal S * 2 ^ 40 :=
      Nat.mul_le_mul_right _ htb
    rw [mul_assoc, hM, hLr] at h1
    have h2 : listVal (S.take 1) * (2 ^ 32 * 256 ^ r) < 1 * (2 ^ 32 * 256 ^ r) := by
      rw [one_mul]
      omega
    have h3 := lt_of_mul_lt_mul_right h2 (Nat.zero_le _)
    omega
  have h0lt : 0 < S.length := by omega
  have hgetv : listVal (S.take 1) = S[0] := by
    rw [listVal_take_succ S 0 h0lt]
    show listVal [] * 256 + S.get ⟨0, h0lt⟩ = S[0]
    simp [listVal]
  have hS0 : S[0] = 0 := by omega
  have hScons : S = S[0] :: S.drop 1 := by
    conv_lhs => rw [show S = S.drop 0 from rfl]
    exact List.drop_eq_getElem_cons h0lt
  -- new_stream succeeds
  have hr4 : 4 ≤ (S.drop 1).length := by
    rw [List.length_drop]
    omega
  have hread4 := read_u32_be_ok (S.drop 1) hr4
  have hdrop5 : (S.drop 1).drop 4 = S.drop 5 := by
    rw [List.drop_drop]
  have hnews : RangeDecoder.new_stream S =
      Except.ok ⟨S.drop 5, 0xFFFFFFFF, listVal ((S.drop 1).take 4)⟩ := by
    have hread1 : readU8 S = (Except.ok S[0], S.drop 1) := by
      conv_lhs => rw [hScons]
      rfl
    unfold RangeDecoder.new_stream
    rw [hread1, hS0]
    dsimp only
    rw [if_neg (by omega : ¬((0 : Nat) ≠ 0))]
    rw [hread4, hdrop5]
  -- initial coupling: five bytes consumed, code = bytes 1..4
  have htake5 : listVal (S.take 5) = listVal ((S.drop 1).take 4) := by
    rw [show (5 : Nat) = 1 + 4 from rfl, List.take_add, listVal_append, hS0val]
    have hlen4 : ((S.drop 1).take 4).length = 4 := by
      rw [List.length_take]
      omega
    rw [hlen4]
    omega
  obtain ⟨dfin, pfin, hrun2⟩ := decoderCoupling steps RangeEncoder.new (fun _ => PROB_INIT)
    (listVal ((S.drop 1).take 4)) 5 r S hinv hprobs hSdef (by omega)
    (by rw [htake5, hTE0]; omega) (by omega)
  refine ⟨⟨S.drop 5, 0xFFFFFFFF, listVal ((S.drop 1).take 4)⟩, dfin, pfin, ?_, ?_⟩
  · rw [hrun]
    dsimp only
    rw [← hSdef]
    exact hnews
  · exact hrun2

/-! ## C3: HC4 match validity
(`src/src/lz/hc4.rs`, `src/src/lz/hash234.rs`, `src/src/lz/lz_encoder.rs`).

The window buffer is modelled as a total function `buf : Nat → Nat` (the
source allocates `vec![0; buf_size]`, so unwritten positions read 0);
hash tables and the hash chain are functions as well.  Machine `i32`
values (positions, deltas) are embedded as `Int`; `wrapping_sub` is
written explicitly through `wrap32`; a `usize` cast of a negative `i32`
produces a huge value that the source clamps to `buf_limit`
(`get_byte`), which the embedding mirrors. -/

/-- Signed 32-bit wrap of an integer (`i32::wrapping_sub` result). -/
def wrap32 (x : Int) : Int := (x + 2 ^ 31) % 2 ^ 32 - 2 ^ 31

theorem wrap32_id (x : Int) (h1 : -(2 ^ 31) ≤ x) (h2 : x < 2 ^ 31) : wrap32 x = x := by
  unfold wrap32
  omega

/-- `Hash234::hash_byte`: golden-ratio multiplicative hash (u32). -/
def hashByte (b : Nat) : Nat := b * 0x9E3779B9 % 2 ^ 32

/-- First line of `Hash234::calc_hashes`: `hash2_value`. -/
def calcHash2 (b0 b1 : Nat) : Nat := (hashByte b0 ^^^ b1) &&& 0x3FF

/-- Second line of `Hash234::calc_hashes`: `hash3_value`. -/
def calcHash3 (b0 b1 b2 : Nat) : Nat := ((hashByte b0 ^^^ b1) ^^^ (b2 <<< 8)) &&& 0xFFFF

/-- Third line of `Hash234::calc_hashes`: `hash4_value` (the `<< 5` is a
u32 shift, hence the explicit wrap). -/
def calcHash4 (mask b0 b1 b2 b3 : Nat) : Nat :=
  (((hashByte b0 ^^^ b1) ^^^ (b2 <<< 8)) ^^^ ((hashByte b3 <<< 5) % 2 ^ 32)) &&& mask

/-- `Hash234::get_hash4_size`. -/
def get_hash4_size (dict_size : Nat) : Nat :=
  let h := dict_size - 1
  let h := h ||| (h >>> 1)
  let h := h ||| (h >>> 2)
  let h := h ||| (h >>> 4)
  let h := h ||| (h >>> 8)
  let h := h >>> 1
  let h := h ||| 0xFFFF
  let h := if h > 1 <<< 24 then h >>> 1 else h
  h + 1

/-- One entry of `LZEncoder::normalize`. -/
def normEntry (norm_offset p : Int) : Int := if p ≤ norm_offset then 0 else p - norm_offset

/-- `LZEncoderData` (`src/lz/lz_encoder.rs`), restricted to the fields the
match finder reads and writes. -/
structure LZEncData where
  buf : Nat → Nat
  buf_limit : Nat
  buf_size : Int
  keep_size_before : Int
  keep_size_after : Int
  match_len_max : Int
  nice_len : Int
  read_pos : Int
  read_limit : Int
  write_pos : Int
  finishing : Bool
  pending_size : Int

namespace LZEncData

/-- `LZEncoderData::move_pos(required_for_flushing, required_for_finishing)`. -/
def move_pos (e : LZEncData) (rff rfin : Int) : Int × LZEncData :=
  let read_pos := e.read_pos + 1
  let avail := e.write_pos - read_pos
  if avail < rff ∧ (avail < rfin ∨ ¬e.finishing) then
    (0, { e with read_pos := read_pos, pending_size := e.pending_size + 1 })
  else
    (avail, { e with read_pos := read_pos })

/-- `LZEncoderData::get_byte(forward, backward)`: the position is cast to
`usize` (negative values become huge) and clamped to `buf_limit`. -/
def get_byte (e : LZEncData) (forward backward : Int) : Nat :=
  let pos := e.read_pos + forward - backward
  if pos < 0 then e.buf e.buf_limit else e.buf (min pos.toNat e.buf_limit)

/-- `LZEncoderData::get_byte_by_pos(pos)`. -/
def get_byte_by_pos (e : LZEncData) (pos : Int) : Nat :=
  if pos < 0 then e.buf e.buf_limit else e.buf (min pos.toNat e.buf_limit)

/-- `LZEncoderData::get_current_byte` (`buf[read_pos]`, no clamping). -/
def get_current_byte (e : LZEncData) : Nat := e.buf e.read_pos.toNat

end LZEncData

/-- Byte count of the while-loop in the unoptimized `extend_match`
(`take_while` over zipped slices). -/
def countEq (buf : Nat → Nat) : Nat → Nat → Nat → Nat
  | _, _, 0 => 0
  | i, j, n + 1 => if buf i = buf j then countEq buf (i + 1) (j + 1) n + 1 else 0

/-- `extend_match` (the byte-for-byte version; the word-at-a-time version
computes the same count).  In the source the slices panic when out of
range; the states this development evaluates or reasons about keep all
indices in range. -/
def extend_match (buf : Nat → Nat) (read_pos current_len distance limit : Int) : Int :=
  let extension_limit := limit - current_len
  if extension_limit = 0 then current_len
  else
    let start1 := (read_pos + current_len).toNat
    let start2 := start1 - distance.toNat
    current_len + countEq buf start1 start2 extension_limit.toNat

/-- `HC4` state (`src/lz/hc4.rs` plus the `Hash234` it owns). -/
structure HC4 where
  hash2_table : Nat → Int
  hash3_table : Nat → Int
  hash4_table : Nat → Int
  hash4_mask : Nat
  chain : Nat → Int
  depth_limit : Int
  cyclic_size : Int
  cyclic_pos : Int
  lz_pos : Int

namespace HC4

/-- `HC4::new(dict_size, nice_len, depth_limit)` (tables zero-filled). -/
def new (dict_size nice_len : Nat) (depth_limit : Int) : HC4 :=
  { hash2_table := fun _ => 0
    hash3_table := fun _ => 0
    hash4_table := fun _ => 0
    hash4_mask := get_hash4_size dict_size - 1
    chain := fun _ => 0
    depth_limit := if depth_limit > 0 then depth_limit else 4 + (nice_len : Int) / 4
    cyclic_size := (dict_size : Int) + 1
    cyclic_pos := -1
    lz_pos := (dict_size : Int) + 1 }

/-- `HC4::move_pos`: `encoder.move_pos(4, 4)`, then on success advance
`lz_pos` (with the `0x7FFFFFFF` normalization) and `cyclic_pos`. -/
def move_pos (h : HC4) (e : LZEncData) : Int × HC4 × LZEncData :=
  let r := e.move_pos 4 4
  let avail := r.1
  let e := r.2
  if avail ≠ 0 then
    let lz1 := h.lz_pos + 1
    let h :=
      if lz1 = 0x7FFFFFFF then
        let norm_offset := 0x7FFFFFFF - h.cyclic_size
        { h with hash2_table := fun j => normEntry norm_offset (h.hash2_table j)
                 hash3_table := fun j => normEntry norm_offset (h.hash3_table j)
                 hash4_table := fun j => normEntry norm_offset (h.hash4_table j)
                 chain := fun j => normEntry norm_offset (h.chain j)
                 lz_pos := wrap32 (lz1 - norm_offset) }
      else { h with lz_pos := lz1 }
    let cp := h.cyclic_pos + 1
    (avail, { h with cyclic_pos := if cp = h.cyclic_size then 0 else cp }, e)
  else (avail, h, e)

end HC4

/-- Append one `(dist, len)` pair (`matches.dist[count] = d;
matches.len[count] = l; matches.count += 1`). -/
def pushMatch (m : List (Int × Int)) (dist len : Int) : List (Int × Int) := m ++ [(dist, len)]

/-- Overwrite the length of the most recent pair
(`matches.len[count - 1] = len`). -/
def setLastLen : List (Int × Int) → Int → List (Int × Int)
  | [], _ => []
  | [x], l => [(x.1, l)]
  | x :: y :: xs, l => x :: setLastLen (y :: xs) l

/-- The hash-chain walk at the bottom of `HC4::find_matches`.  The fuel is
the remaining `depth` counter (the loop exits when the pre-decrement value
reaches 0, or when `delta >= cyclic_size`); `chain` is the already-updated
chain array, `mll`/`nll` the clamped `match_len_limit`/`nice_len_limit`. -/
def chainLoop (e : LZEncData) (cyclic_size cyclic_pos : Int) (chain : Nat → Int)
    (lz_pos mll nll : Int) :
    Nat → Int → Int → List (Int × Int) → List (Int × Int)
  | 0, _, _, m => m
  | fuel + 1, current_match, len_best, m =>
      let delta := lz_pos - current_match
      if delta ≥ cyclic_size then m
      else
        let i := cyclic_pos - delta + (if delta > cyclic_pos then cyclic_size else 0)
        let cm := chain i.toNat
        if e.get_byte len_best delta = e.get_byte len_best 0 ∧
            e.get_byte 0 delta = e.get_current_byte then
          let len := extend_match e.buf e.read_pos 1 delta mll
          if len > len_best then
            let m := pushMatch m (delta - 1) len
            if len ≥ nll then m
            else chainLoop e cyclic_size cyclic_pos chain lz_pos mll nll fuel cm len m
          else chainLoop e cyclic_size cyclic_pos chain lz_pos mll nll fuel cm len_best m
        else chainLoop e cyclic_size cyclic_pos chain lz_pos mll nll fuel cm len_best m

namespace HC4

/-- Body of `HC4::find_matches` after `move_pos`, given the returned
`avail ≠ 0`.  Returns the updated match-finder state and the recorded
`(dist, len)` pairs. -/
def find_matches_core (h : HC4) (e : LZEncData) (avail : Int) : HC4 × List (Int × Int) :=
  let mll := if avail < e.match_len_max then avail else e.match_len_max
  let nll := if avail < e.match_len_max ∧ e.nice_len > avail then avail else e.nice_len
  let b0 := e.buf e.read_pos.toNat
  let b1 := e.buf (e.read_pos.toNat + 1)
  let b2 := e.buf (e.read_pos.toNat + 2)
  let b3 := e.buf (e.read_pos.toNat + 3)
  let h2v := calcHash2 b0 b1
  let h3v := calcHash3 b0 b1 b2
  let h4v := calcHash4 h.hash4_mask b0 b1 b2 b3
  let delta2 := wrap32 (h.lz_pos - h.hash2_table h2v)
  let delta3 := wrap32 (h.lz_pos - h.hash3_table h3v)
  let current_match := h.hash4_table h4v
  let h' := { h with
    hash2_table := fun j => if j = h2v then h.lz_pos else h.hash2_table j
    hash3_table := fun j => if j = h3v then h.lz_pos else h.hash3_table j
    hash4_table := fun j => if j = h4v then h.lz_pos else h.hash4_table j
    chain := fun j => if j = h.cyclic_pos.toNat then current_match else h.chain j }
  let m0 : List (Int × Int) :=
    if delta2 < h.cyclic_size ∧
        e.get_byte_by_pos (e.read_pos - delta2) = e.get_byte_by_pos e.read_pos then
      pushMatch [] (delta2 - 1) 2
    else []
  let len_best0 : Int := if m0 = [] then 0 else 2
  let step3 :=
    if delta2 ≠ delta3 ∧ delta3 < h.cyclic_size ∧
        e.get_byte 0 delta3 = e.get_current_byte then
      (pushMatch m0 (delta3 - 1) 3, (3 : Int), delta3)
    else (m0, len_best0, delta2)
  let m1 := step3.1
  let len_best1 := step3.2.1
  let delta2x := step3.2.2
  if m1 ≠ [] then
    let lb := extend_match e.buf e.read_pos len_best1 delta2x mll
    let m2 := setLastLen m1 lb
    if lb ≥ nll then (h', m2)
    else
      let lbc := if lb < 3 then 3 else lb
      (h', chainLoop e h.cyclic_size h.cyclic_pos h'.chain h.lz_pos mll nll
        h.depth_limit.toNat current_match lbc m2)
  else
    (h', chainLoop e h.cyclic_size h.cyclic_pos h'.chain h.lz_pos mll nll
      h.depth_limit.toNat current_match 3 [])

/-- `HC4::find_matches` (`matches.count = 0` at entry; empty result when
`avail == 0`). -/
def find_matches (h : HC4) (e : LZEncData) : HC4 × LZEncData × List (Int × Int) :=
  let r := h.move_pos e
  let avail := r.1
  let h := r.2.1
  let e := r.2.2
  if avail = 0 then (h, e, [])
  else
    let c := find_matches_core h e avail
    (c.1, e, c.2)

/-- `HC4::skip(len)`. -/
def skip (h : HC4) (e : LZEncData) : Nat → HC4 × LZEncData
  | 0 => (h, e)
  | len + 1 =>
      let r := h.move_pos e
      let avail := r.1
      let h := r.2.1
      let e := r.2.2
      if avail ≠ 0 then
        let b0 := e.buf e.read_pos.toNat
        let b1 := e.buf (e.read_pos.toNat + 1)
        let b2 := e.buf (e.read_pos.toNat + 2)
        let b3 := e.buf (e.read_pos.toNat + 3)
        let h2v := calcHash2 b0 b1
        let h3v := calcHash3 b0 b1 b2
        let h4v := calcHash4 h.hash4_mask b0 b1 b2 b3
        let h' := { h with
          chain := fun j => if j = h.cyclic_pos.toNat then h.hash4_table h4v else h.chain j
          hash2_table := fun j => if j = h2v then h.lz_pos else h.hash2_table j
          hash3_table := fun j => if j = h3v then h.lz_pos else h.hash3_table j
          hash4_table := fun j => if j = h4v then h.lz_pos else h.hash4_table j }
        skip h' e len
      else skip h e len

end HC4

/-- `get_buf_size` (`src/lz/lz_encoder.rs`). -/
def get_buf_size (dict_size extra_size_before extra_size_after match_len_max : Nat) : Nat :=
  let keep_size_before := extra_size_before + dict_size
  let keep_size_after := extra_size_after + match_len_max
  let reserve_size := min (dict_size / 2 + (256 <<< 10)) (512 <<< 20)
  keep_size_before + keep_size_after + reserve_size

/-- The `LZEncoderData` part of `LZEncoder::new` (the buffer is
`vec![0; buf_size]`). -/
def lzenc_new (dict_size extra_size_before extra_size_after nice_len match_len_max : Nat) :
    LZEncData :=
  { buf := fun _ => 0
    buf_limit := get_buf_size dict_size extra_size_before extra_size_after match_len_max - 1
    buf_size := (get_buf_size dict_size extra_size_before extra_size_after match_len_max : Int)
    keep_size_before := (extra_size_before + dict_size : Nat)
    keep_size_after := (extra_size_after + match_len_max : Nat)
    match_len_max := (match_len_max : Int)
    nice_len := (nice_len : Int)
    read_pos := -1
    read_limit := -1
    write_pos := 0
    finishing := false
    pending_size := 0 }

namespace LZEncData

/-- `LZEncoderData::move_window` (the `& !15` clears the low four bits of
a non-negative offset). -/
def move_window (e : LZEncData) : LZEncData :=
  let move_offset := ((e.read_pos + 1 - e.keep_size_before) / 16) * 16
  let move_size := e.write_pos - move_offset
  { e with
    buf := fun i => if i < move_size.toNat then e.buf (i + move_offset.toNat) else e.buf i
    read_pos := e.read_pos - move_offset
    read_limit := e.read_limit - move_offset
    write_pos := e.write_pos - move_offset }

/-- `LZEncoderData::process_pending_bytes`. -/
def process_pending (e : LZEncData) (h : HC4) : LZEncData × HC4 :=
  if e.pending_size > 0 ∧ e.read_pos < e.read_limit then
    let old_pending := e.pending_size
    let e := { e with read_pos := e.read_pos - e.pending_size, pending_size := 0 }
    let r := HC4.skip h e old_pending.toNat
    (r.2, r.1)
  else (e, h)

/-- `LZEncoderData::fill_window(input)`: optional window move, copy into
the buffer at `write_pos`, update `read_limit`, process pending bytes.
Returns the number of bytes consumed and the new states. -/
def fill_window (e : LZEncData) (h : HC4) (input : List Nat) : Nat × LZEncData × HC4 :=
  let e := if e.read_pos ≥ e.buf_size - e.keep_size_after then e.move_window else e
  let len := if (input.length : Int) > e.buf_size - e.write_pos then
      (e.buf_size - e.write_pos).toNat else input.length
  let d_start := e.write_pos.toNat
  let e := { e with
    buf := fun i => if d_start ≤ i ∧ i < d_start + len then input.getD (i - d_start) 0 else e.buf i
    write_pos := e.write_pos + (len : Int) }
  let e := if e.write_pos ≥ e.keep_size_after then
      { e with read_limit := e.write_pos - e.keep_size_after } else e
  let r := e.process_pending h
  (len, r.1, r.2)

end LZEncData

/-- Concrete HC4 run refuting the `len ≤ nice_len` part of the match
validity claim: a fresh HC4 encoder with `dict_size = 32`, `nice_len = 8`,
`match_len_max = 16`, fed 40 zero bytes. -/
def c3Stage1 : Nat × LZEncData × HC4 :=
  (lzenc_new 32 0 0 8 16).fill_window (HC4.new 32 8 0) (List.replicate 40 0)

/-- First `find_matches` call of the run (position 0: no prior data, no
match). -/
def c3Stage2 : HC4 × LZEncData × List (Int × Int) :=
  HC4.find_matches c3Stage1.2.2 c3Stage1.2.1

/-- Second `find_matches` call of the run (position 1). -/
def c3Stage3 : HC4 × LZEncData × List (Int × Int) :=
  HC4.find_matches c3Stage2.1 c3Stage2.2.1

/-- C3 counterexample: at window position 1 of the all-zeros input, HC4
records the single match `(dist 0, len 16)`: the length equals
`match_len_limit = min(match_len_max, avail) = 16` and exceeds
`nice_len = 8`, refuting the claim's bound `len ≤ nice_len`
(`nice_len` only makes `find_matches` stop searching early; the final
`extend_match` is bounded by `match_len_limit` instead). -/
theorem claim_C3_counterexample :
    c3Stage2.2.2 = [] ∧
    c3Stage3.2.2 = [(0, 16)] ∧
    c3Stage3.2.1.nice_len = 8 ∧
    ¬((16 : Int) ≤ 8) := by
  refine ⟨rfl, rfl, rfl, by omega⟩

theorem countEq_le (buf : Nat → Nat) : ∀ n i j, countEq buf i j n ≤ n := by
  intro n
  induction n with
  | zero => intro i j; rfl
  | succ n ih =>
      intro i j
      unfold countEq
      by_cases hb : buf i = buf j
      · rw [if_pos hb]
        have := ih (i + 1) (j + 1)
        omega
      · rw [if_neg hb]
        omega

theorem countEq_eq (buf : Nat → Nat) : ∀ n i j k, k < countEq buf i j n →
    buf (i + k) = buf (j + k) := by
  intro n
  induction n with
  | zero => intro i j k hk; exact absurd hk (by simp [countEq])
  | succ n ih =>
      intro i j k hk
      unfold countEq at hk
      by_cases hb : buf i = buf j
      · rw [if_pos hb] at hk
        match k with
        | 0 => exact hb
        | k + 1 =>
            have := ih (i + 1) (j + 1) k (by omega)
            rw [show i + (k + 1) = i + 1 + k from by omega, show j + (k + 1) = j + 1 + k from by omega]
            exact this
      · rw [if_neg hb] at hk
        omega

theorem extend_match_bounds (buf : Nat → Nat) (rp cl dist limit : Int)
    (hcl : 0 ≤ cl) (hlim : cl ≤ limit) :
    cl ≤ extend_match buf rp cl dist limit ∧ extend_match buf rp cl dist limit ≤ limit := by
  unfold extend_match
  dsimp only
  by_cases hz : limit - cl = 0
  · rw [if_pos hz]
    omega
  · rw [if_neg hz]
    have := countEq_le buf (limit - cl).toNat (rp + cl).toNat ((rp + cl).toNat - dist.toNat)
    omega

theorem extend_match_eq (buf : Nat → Nat) (rp cl dist limit : Int)
    (hrp : 0 ≤ rp) (hcl : 0 ≤ cl) (hdist : 1 ≤ dist) (hdrp : dist ≤ rp) :
    ∀ k : Nat, cl ≤ (k : Int) → (k : Int) < extend_match buf rp cl dist limit →
      buf (rp.toNat + k) = buf ((rp - dist).toNat + k) := by
  intro k hk1 hk2
  unfold extend_match at hk2
  dsimp only at hk2
  by_cases hz : limit - cl = 0
  · rw [if_pos hz] at hk2
    omega
  · rw [if_neg hz] at hk2
    have hcount := countEq_eq buf (limit - cl).toNat (rp + cl).toNat
      ((rp + cl).toNat - dist.toNat) (k - cl.toNat) (by omega)
    rw [show (rp + cl).toNat + (k - cl.toNat) = rp.toNat + k from by omega,
      show (rp + cl).toNat - dist.toNat + (k - cl.toNat) = (rp - dist).toNat + k from by omega]
      at hcount
    exact hcount

theorem byte_testBit_high (b i : Nat) (hb : b < 256) (hi : 8 ≤ i) :
    Nat.testBit b i = false :=
  Nat.testBit_lt_two_pow (Nat.lt_of_lt_of_le (show b < 2 ^ 8 from hb)
    (Nat.pow_le_pow_right (by omega) hi))

theorem calcHash2_inj (b0 b1 c1 : Nat) (h1 : b1 < 256) (h1c : c1 < 256)
    (heq : calcHash2 b0 b1 = calcHash2 b0 c1) : b1 = c1 := by
  unfold calcHash2 at heq
  rw [show (0x3FF : Nat) = 2 ^ 10 - 1 from by norm_num,
    Nat.and_pow_two_sub_one_eq_mod, Nat.and_pow_two_sub_one_eq_mod] at heq
  apply Nat.eq_of_testBit_eq
  intro i
  rcases Nat.lt_or_ge i 8 with hi | hi
  · have ht : Nat.testBit (hashByte b0 ^^^ b1) i = Nat.testBit (hashByte b0 ^^^ c1) i := by
      have h2 : Nat.testBit ((hashByte b0 ^^^ b1) % 2 ^ 10) i =
          Nat.testBit ((hashByte b0 ^^^ c1) % 2 ^ 10) i := by rw [heq]
      rw [Nat.testBit_mod_two_pow, Nat.testBit_mod_two_pow] at h2
      simpa [show i < 10 from by omega] using h2
    rw [Nat.testBit_xor, Nat.testBit_xor] at ht
    cases hx : Nat.testBit (hashByte b0) i <;> simpa [hx] using ht
  · rw [byte_testBit_high b1 i h1 hi, byte_testBit_high c1 i h1c hi]

theorem calcHash3_inj (b0 b1 b2 c1 c2 : Nat) (h1 : b1 < 256) (h2 : b2 < 256)
    (h1c : c1 < 256) (h2c : c2 < 256)
    (heq : calcHash3 b0 b1 b2 = calcHash3 b0 c1 c2) : b1 = c1 ∧ b2 = c2 := by
  unfold calcHash3 at heq
  rw [show (0xFFFF : Nat) = 2 ^ 16 - 1 from by norm_num,
    Nat.and_pow_two_sub_one_eq_mod, Nat.and_pow_two_sub_one_eq_mod] at heq
  have key : ∀ i, i < 16 →
      Nat.testBit ((hashByte b0 ^^^ b1) ^^^ b2 <<< 8) i =
      Nat.testBit ((hashByte b0 ^^^ c1) ^^^ c2 <<< 8) i := by
    intro i hi
    have h' : Nat.testBit (((hashByte b0 ^^^ b1) ^^^ b2 <<< 8) % 2 ^ 16) i =
        Nat.testBit (((hashByte b0 ^^^ c1) ^^^ c2 <<< 8) % 2 ^ 16) i := by rw [heq]
    rw [Nat.testBit_mod_two_pow, Nat.testBit_mod_two_pow] at h'
    simpa [hi] using h'
  constructor
  · apply Nat.eq_of_testBit_eq
    intro i
    rcases Nat.lt_or_ge i 8 with hi | hi
    · have ht := key i (by omega)
      rw [Nat.testBit_xor, Nat.testBit_xor, Nat.testBit_xor, Nat.testBit_xor,
        Nat.testBit_shiftLeft, Nat.testBit_shiftLeft] at ht
      have hlt : ¬(8 ≤ i) := by omega
      simp only [hlt, decide_False, Bool.false_and, Bool.xor_false] at ht
      cases hx : Nat.testBit (hashByte b0) i <;> simpa [hx] using ht
    · rw [byte_testBit_high b1 i h1 hi, byte_testBit_high c1 i h1c hi]
  · apply Nat.eq_of_testBit_eq
    intro i
    rcases Nat.lt_or_ge i 8 with hi | hi
    · have ht := key (i + 8) (by omega)
      rw [Nat.testBit_xor, Nat.testBit_xor, Nat.testBit_xor, Nat.testBit_xor,
        Nat.testBit_shiftLeft, Nat.testBit_shiftLeft] at ht
      have hb1 : Nat.testBit b1 (i + 8) = false := byte_testBit_high b1 (i + 8) h1 (by omega)
      have hc1 : Nat.testBit c1 (i + 8) = false := byte_testBit_high c1 (i + 8) h1c (by omega)
      have hge : 8 ≤ i + 8 := by omega
      have hsub : i + 8 - 8 = i := by omega
      rw [hb1, hc1] at ht
      simp only [hge, decide_True, Bool.true_and, hsub, Bool.xor_false] at ht
      cases hx : Nat.testBit (hashByte b0) (i + 8) <;> simpa [hx] using ht
    · rw [byte_testBit_high b2 i h2 hi, byte_testBit_high c2 i h2c hi]

/-- Validity of one recorded match `(dist, len)` at the current read
position: the distance is in range for the dictionary
(`dist + 1 < cyclic_size`, i.e. `dist < dict_size`) and for the back
reference (`dist + 1 ≤ read_pos`), the length is between 2 and the
match length limit `mll = min(avail, match_len_max)`, and the `len`
referenced bytes agree with the `len` bytes at the read position. -/
def MatchOk (e : LZEncData) (cyclic_size mll : Int) (p : Int × Int) : Prop :=
  0 ≤ p.1 ∧ p.1 + 1 < cyclic_size ∧ p.1 + 1 ≤ e.read_pos ∧
  2 ≤ p.2 ∧ p.2 ≤ mll ∧
  ∀ k : Nat, (k : Int) < p.2 →
    e.buf (e.read_pos.toNat + k) = e.buf ((e.read_pos - p.1 - 1).toNat + k)

/-- Every match the hash-chain walk appends is valid: the byte at offset
0 is checked by the loop guard and the bytes from offset 1 on by
`extend_match`, whose result is bounded by `mll`; the distance bound
comes from the `delta >= cyclic_size` exit together with the chain-array
validity hypothesis. -/
theorem chainLoop_ok (e : LZEncData) (cyclic_size cyclic_pos : Int) (chain : Nat → Int)
    (lz_pos mll nll : Int)
    (Hrp : 0 ≤ e.read_pos) (Hrpb : e.read_pos ≤ (e.buf_limit : Int))
    (Hmll : 1 ≤ mll)
    (Hchain : ∀ j, lz_pos - chain j < cyclic_size →
      1 ≤ lz_pos - chain j ∧ lz_pos - chain j ≤ e.read_pos) :
    ∀ (fuel : Nat) (cm lb : Int) (m : List (Int × Int)),
      (lz_pos - cm < cyclic_size →
        1 ≤ lz_pos - cm ∧ lz_pos - cm ≤ e.read_pos) →
      1 ≤ lb →
      (∀ p ∈ m, MatchOk e cyclic_size mll p) →
      ∀ p ∈ chainLoop e cyclic_size cyclic_pos chain lz_pos mll nll fuel cm lb m,
        MatchOk e cyclic_size mll p := by
  intro fuel
  induction fuel with
  | zero =>
      intro cm lb m _ _ hm p hp
      exact hm p hp
  | succ n ih =>
      intro cm lb m hcm hlb hm p hp
      unfold chainLoop at hp
      dsimp only at hp
      by_cases hge : lz_pos - cm ≥ cyclic_size
      · rw [if_pos hge] at hp
        exact hm p hp
      · rw [if_neg hge] at hp
        obtain ⟨hd1, hd2⟩ := hcm (by omega)
        by_cases hg : e.get_byte lb (lz_pos - cm) = e.get_byte lb 0 ∧
            e.get_byte 0 (lz_pos - cm) = e.get_current_byte
        · rw [if_pos hg] at hp
          have hx := extend_match_bounds e.buf e.read_pos 1 (lz_pos - cm) mll
            (by omega) Hmll
          by_cases hlen : extend_match e.buf e.read_pos 1 (lz_pos - cm) mll > lb
          · rw [if_pos hlen] at hp
            have hbyte0 : e.buf e.read_pos.toNat =
                e.buf (e.read_pos - (lz_pos - cm)).toNat := by
              have h2 := hg.2
              unfold LZEncData.get_byte LZEncData.get_current_byte at h2
              dsimp only at h2
              rw [if_neg (show ¬ e.read_pos + 0 - (lz_pos - cm) < 0 from by omega)] at h2
              rw [show min (e.read_pos + 0 - (lz_pos - cm)).toNat e.buf_limit =
                (e.read_pos - (lz_pos - cm)).toNat from by omega] at h2
              exact h2.symm
            have hnew : MatchOk e cyclic_size mll
                (lz_pos - cm - 1, extend_match e.buf e.read_pos 1 (lz_pos - cm) mll) := by
              unfold MatchOk
              dsimp only
              refine ⟨by omega, by omega, by omega, by omega, hx.2, ?_⟩
              intro k hk
              rw [show e.read_pos - (lz_pos - cm - 1) - 1 = e.read_pos - (lz_pos - cm)
                from by ring]
              rcases Nat.eq_zero_or_pos k with hk0 | hk1
              · subst hk0
                simpa using hbyte0
              · exact extend_match_eq e.buf e.read_pos 1 (lz_pos - cm) mll Hrp
                  (by omega) (by omega) hd2 k (by exact_mod_cast hk1) hk
            have hpush : ∀ q ∈ pushMatch m (lz_pos - cm - 1)
                (extend_match e.buf e.read_pos 1 (lz_pos - cm) mll),
                MatchOk e cyclic_size mll q := by
              intro q hq
              simp only [pushMatch, List.mem_append, List.mem_singleton] at hq
              rcases hq with hq | hq
              · exact hm q hq
              · rw [hq]
                exact hnew
            by_cases hnl : extend_match e.buf e.read_pos 1 (lz_pos - cm) mll ≥ nll
            · rw [if_pos hnl] at hp
              exact hpush p hp
            · rw [if_neg hnl] at hp
              exact ih _ _ _ (fun hh => Hchain _ hh) (by omega) hpush p hp
          · rw [if_neg hlen] at hp
            exact ih _ _ _ (fun hh => Hchain _ hh) hlb hm p hp
        · rw [if_neg hg] at hp
          exact ih _ _ _ (fun hh => Hchain _ hh) hlb hm p hp

/-- C3 (amended): every `(dist, len)` pair recorded by `HC4::find_matches`
(body `find_matches_core`, reached with `avail != 0`, which `move_pos(4, 4)`
guarantees to mean `avail >= 4`) is a valid match: `dist >= 0`,
`dist + 1 < cyclic_size` (i.e. `dist < dict_size`), `dist + 1 <= read_pos`,
`2 <= len <= match_len_limit = min(avail, match_len_max)`, and the `len`
bytes at `read_pos` equal the `len` bytes at `read_pos - dist - 1`.  The
hash-table hypotheses state the provenance invariant the encoder maintains:
a table entry within `cyclic_size` of `lz_pos` points back at a position
whose bytes produced that bucket.  The claim's bound `len <= nice_len` is
false (see the counterexample); `nice_len` only stops the chain walk early. -/
theorem claim_C3_match_validity (h : HC4) (e : LZEncData) (avail : Int)
    (Hrp : 0 ≤ e.read_pos) (Hrpb : e.read_pos ≤ (e.buf_limit : Int))
    (Hav : 4 ≤ avail) (Hmlm : 3 ≤ e.match_len_max)
    (Hbyte : ∀ i, e.buf i < 256)
    (Hh2 : ∀ v, wrap32 (h.lz_pos - h.hash2_table v) < h.cyclic_size →
      1 ≤ wrap32 (h.lz_pos - h.hash2_table v) ∧
      wrap32 (h.lz_pos - h.hash2_table v) ≤ e.read_pos ∧
      calcHash2 (e.buf (e.read_pos - wrap32 (h.lz_pos - h.hash2_table v)).toNat)
        (e.buf ((e.read_pos - wrap32 (h.lz_pos - h.hash2_table v)).toNat + 1)) = v)
    (Hh3 : ∀ v, wrap32 (h.lz_pos - h.hash3_table v) < h.cyclic_size →
      1 ≤ wrap32 (h.lz_pos - h.hash3_table v) ∧
      wrap32 (h.lz_pos - h.hash3_table v) ≤ e.read_pos ∧
      calcHash3 (e.buf (e.read_pos - wrap32 (h.lz_pos - h.hash3_table v)).toNat)
        (e.buf ((e.read_pos - wrap32 (h.lz_pos - h.hash3_table v)).toNat + 1))
        (e.buf ((e.read_pos - wrap32 (h.lz_pos - h.hash3_table v)).toNat + 2)) = v)
    (Hh4 : ∀ v, h.lz_pos - h.hash4_table v < h.cyclic_size →
      1 ≤ h.lz_pos - h.hash4_table v ∧ h.lz_pos - h.hash4_table v ≤ e.read_pos)
    (Hchain : ∀ j, h.lz_pos - h.chain j < h.cyclic_size →
      1 ≤ h.lz_pos - h.chain j ∧ h.lz_pos - h.chain j ≤ e.read_pos) :
    ∀ p ∈ (h.find_matches_core e avail).2,
      MatchOk e h.cyclic_size
        (if avail < e.match_len_max then avail else e.match_len_max) p := by
  intro p hp
  unfold HC4.find_matches_core at hp
  dsimp only at hp
  obtain ⟨b0, hb0⟩ : ∃ x, x = e.buf e.read_pos.toNat := ⟨_, rfl⟩
  obtain ⟨b1, hb1⟩ : ∃ x, x = e.buf (e.read_pos.toNat + 1) := ⟨_, rfl⟩
  obtain ⟨b2, hb2⟩ : ∃ x, x = e.buf (e.read_pos.toNat + 2) := ⟨_, rfl⟩
  obtain ⟨b3, hb3⟩ : ∃ x, x = e.buf (e.read_pos.toNat + 3) := ⟨_, rfl⟩
  rw [← hb0, ← hb1, ← hb2, ← hb3] at hp
  obtain ⟨delta2, hdelta2⟩ :
      ∃ x, x = wrap32 (h.lz_pos - h.hash2_table (calcHash2 b0 b1)) := ⟨_, rfl⟩
  obtain ⟨delta3, hdelta3⟩ :
      ∃ x, x = wrap32 (h.lz_pos - h.hash3_table (calcHash3 b0 b1 b2)) := ⟨_, rfl⟩
  obtain ⟨cmv, hcmv⟩ :
      ∃ x, x = h.hash4_table (calcHash4 h.hash4_mask b0 b1 b2 b3) := ⟨_, rfl⟩
  rw [← hdelta2, ← hdelta3, ← hcmv] at hp
  obtain ⟨mll, hmll⟩ :
      ∃ x, x = (if avail < e.match_len_max then avail else e.match_len_max) := ⟨_, rfl⟩
  obtain ⟨nll, hnll⟩ :
      ∃ x, x = (if avail < e.match_len_max ∧ e.nice_len > avail
        then avail else e.nice_len) := ⟨_, rfl⟩
  rw [← hmll, ← hnll] at hp
  rw [← hmll]
  have Hmll3 : 3 ≤ mll := by
    rw [hmll]
    split <;> omega
  have Hcm : h.lz_pos - cmv < h.cyclic_size →
      1 ≤ h.lz_pos - cmv ∧ h.lz_pos - cmv ≤ e.read_pos := by
    rw [hcmv]
    exact Hh4 _
  have Hchain' : ∀ j,
      h.lz_pos - (if j = h.cyclic_pos.toNat then cmv else h.chain j) < h.cyclic_size →
      1 ≤ h.lz_pos - (if j = h.cyclic_pos.toNat then cmv else h.chain j) ∧
      h.lz_pos - (if j = h.cyclic_pos.toNat then cmv else h.chain j) ≤ e.read_pos := by
    intro j
    by_cases hj : j = h.cyclic_pos.toNat
    · rw [if_pos hj]
      exact Hcm
    · rw [if_neg hj]
      exact Hchain j
  by_cases hc2 : delta2 < h.cyclic_size ∧
      e.get_byte_by_pos (e.read_pos - delta2) = e.get_byte_by_pos e.read_pos
  · rw [if_pos hc2] at hp
    obtain ⟨hc21, hc22⟩ := hc2
    have h2f := Hh2 (calcHash2 b0 b1)
    rw [← hdelta2] at h2f
    obtain ⟨hd21, hd22, hd2hash⟩ := h2f hc21
    have hb0eq : e.buf (e.read_pos - delta2).toNat = b0 := by
      unfold LZEncData.get_byte_by_pos at hc22
      rw [if_neg (show ¬ e.read_pos - delta2 < 0 from by omega),
        if_neg (show ¬ e.read_pos < 0 from by omega)] at hc22
      rw [show min (e.read_pos - delta2).toNat e.buf_limit =
          (e.read_pos - delta2).toNat from by omega,
        show min e.read_pos.toNat e.buf_limit = e.read_pos.toNat from by omega] at hc22
      rw [hb0]
      exact hc22
    rw [hb0eq] at hd2hash
    have hb1eq : e.buf ((e.read_pos - delta2).toNat + 1) = b1 :=
      calcHash2_inj b0 _ b1 (Hbyte _) (by rw [hb1]; exact Hbyte _) hd2hash
    have hm0bytes : ∀ k : Nat, (k : Int) < 2 →
        e.buf (e.read_pos.toNat + k) = e.buf ((e.read_pos - delta2).toNat + k) := by
      intro k hk
      match k with
      | 0 => simpa using (hb0.symm.trans hb0eq.symm)
      | 1 => exact hb1.symm.trans hb1eq.symm
      | k + 2 => exact absurd hk (by omega)
    have hA2 : MatchOk e h.cyclic_size mll (delta2 - 1, 2) := by
      unfold MatchOk
      dsimp only
      refine ⟨by omega, by omega, by omega, by omega, by omega, ?_⟩
      intro k hk
      rw [show e.read_pos - (delta2 - 1) - 1 = e.read_pos - delta2 from by ring]
      exact hm0bytes k hk
    by_cases hc3 : delta2 ≠ delta3 ∧ delta3 < h.cyclic_size ∧
        e.get_byte 0 delta3 = e.get_current_byte
    · rw [if_pos hc3] at hp
      dsimp only at hp
      obtain ⟨hc31, hc32, hc33⟩ := hc3
      have h3f := Hh3 (calcHash3 b0 b1 b2)
      rw [← hdelta3] at h3f
      obtain ⟨hd31, hd32, hd3hash⟩ := h3f hc32
      have hb0eq3 : e.buf (e.read_pos - delta3).toNat = b0 := by
        unfold LZEncData.get_byte LZEncData.get_current_byte at hc33
        dsimp only at hc33
        rw [if_neg (show ¬ e.read_pos + 0 - delta3 < 0 from by omega)] at hc33
        rw [show min (e.read_pos + 0 - delta3).toNat e.buf_limit =
            (e.read_pos - delta3).toNat from by omega] at hc33
        rw [hb0]
        exact hc33
      rw [hb0eq3] at hd3hash
      have hb12 := calcHash3_inj b0 _ _ b1 b2 (Hbyte _) (Hbyte _)
        (by rw [hb1]; exact Hbyte _) (by rw [hb2]; exact Hbyte _) hd3hash
      have hm3bytes : ∀ k : Nat, (k : Int) < 3 →
          e.buf (e.read_pos.toNat + k) = e.buf ((e.read_pos - delta3).toNat + k) := by
        intro k hk
        match k with
        | 0 => simpa using (hb0.symm.trans hb0eq3.symm)
        | 1 => exact hb1.symm.trans hb12.1.symm
        | 2 => exact hb2.symm.trans hb12.2.symm
        | k + 3 => exact absurd hk (by omega)
      have hx := extend_match_bounds e.buf e.read_pos 3 delta3 mll (by omega) Hmll3
      have hB : MatchOk e h.cyclic_size mll
          (delta3 - 1, extend_match e.buf e.read_pos 3 delta3 mll) := by
        unfold MatchOk
        dsimp only
        refine ⟨by omega, by omega, by omega, by omega, hx.2, ?_⟩
        intro k hk
        rw [show e.read_pos - (delta3 - 1) - 1 = e.read_pos - delta3 from by ring]
        rcases Nat.lt_or_ge k 3 with hk3 | hk3
        · exact hm3bytes k (by omega)
        · exact extend_match_eq e.buf e.read_pos 3 delta3 mll Hrp (by omega) (by omega)
            hd32 k (by omega) hk
      have hboth : ∀ q ∈ [(delta2 - 1, (2 : Int)),
          (delta3 - 1, extend_match e.buf e.read_pos 3 delta3 mll)],
          MatchOk e h.cyclic_size mll q := by
        intro q hq
        simp only [List.mem_cons, List.not_mem_nil, or_false] at hq
        rcases hq with hq | hq
        · rw [hq]
          exact hA2
        · rw [hq]
          exact hB
      rw [if_pos (show pushMatch (pushMatch [] (delta2 - 1) 2) (delta3 - 1) 3 ≠ []
        from by simp [pushMatch])] at hp
      by_cases hnl : extend_match e.buf e.read_pos 3 delta3 mll ≥ nll
      · rw [if_pos hnl] at hp
        dsimp only at hp
        simp only [pushMatch, List.nil_append, List.cons_append, setLastLen] at hp
        exact hboth p hp
      · rw [if_neg hnl] at hp
        dsimp only at hp
        simp only [pushMatch, List.nil_append, List.cons_append, setLastLen] at hp
        exact chainLoop_ok e h.cyclic_size h.cyclic_pos _ h.lz_pos mll nll Hrp Hrpb
          (by omega) Hchain' _ cmv _ _ Hcm (by split <;> omega) hboth p hp
    · rw [if_neg hc3] at hp
      dsimp only at hp
      rw [if_neg (show ¬ (pushMatch ([] : List (Int × Int)) (delta2 - 1) 2 = [])
        from by simp [pushMatch])] at hp
      rw [if_pos (show pushMatch ([] : List (Int × Int)) (delta2 - 1) 2 ≠ []
        from by simp [pushMatch])] at hp
      have hx := extend_match_bounds e.buf e.read_pos 2 delta2 mll (by omega) (by omega)
      have hA : MatchOk e h.cyclic_size mll
          (delta2 - 1, extend_match e.buf e.read_pos 2 delta2 mll) := by
        unfold MatchOk
        dsimp only
        refine ⟨by omega, by omega, by omega, by omega, hx.2, ?_⟩
        intro k hk
        rw [show e.read_pos - (delta2 - 1) - 1 = e.read_pos - delta2 from by ring]
        rcases Nat.lt_or_ge k 2 with hk2 | hk2
        · exact hm0bytes k (by omega)
        · exact extend_match_eq e.buf e.read_pos 2 delta2 mll Hrp (by omega) (by omega)
            hd22 k (by omega) hk
      have hsing : ∀ q ∈ [(delta2 - 1, extend_match e.buf e.read_pos 2 delta2 mll)],
          MatchOk e h.cyclic_size mll q := by
        intro q hq
        rw [List.mem_singleton] at hq
        rw [hq]
        exact hA
      by_cases hnl : extend_match e.buf e.read_pos 2 delta2 mll ≥ nll
      · rw [if_pos hnl] at hp
        dsimp only at hp
        simp only [pushMatch, List.nil_append, setLastLen] at hp
        exact hsing p hp
      · rw [if_neg hnl] at hp
        dsimp only at hp
        simp only [pushMatch, List.nil_append, setLastLen] at hp
        exact chainLoop_ok e h.cyclic_size h.cyclic_pos _ h.lz_pos mll nll Hrp Hrpb
          (by omega) Hchain' _ cmv _ _ Hcm (by split <;> omega) hsing p hp
  · rw [if_neg hc2] at hp
    by_cases hc3 : delta2 ≠ delta3 ∧ delta3 < h.cyclic_size ∧
        e.get_byte 0 delta3 = e.get_current_byte
    · rw [if_pos hc3] at hp
      dsimp only at hp
      obtain ⟨hc31, hc32, hc33⟩ := hc3
      have h3f := Hh3 (calcHash3 b0 b1 b2)
      rw [← hdelta3] at h3f
      obtain ⟨hd31, hd32, hd3hash⟩ := h3f hc32
      have hb0eq3 : e.buf (e.read_pos - delta3).toNat = b0 := by
        unfold LZEncData.get_byte LZEncData.get_current_byte at hc33
        dsimp only at hc33
        rw [if_neg (show ¬ e.read_pos + 0 - delta3 < 0 from by omega)] at hc33
        rw [show min (e.read_pos + 0 - delta3).toNat e.buf_limit =
            (e.read_pos - delta3).toNat from by omega] at hc33
        rw [hb0]
        exact hc33
      rw [hb0eq3] at hd3hash
      have hb12 := calcHash3_inj b0 _ _ b1 b2 (Hbyte _) (Hbyte _)
        (by rw [hb1]; exact Hbyte _) (by rw [hb2]; exact Hbyte _) hd3hash
      have hm3bytes : ∀ k : Nat, (k : Int) < 3 →
          e.buf (e.read_pos.toNat + k) = e.buf ((e.read_pos - delta3).toNat + k) := by
        intro k hk
        match k with
        | 0 => simpa using (hb0.symm.trans hb0eq3.symm)
        | 1 => exact hb1.symm.trans hb12.1.symm
        | 2 => exact hb2.symm.trans hb12.2.symm
        | k + 3 => exact absurd hk (by omega)
      have hx := extend_match_bounds e.buf e.read_pos 3 delta3 mll (by omega) Hmll3
      have hB : MatchOk e h.cyclic_size mll
          (delta3 - 1, extend_match e.buf e.read_pos 3 delta3 mll) := by
        unfold MatchOk
        dsimp only
        refine ⟨by omega, by omega, by omega, by omega, hx.2, ?_⟩
        intro k hk
        rw [show e.read_pos - (delta3 - 1) - 1 = e.read_pos - delta3 from by ring]
        rcases Nat.lt_or_ge k 3 with hk3 | hk3
        · exact hm3bytes k (by omega)
        · exact extend_match_eq e.buf e.read_pos 3 delta3 mll Hrp (by omega) (by omega)
            hd32 k (by omega) hk
      have hsing : ∀ q ∈ [(delta3 - 1, extend_match e.buf e.read_pos 3 delta3 mll)],
          MatchOk e h.cyclic_size mll q := by
        intro q hq
        rw [List.mem_singleton] at hq
        rw [hq]
        exact hB
      rw [if_pos (show pushMatch ([] : List (Int × Int)) (delta3 - 1) 3 ≠ []
        from by simp [pushMatch])] at hp
      by_cases hnl : extend_match e.buf e.read_pos 3 delta3 mll ≥ nll
      · rw [if_pos hnl] at hp
        dsimp only at hp
        simp only [pushMatch, List.nil_append, setLastLen] at hp
        exact hsing p hp
      · rw [if_neg hnl] at hp
        dsimp only at hp
        simp only [pushMatch, List.nil_append, setLastLen] at hp
        exact chainLoop_ok e h.cyclic_size h.cyclic_pos _ h.lz_pos mll nll Hrp Hrpb
          (by omega) Hchain' _ cmv _ _ Hcm (by split <;> omega) hsing p hp
    · rw [if_neg hc3] at hp
      dsimp only at hp
      rw [if_neg (show ¬ (([] : List (Int × Int)) ≠ []) from by simp)] at hp
      dsimp only at hp
      exact chainLoop_ok e h.cyclic_size h.cyclic_pos _ h.lz_pos mll nll Hrp Hrpb
        (by omega) Hchain' _ cmv _ _ Hcm (by omega)
        (by intro q hq; exact absurd hq (List.not_mem_nil q)) p hp

/-- Window state for the C3 witness: constant byte 7 everywhere,
`read_pos = 5`, `match_len_max = 3`. -/
def c3WitnessE : LZEncData :=
  { buf := fun _ => 7
    buf_limit := 100
    buf_size := 101
    keep_size_before := 0
    keep_size_after := 0
    match_len_max := 3
    nice_len := 4
    read_pos := 5
    read_limit := 50
    write_pos := 20
    finishing := false
    pending_size := 0 }

/-- Match-finder state for the C3 witness: the hash-2 and hash-3 buckets
of the constant byte point one position back (`lz_pos 10`, entry 9), all
other entries are stale. -/
def c3WitnessH : HC4 :=
  { hash2_table := fun v => if v = calcHash2 7 7 then 9 else 0
    hash3_table := fun v => if v = calcHash3 7 7 7 then 9 else 0
    hash4_table := fun _ => 0
    hash4_mask := 0xFFFF
    chain := fun _ => 0
    depth_limit := 4
    cyclic_size := 7
    cyclic_pos := 2
    lz_pos := 10 }

/-- Concrete instance of the amended C3 theorem with every hypothesis
satisfied and a non-empty result: `find_matches_core` records exactly the
match `(dist 0, len 3)` and the theorem certifies its validity. -/
theorem claim_C3_match_validity_witness :
    (c3WitnessH.find_matches_core c3WitnessE 4).2 = [(0, 3)] ∧
    ∀ p ∈ (c3WitnessH.find_matches_core c3WitnessE 4).2,
      MatchOk c3WitnessE c3WitnessH.cyclic_size
        (if (4 : Int) < c3WitnessE.match_len_max then 4
          else c3WitnessE.match_len_max) p := by
  constructor
  · decide
  · exact claim_C3_match_validity c3WitnessH c3WitnessE 4
      (by decide) (by decide) (by decide) (by decide)
      (fun i => show (7 : Nat) < 256 from by decide)
      (by
        intro v hv
        by_cases hvb : v = calcHash2 7 7
        · subst hvb
          exact ⟨by decide, by decide, by decide⟩
        · rw [show c3WitnessH.hash2_table v = 0 from by simp [c3WitnessH, hvb]] at hv
          exact absurd hv (by decide))
      (by
        intro v hv
        by_cases hvb : v = calcHash3 7 7 7
        · subst hvb
          exact ⟨by decide, by decide, by decide⟩
        · rw [show c3WitnessH.hash3_table v = 0 from by simp [c3WitnessH, hvb]] at hv
          exact absurd hv (by decide))
      (fun v hv => absurd hv (show ¬((10 : Int) - 0 < 7) from by decide))
      (fun j hj => absurd hj (show ¬((10 : Int) - 0 < 7) from by decide))

/-! ## `XZReader::try_start_next_stream` (`src/xz/reader.rs`)

The inter-stream logic of the XZ reader: after a stream's index and
footer, `prepare_next_block` calls `try_start_next_stream` when
`allow_multiple_streams` is set, and continues into the next stream only
when it returns `Ok(true)`. -/

/-- `XZ_MAGIC` (`src/xz.rs`): `0xFD` followed by `7zXZ` and `0x00`. -/
def XZ_MAGIC : List Nat := [0xFD, 0x37, 0x7A, 0x58, 0x5A, 0x00]

/-- `CheckType` (`src/xz.rs`). -/
inductive CheckType where
  | none
  | crc32
  | crc64
  | sha256
  deriving DecidableEq, Repr

/-- `CheckType::from_byte` (`src/xz.rs`). -/
def CheckType.from_byte (byte : Nat) : Except Err CheckType :=
  if byte = 0x00 then Except.ok CheckType.none
  else if byte = 0x01 then Except.ok CheckType.crc32
  else if byte = 0x04 then Except.ok CheckType.crc64
  else if byte = 0x0A then Except.ok CheckType.sha256
  else Except.error (error_invalid_data "Unsupported XZ check type")

/-- Modelled from the spec: crate-root `ByteReader::read_u32`
(little-endian u32), missing from `src/`. -/
def read_u32_le : List Nat → (Except Err Nat) × List Nat
  | b0 :: b1 :: b2 :: b3 :: rest =>
      (Except.ok (b0 + b1 * 256 + b2 * 65536 + b3 * 16777216), rest)
  | rest => (Except.error ⟨ErrKind.unexpectedEof, "failed to fill whole buffer"⟩,
      rest.drop rest.length)

/-- `StreamHeader::parse_flags_and_crc` (`src/xz/reader.rs`): two flag
bytes (the first must be zero), check type from the second, then a
little-endian CRC32 of the two flag bytes. -/
def StreamHeader.parse_flags_and_crc (src : List Nat) :
    Except Err (CheckType × List Nat) :=
  match src with
  | f0 :: f1 :: rest =>
      if f0 ≠ 0 then Except.error (error_invalid_data "invalid XZ stream flags")
      else
        match CheckType.from_byte f1 with
        | Except.error e => Except.error e
        | Except.ok check_type =>
            match read_u32_le rest with
            | (Except.error e, _) => Except.error e
            | (Except.ok expected_crc, rest2) =>
                if expected_crc ≠ crc32 [f0, f1] then
                  Except.error (error_invalid_data "XZ stream header CRC32 mismatch")
                else Except.ok (check_type, rest2)
  | _ => Except.error ⟨ErrKind.unexpectedEof, "failed to fill whole buffer"⟩

/-- `XZReader::try_start_next_stream` (`src/xz/reader.rs`): skip zero
padding bytes one at a time; at EOF report that no further stream
follows (`Ok(false)`, here `none`).  On the first non-zero byte the
source returns an error when the byte equals `XZ_MAGIC[0]`; otherwise it
reads five more bytes (erroring at EOF) and compares the 6-byte buffer
-- whose first byte at this point necessarily differs from
`XZ_MAGIC[0]` -- against the magic, checks the padding alignment, and
parses the stream flags (`Ok(true)`, here `some check_type`). -/
def try_start_next_stream : Nat → List Nat → Except Err (Option CheckType × List Nat)
  | _, [] => Except.ok (none, [])
  | padding_bytes, byte :: rest =>
      if byte = 0 then try_start_next_stream (padding_bytes + 1) rest
      else if byte = XZ_MAGIC.getD 0 0 then
        Except.error (error_invalid_data "invalid data after stream")
      else if rest.length < 5 then
        Except.error (error_invalid_data "incomplete XZ magic bytes")
      else if byte :: rest.take 5 ≠ XZ_MAGIC then
        Except.error (error_invalid_data "invalid data after stream padding")
      else if padding_bytes % 4 ≠ 0 then
        Except.error (error_invalid_data "stream padding size not multiple of 4")
      else
        match StreamHeader.parse_flags_and_crc (rest.drop 5) with
        | Except.error e => Except.error e
        | Except.ok (check_type, rest2) => Except.ok (some check_type, rest2)

theorem tsns_no_stream : ∀ (input : List Nat) (pad : Nat),
    try_start_next_stream pad input = Except.ok (none, ([] : List Nat)) ∨
    ∃ e, try_start_next_stream pad input = Except.error e := by
  intro input
  induction input with
  | nil =>
      intro pad
      left
      rfl
  | cons b rest ih =>
      intro pad
      unfold try_start_next_stream
      by_cases hb : b = 0
      · rw [if_pos hb]
        exact ih (pad + 1)
      · rw [if_neg hb]
        by_cases hfd : b = XZ_MAGIC.getD 0 0
        · rw [if_pos hfd]
          exact Or.inr ⟨_, rfl⟩
        · rw [if_neg hfd]
          by_cases h5 : rest.length < 5
          · rw [if_pos h5]
            exact Or.inr ⟨_, rfl⟩
          · rw [if_neg h5]
            by_cases hm : b :: rest.take 5 ≠ XZ_MAGIC
            · rw [if_pos hm]
              exact Or.inr ⟨_, rfl⟩
            · exfalso
              apply hfd
              have heq := not_not.mp hm
              have hhead : b = 0xFD := by
                have h0 := congrArg (fun l => l.getD 0 0) heq
                simpa [XZ_MAGIC] using h0
              rw [hhead]
              rfl

theorem tsns_magic_rejected : ∀ (k pad : Nat) (rest : List Nat),
    try_start_next_stream pad (List.replicate k 0 ++ 0xFD :: rest) =
      Except.error (error_invalid_data "invalid data after stream") := by
  intro k
  induction k with
  | zero =>
      intro pad rest
      simp only [List.replicate, List.nil_append]
      rfl
  | succ n ih =>
      intro pad rest
      rw [List.replicate_succ, List.cons_append]
      rw [show try_start_next_stream pad (0 :: (List.replicate n 0 ++ 0xFD :: rest)) =
        try_start_next_stream (pad + 1) (List.replicate n 0 ++ 0xFD :: rest) from rfl]
      exact ih (pad + 1) rest

/-- C2: the multi-stream continuation of `XZReader` is unreachable, so a
two-stream XZ file cannot be decoded even with
`allow_multiple_streams = true`.  First part: `try_start_next_stream`
never returns `Ok(true)` (the only non-error outcome is `Ok(false)` at
end of input), because a buffer whose first byte differs from
`XZ_MAGIC[0]` can never equal `XZ_MAGIC`.  Second part: on any
4-byte-aligned (indeed any) zero padding followed by a second valid
stream -- whose first byte is necessarily `XZ_MAGIC[0] = 0xFD` -- it
returns the `InvalidData` error "invalid data after stream", so
`XZReader::read` surfaces an error instead of the second stream's data. -/
theorem claim_C2_second_stream_rejected :
    (∀ (pad : Nat) (input : List Nat),
      try_start_next_stream pad input = Except.ok (none, ([] : List Nat)) ∨
      ∃ e, try_start_next_stream pad input = Except.error e) ∧
    (∀ (k : Nat) (rest : List Nat),
      try_start_next_stream 0 (List.replicate k 0 ++ 0xFD :: rest) =
        Except.error (error_invalid_data "invalid data after stream")) :=
  ⟨fun pad input => tsns_no_stream input pad,
   fun k rest => tsns_magic_rejected k 0 rest⟩

end LzmaRust
